import Mathlib

/-!
Bitcask storage engine: shallow embedding and verified properties.

The definitions below embed `src/include/types.h`, `src/src/log_file.cpp`,
`src/src/hash_index.cpp` and `src/src/bitcask.cpp`.

Modelling conventions.

* A byte is a `Fin 256`; a `std::string` or `std::vector<uint8_t>` is a `List Byte`.
* `uint32_t` values are natural numbers reduced `% 2 ^ 32` where the source
  narrows or wraps (header fields, `next_file_id_`).  File offsets and sizes are
  64-bit in the source; a file never reaches `2 ^ 63` bytes, so offset arithmetic
  is done in `Nat` without reduction.
* The header struct is copied to disk with `memcpy`, that is in host byte order;
  the embedding fixes a little-endian host.
* A `std::fstream` is a file content together with the get position and the two
  sticky state bits `eofbit` and `failbit`.  A read that runs past the end of the
  file sets both; while either is set every later `read`, `tellg`, `seekg`,
  `seekp` and `write` on the same stream is a no-op that sets `failbit` again
  (the stream's sentry fails), and nothing in the source ever calls `clear()`.
  I/O errors of the operating system (`badbit`) and allocation failures are not
  modelled.
* A data file is identified with the handle attached to it: two handles never
  share a file, which holds as long as the `uint32_t` id counter has not wrapped.
* `std::stoul` is `strtoul` with base 10 in the "C" locale and a 64-bit
  `unsigned long`.
-/

set_option maxRecDepth 100000

namespace bitcask

/-! ## Bytes and integers in memory -/

/-- One byte of a string, a buffer or a file. -/
abbrev Byte := Fin 256

/-- The byte holding `n % 256`. -/
def byte_of (n : Nat) : Byte := ⟨n % 256, Nat.mod_lt n (by decide)⟩

/-- The `w` bytes of the unsigned integer `n % 2 ^ (8 * w)` as `memcpy` lays them
out on a little-endian host. -/
def le_bytes : Nat → Nat → List Byte
  | 0, _ => []
  | w + 1, n => byte_of n :: le_bytes w (n / 256)

/-- The 4 bytes of a `uint32_t`. -/
def le32 (n : Nat) : List Byte := le_bytes 4 n

/-- The 8 bytes of a `uint64_t`. -/
def le64 (n : Nat) : List Byte := le_bytes 8 n

/-- The unsigned integer a little-endian host reads back from the bytes `bs`. -/
def le_value : List Byte → Nat
  | [] => 0
  | b :: bs => b.val + 256 * le_value bs

/-- A buffer of `n` zero bytes: `std::vector<char> buffer(n)`. -/
def zeros (n : Nat) : List Byte := List.replicate n 0

/-- The content of a zero-initialised buffer of `n` bytes after a read stored the
bytes `got` (at most `n` of them) at its start. -/
def fill_buffer (n : Nat) (got : List Byte) : List Byte := got ++ zeros (n - got.length)

/-! ## `types.h` -/

/-- The `Result<T>` of `types.h`: a value or an error message. -/
inductive Result (α : Type) where
  | Ok (value : α)
  | Err (error : String)
  deriving DecidableEq, Repr

/-- A key or a value: a `std::string`, compared bytewise. -/
abbrev Bytes := List Byte

/-- The in-memory `IndexEntry` of `types.h`. -/
structure IndexEntry where
  file_id : Nat
  value_pos : Nat
  value_size : Nat
  timestamp : Nat
  deriving DecidableEq, Repr

/-- `std::numeric_limits<uint32_t>::max()`. -/
def u32_max : Nat := 2 ^ 32 - 1

/-- `std::numeric_limits<uint64_t>::max()`. -/
def u64_max : Nat := 2 ^ 64 - 1

/-- `IndexEntry::is_tombstone`. -/
def IndexEntry.is_tombstone (e : IndexEntry) : Bool :=
  e.file_id == u32_max && e.value_pos == u64_max && e.value_size == u32_max

/-- `IndexEntry::create_tombstone`. -/
def IndexEntry.create_tombstone (ts : Nat) : IndexEntry :=
  { file_id := u32_max, value_pos := u64_max, value_size := u32_max, timestamp := ts }

/-! ## `log_file.cpp`: CRC-32 and the record codec -/

/-- One round of the inner loop of `LogFile::calculate_crc32`. -/
def crc_round (crc : Nat) : Nat :=
  if crc &&& 1 = 1 then (crc >>> 1) ^^^ 0xEDB88320 else crc >>> 1

/-- One round of the outer loop of `LogFile::calculate_crc32`: `crc ^= data[i]`
followed by eight inner rounds. -/
def crc_update (crc : Nat) (b : Byte) : Nat :=
  crc_round^[8] (crc ^^^ b.val)

/-- `LogFile::calculate_crc32`; the final `~crc` on a `uint32_t` is the exclusive
or with `0xFFFFFFFF`. -/
def calculate_crc32 (data : List Byte) : Nat :=
  (data.foldl crc_update 0xFFFFFFFF) ^^^ 0xFFFFFFFF

/-- `LogFile::pack_entry`: the 16-byte header with `crc = 0`, then key and value.
`key.size()` and `value.size()` are narrowed to `uint32_t` in the header. -/
def pack_entry (timestamp : Nat) (key value : Bytes) : List Byte :=
  le32 0 ++ le32 timestamp ++ le32 key.length ++ le32 value.length ++ key ++ value

/-- The bytes `LogFile::append` hands to `write`: the packed entry whose first
four bytes were overwritten with the CRC of the bytes from offset 4 on. -/
def entry_bytes (timestamp : Nat) (key value : Bytes) : List Byte :=
  let packed := pack_entry timestamp key value
  let crc := calculate_crc32 (packed.drop 4)
  le32 crc ++ packed.drop 4

/-! ## `log_file.cpp`: the log file handle -/

/-- A `LogFile` object: its fields, the bytes of the file `cask.<file_id_>` it is
attached to, and the state of its `std::fstream`. -/
structure LogFile where
  file_id_ : Nat
  read_only_ : Bool
  current_size_ : Nat
  /-- Value of `file_.is_open()`. -/
  is_open : Bool
  /-- Bytes of the underlying file. -/
  content : List Byte
  /-- Position of the stream. -/
  pos : Nat
  eofbit : Bool
  failbit : Bool
  deriving DecidableEq, Repr

/-- The `EntryMetadata` of `log_file.h`. -/
structure EntryMetadata where
  key : Bytes
  value_pos : Nat
  value_size : Nat
  timestamp : Nat
  deriving DecidableEq, Repr

namespace LogFile

/-- The constructor `LogFile(file_id, directory, read_only)` on a file that
exists with the bytes `content` (for a writable handle a missing file is created
empty first, which is `content = []`). -/
def mk_open (file_id : Nat) (content : List Byte) (read_only : Bool) : LogFile :=
  { file_id_ := file_id, read_only_ := read_only, current_size_ := content.length,
    is_open := true, content := content, pos := 0, eofbit := false, failbit := false }

/-- `LogFile::id`. -/
def id (f : LogFile) : Nat := f.file_id_

/-- `LogFile::size`. -/
def size (f : LogFile) : Nat := f.current_size_

/-- `LogFile::close`. -/
def close (f : LogFile) : LogFile := { f with is_open := false }

/-- `file_.good()`: no state bit is set. -/
def good (f : LogFile) : Bool := !f.eofbit && !f.failbit

/-- `file_.eof()`. -/
def eof (f : LogFile) : Bool := f.eofbit

/-- `file_.tellg()`: the position, or `-1` (setting `failbit`) when the stream is
not good. -/
def tellg (f : LogFile) : Int × LogFile :=
  if f.good then ((f.pos : Int), f) else (-1, { f with failbit := true })

/-- `file_.seekg(p, std::ios::beg)`: clears `eofbit`, then moves the position
unless `failbit` is set. -/
def seekg (f : LogFile) (p : Nat) : LogFile :=
  if f.failbit then { f with eofbit := false } else { f with eofbit := false, pos := p }

/-- `file_.read(buf, n)`: the bytes stored into `buf` and the stream afterwards.
Fewer than `n` bytes are available only at the end of the file; then `eofbit` and
`failbit` are set.  On a stream that is not good nothing is read. -/
def read (f : LogFile) (n : Nat) : List Byte × LogFile :=
  if f.good then
    let got := (f.content.drop f.pos).take n
    if got.length = n then (got, { f with pos := f.pos + n })
    else (got, { f with pos := f.pos + got.length, eofbit := true, failbit := true })
  else ([], { f with failbit := true })

/-- `LogFile::append`.  `seekp`, `write` and `flush` act only on a good stream
(the file is opened with `std::ios::app`, so the bytes go to its end); the source
does not look at the stream state afterwards. -/
def append (f : LogFile) (key value : Bytes) (timestamp : Nat) : Result Nat × LogFile :=
  if f.read_only_ then (.Err "Cannot append to read-only file", f)
  else if !f.is_open then (.Err "File not open", f)
  else
    let packed := entry_bytes timestamp key value
    let value_pos := f.current_size_ + 16 + key.length
    let f1 : LogFile :=
      if f.good then
        { f with content := f.content ++ packed, pos := (f.content ++ packed).length }
      else { f with failbit := true }
    (.Ok value_pos, { f1 with current_size_ := f1.current_size_ + packed.length })

/-- `LogFile::read_value`. -/
def read_value (f : LogFile) (pos value_size : Nat) : Result Bytes × LogFile :=
  if !f.is_open then (.Err "File not open", f)
  else
    let (got, f1) := (f.seekg pos).read value_size
    let buffer := fill_buffer value_size got
    if !f1.good && !f1.eof then (.Err "Failed to read value from file", f1)
    else (.Ok buffer, f1)

/-- The `while` loop of `LogFile::read_all_entries`, run for at most `fuel`
rounds: `none` when the rounds are used up, otherwise the entries collected when
the loop is left (by its condition or by a `break`) and the stream at that
point. -/
def scan_loop : Nat → LogFile → List EntryMetadata → Option (List EntryMetadata × LogFile)
  | 0, _, _ => none
  | fuel + 1, f, entries =>
    let (p, f1) := f.tellg
    if p < (f.current_size_ : Int) then
      let (start, f2) := f1.tellg
      let entry_start := if start < 0 then u64_max else start.toNat
      let (header, f3) := f2.read 16
      if !f3.good then some (entries, f3)
      else
        let crc := le_value (header.take 4)
        let timestamp := le_value ((header.drop 4).take 4)
        let key_size := le_value ((header.drop 8).take 4)
        let value_size := le_value ((header.drop 12).take 4)
        let (key_got, f4) := f3.read key_size
        let key_buffer := fill_buffer key_size key_got
        let (value_got, f5) := f4.read value_size
        let value_buffer := fill_buffer value_size value_got
        if !f5.good && !f5.eof then some (entries, f5)
        else
          let data_for_crc := header.drop 4 ++ key_buffer ++ value_buffer
          if calculate_crc32 data_for_crc != crc then some (entries, f5)
          else
            scan_loop fuel f5 (entries ++ [{ key := key_buffer,
                                              value_pos := entry_start + 16 + key_size,
                                              value_size := value_size,
                                              timestamp := timestamp }])
    else some (entries, f1)

/-- `LogFile::read_all_entries`.  Every round of the loop that does not leave it
consumes a whole 16-byte header, and a round entered on a stream that is not good
leaves it, so `content.length + 2` rounds always suffice (`none` never occurs, see
`read_all_entries_returns`). -/
def read_all_entries (f : LogFile) : Option (Result (List EntryMetadata) × LogFile) :=
  if !f.is_open then some (.Err "File not open", f)
  else
    match scan_loop (f.content.length + 2) (f.seekg 0) [] with
    | some (entries, f1) => some (.Ok entries, f1)
    | none => none

end LogFile

end bitcask

namespace bitcask

/-! ## Reference definitions used to state the properties -/

/-- Reference CRC-32/ISO-HDLC, one message bit: the register is shifted right by
one and the reflected polynomial `0xEDB88320` is added when the bit shifted out
differs from the message bit. -/
def crc32_reference_step (reg : Nat) (bit : Bool) : Nat :=
  if (decide (reg % 2 = 1) != bit) then (reg / 2) ^^^ 0xEDB88320 else reg / 2

/-- The bits of a byte, least significant first. -/
def bits_of_byte (b : Byte) : List Bool := (List.range 8).map (fun j => b.val.testBit j)

/-- Reference CRC-32/ISO-HDLC: initial register `0xFFFFFFFF`, the message bits of
every byte fed least significant first, final exclusive or with `0xFFFFFFFF`. -/
def crc32_reference (data : List Byte) : Nat :=
  ((data.flatMap bits_of_byte).foldl crc32_reference_step 0xFFFFFFFF) ^^^ 0xFFFFFFFF

end bitcask

namespace bitcask

/-- The arguments of one `LogFile::append` call. -/
structure LogRecord where
  timestamp : Nat
  key : Bytes
  value : Bytes
  deriving DecidableEq, Repr

/-- The arguments fit their C++ types: `uint32_t` timestamp, and key and value
lengths that the `uint32_t` header fields can hold. -/
def LogRecord.fits (r : LogRecord) : Prop :=
  r.timestamp < 2 ^ 32 ∧ r.key.length < 2 ^ 32 ∧ r.value.length < 2 ^ 32

instance (r : LogRecord) : Decidable r.fits := by
  unfold LogRecord.fits
  infer_instance

/-- The bytes `append` writes for the record. -/
def LogRecord.encode (r : LogRecord) : List Byte := entry_bytes r.timestamp r.key r.value

/-- Concatenation of the encodings of the records, in order. -/
def encode_all : List LogRecord → List Byte
  | [] => []
  | r :: rs => r.encode ++ encode_all rs

/-- Successive `append` calls on the handle `f`, one per record: the results of
the calls in order and the handle after the last one. -/
def append_all (f : LogFile) : List LogRecord → List (Result Nat) × LogFile
  | [] => ([], f)
  | r :: rs =>
    let (res, f1) := f.append r.key r.value r.timestamp
    let (ress, f2) := append_all f1 rs
    (res :: ress, f2)

/-- The metadata expected for records whose encodings start at offset `base` of a
file: key, offset of the value bytes, value length and timestamp of each. -/
def entry_metas (base : Nat) : List LogRecord → List EntryMetadata
  | [] => []
  | r :: rs =>
    { key := r.key, value_pos := base + 16 + r.key.length, value_size := r.value.length,
      timestamp := r.timestamp } ::
      entry_metas (base + 16 + r.key.length + r.value.length) rs

end bitcask

namespace bitcask

/-- The bytes `bs` with bit `i % 8` of byte `i / 8` inverted (unchanged when
`i / 8` is not an index of `bs`). -/
def flip_bit : List Byte → Nat → List Byte
  | [], _ => []
  | b :: bs, i => if i < 8 then byte_of (b.val ^^^ 2 ^ i) :: bs else b :: flip_bit bs (i - 8)

namespace LogFile

/-- Bound on the rounds the scan loop can still run without leaving. -/
def scan_measure (f : LogFile) : Nat :=
  if f.good then f.content.length - f.pos + 1 else 0

end LogFile
end bitcask

namespace bitcask

/-! ## `hash_index.cpp` -/

/-- The `HashIndex::HintEntry` of `hash_index.h`. -/
structure HintEntry where
  key : Bytes
  entry : IndexEntry
  deriving DecidableEq, Repr

/-- The `HashIndex` object: its `std::unordered_map<std::string, IndexEntry>`, a
finite map with one entry per key.  The iteration order of an unordered map is
unspecified (it depends on the hash function and the bucket count, and an
overwritten key keeps its place); the embedding iterates from the most recently
inserted or overwritten key to the oldest, which is one enumeration of the same
entries and in general not the one the source produces.  Only membership,
absence of duplicates and length of `keys`, `live_entries` and `export_hints`
carry over to the source; where the order has an effect (the merge), the
enumeration is a parameter (`Bitcask.merge_of`, `Bitcask.keys_by_file_of`). -/
structure HashIndex where
  index_ : AList (fun _ : Bytes => IndexEntry)

namespace HashIndex

/-- The default-constructed, empty index. -/
def empty : HashIndex := ⟨∅⟩

/-- `HashIndex::put`: `index_[key] = entry`. -/
def put (h : HashIndex) (key : Bytes) (entry : IndexEntry) : HashIndex :=
  ⟨h.index_.insert key entry⟩

/-- `HashIndex::get`. -/
def get (h : HashIndex) (key : Bytes) : Option IndexEntry :=
  match h.index_.lookup key with
  | none => none
  | some e => if e.is_tombstone then none else some e

/-- `HashIndex::remove`: `index_[key] = IndexEntry::create_tombstone(timestamp)`. -/
def remove (h : HashIndex) (key : Bytes) (timestamp : Nat) : HashIndex :=
  ⟨h.index_.insert key (IndexEntry.create_tombstone timestamp)⟩

/-- `HashIndex::contains`. -/
def contains (h : HashIndex) (key : Bytes) : Bool := (h.get key).isSome

/-- The entries the loops of `keys`, `size` and `export_hints` do not skip, in
the enumeration order of the embedding (see `HashIndex`). -/
def live_entries (h : HashIndex) : List (Sigma fun _ : Bytes => IndexEntry) :=
  h.index_.entries.filter (fun s => !s.2.is_tombstone)

/-- `HashIndex::keys`: the live keys, each once, in the enumeration order of the
embedding; the source returns the same keys in the unspecified order of its
map. -/
def keys (h : HashIndex) : List Bytes := h.live_entries.map (fun s => s.1)

/-- `HashIndex::size`. -/
def size (h : HashIndex) : Nat := h.live_entries.length

/-- `HashIndex::clear`. -/
def clear (_h : HashIndex) : HashIndex := ⟨∅⟩

/-- `HashIndex::export_hints`. -/
def export_hints (h : HashIndex) : List HintEntry :=
  h.live_entries.map (fun s => { key := s.1, entry := s.2 })

end HashIndex

end bitcask

namespace bitcask

/-! ## `bitcask.cpp`: hint files -/

/-- The bytes `Bitcask::write_hint_file` writes for one hint: timestamp,
`key_size` (narrowed to `uint32_t`), value size, value position, key. -/
def hint_bytes (hint : HintEntry) : List Byte :=
  le32 hint.entry.timestamp ++ le32 hint.key.length ++ le32 hint.entry.value_size ++
    le64 hint.entry.value_pos ++ hint.key

/-- The content `Bitcask::write_hint_file` gives the hint file: the hints in
order (the `std::ofstream` truncates a file that exists). -/
def write_hint_file_bytes : List HintEntry → List Byte
  | [] => []
  | hint :: hints => hint_bytes hint ++ write_hint_file_bytes hints

/-- The `std::ifstream` of `Bitcask::read_hint_file`: file content, position and
state bits. -/
structure HintStream where
  content : List Byte
  pos : Nat
  eofbit : Bool
  failbit : Bool
  deriving DecidableEq, Repr

namespace HintStream

/-- A stream just opened on a file with the bytes `content`. -/
def mk_open (content : List Byte) : HintStream :=
  { content := content, pos := 0, eofbit := false, failbit := false }

/-- `hint_file.good()`. -/
def good (s : HintStream) : Bool := !s.eofbit && !s.failbit

/-- `hint_file.eof()`. -/
def eof (s : HintStream) : Bool := s.eofbit

/-- `hint_file.peek() != EOF`, and the stream afterwards: at the end of the file
`peek` sets `eofbit`; on a stream that is not good it sets `failbit` and returns
`EOF`. -/
def peek_not_eof (s : HintStream) : Bool × HintStream :=
  if s.good then
    if s.pos < s.content.length then (true, s) else (false, { s with eofbit := true })
  else (false, { s with failbit := true })

/-- `hint_file.read(buf, n)`, as `LogFile.read`. -/
def read (s : HintStream) (n : Nat) : List Byte × HintStream :=
  if s.good then
    let got := (s.content.drop s.pos).take n
    if got.length = n then (got, { s with pos := s.pos + n })
    else (got, { s with pos := s.pos + got.length, eofbit := true, failbit := true })
  else ([], { s with failbit := true })

end HintStream

/-- The bytes of an `n`-byte local variable after a read stored `got` at its
start: the rest keeps the bytes `old` the variable held before. -/
def stored (n : Nat) (old got : List Byte) : List Byte :=
  got ++ ((old ++ zeros n).take n).drop got.length

/-- The `while` loop of `Bitcask::read_hint_file`, run for at most `fuel` rounds.
The locals `entry.timestamp`, `key_size`, `entry.value_size` and
`entry.value_pos` are not initialised by the source; `uninit` gives the 20 bytes
they hold before the reads (only a short read lets them show). -/
def hint_loop (uninit : List Byte) (file_id : Nat) :
    Nat → HintStream → HashIndex → Option (Result Bool × HashIndex)
  | 0, _, _ => none
  | fuel + 1, s, index =>
    let (more, s0) := s.peek_not_eof
    if more then
      let (ts_got, s1) := s0.read 4
      let timestamp := le_value (stored 4 (uninit.take 4) ts_got)
      let (ks_got, s2) := s1.read 4
      let key_size := le_value (stored 4 ((uninit.drop 4).take 4) ks_got)
      let (vs_got, s3) := s2.read 4
      let value_size := le_value (stored 4 ((uninit.drop 8).take 4) vs_got)
      let (vp_got, s4) := s3.read 8
      let value_pos := le_value (stored 8 ((uninit.drop 12).take 8) vp_got)
      let (key_got, s5) := s4.read key_size
      let key_buffer := fill_buffer key_size key_got
      if !s5.good && !s5.eof then some (.Err "Corrupted hint file", index)
      else
        hint_loop uninit file_id fuel s5
          (index.put key_buffer
            { file_id := file_id, value_pos := value_pos, value_size := value_size,
              timestamp := timestamp })
    else some (.Ok true, index)

/-- `Bitcask::read_hint_file` on the index `index`: `hint` is the content of
`cask.<file_id>.hint`, or `none` when the file cannot be opened.  Every round
that is followed by another one consumed at least 20 bytes, so
`content.length + 1` rounds suffice. -/
def read_hint_file (uninit : List Byte) (hint : Option (List Byte)) (file_id : Nat)
    (index : HashIndex) : Option (Result Bool × HashIndex) :=
  match hint with
  | none => some (.Ok false, index)
  | some content => hint_loop uninit file_id (content.length + 1) (HintStream.mk_open content) index

/-- The index after `index.put(key, (file_id, value_pos, value_size, timestamp))`
for each hint in order. -/
def put_hints (file_id : Nat) (index : HashIndex) : List HintEntry → HashIndex
  | [] => index
  | hint :: hints =>
    put_hints file_id
      (index.put hint.key
        { file_id := file_id, value_pos := hint.entry.value_pos,
          value_size := hint.entry.value_size, timestamp := hint.entry.timestamp }) hints

/-- The fields of the hint fit their C++ types and the key length fits the
`uint32_t` `key_size`. -/
def HintEntry.fits (hint : HintEntry) : Prop :=
  hint.key.length < 2 ^ 32 ∧ hint.entry.timestamp < 2 ^ 32 ∧ hint.entry.value_size < 2 ^ 32 ∧
    hint.entry.value_pos < 2 ^ 64

instance (hint : HintEntry) : Decidable hint.fits := by
  unfold HintEntry.fits
  infer_instance

end bitcask

namespace bitcask

/-! ## `bitcask.cpp`: the database -/

/-- The `Bitcask` object together with the hint files of its directory.

* `max_file_size` is `config_.max_file_size`.
* `active_file_` is never null once `open` has returned.
* `next_file_id_` is a `uint32_t` in the source.  The embedding keeps the number
  of increments without reduction and reduces `% 2 ^ 32` wherever the counter is
  read, which is the value the source holds.
* `hint_files id` is the content of `cask.<id>.hint` in `config_.directory`, if
  that file exists.

The data files of the directory are the files the handles `active_file_` and
`old_files_` are attached to (see `Bitcask.directory`). -/
structure Bitcask where
  max_file_size : Nat
  index_ : HashIndex
  old_files_ : List LogFile
  active_file_ : LogFile
  next_file_id_ : Nat
  hint_files : Nat → Option (List Byte)

/-- The files of a database directory: the data files `cask.<id>` as `readdir`
lists them, and the hint files `cask.<id>.hint`. -/
structure Directory where
  data_files : List (Nat × List Byte)
  hint_files : Nat → Option (List Byte)

/-- The content of `cask.<file_id>`; a file that does not exist reads as
empty. -/
def Directory.data_content (d : Directory) (file_id : Nat) : List Byte :=
  match d.data_files.find? (fun p => p.1 == file_id) with
  | some p => p.2
  | none => []

/-- `read_value` on the first handle of `files` whose id is `file_id`, as the
search loop of `Bitcask::get` finds it; `none` when there is no such handle. -/
def read_old : List LogFile → Nat → Nat → Nat → Option (Result Bytes × List LogFile)
  | [], _, _, _ => none
  | f :: fs, file_id, pos, size =>
    if f.id == file_id then
      let (r, f1) := f.read_value pos size
      some (r, f1 :: fs)
    else
      match read_old fs file_id pos size with
      | some (r, fs1) => some (r, f :: fs1)
      | none => none

/-- `keys_by_file[file_id].push_back(key)` on the `std::map`, kept as a list in
ascending order of file id. -/
def group_add (file_id : Nat) (key : Bytes) : List (Nat × List Bytes) → List (Nat × List Bytes)
  | [] => [(file_id, [key])]
  | (fid, keys) :: rest =>
    if file_id < fid then (file_id, [key]) :: (fid, keys) :: rest
    else if file_id = fid then (fid, keys ++ [key]) :: rest
    else (fid, keys) :: group_add file_id key rest

namespace Bitcask

/-- The data and hint files in the directory of the database. -/
def directory (b : Bitcask) : Directory :=
  { data_files := (b.active_file_ :: b.old_files_).map (fun f => (f.file_id_, f.content)),
    hint_files := b.hint_files }

/-- `Bitcask::rotate_active_file` with a non-null `active_file_` (it always
returns `Ok`).  The new active file is created empty unless a data file with its
id exists in the directory. -/
def rotate_active_file (b : Bitcask) : Bitcask :=
  let old_id := b.active_file_.id
  let old_files := b.old_files_ ++ [LogFile.mk_open old_id b.active_file_.content true]
  let new_id := b.next_file_id_ % 2 ^ 32
  { b with
    old_files_ := old_files
    active_file_ := LogFile.mk_open new_id (b.directory.data_content new_id) false
    next_file_id_ := b.next_file_id_ + 1 }

/-- `Bitcask::put`; `now` is the value of `std::time(nullptr)`. -/
def put (b : Bitcask) (key value : Bytes) (now : Nat) : Result Unit × Bitcask :=
  if key.isEmpty then (.Err "Key cannot be empty", b)
  else
    let timestamp := now % 2 ^ 32
    let (append_result, active) := b.active_file_.append key value timestamp
    match append_result with
    | .Err e => (.Err e, { b with active_file_ := active })
    | .Ok value_pos =>
      let entry : IndexEntry :=
        { file_id := active.id, value_pos := value_pos, value_size := value.length % 2 ^ 32,
          timestamp := timestamp }
      let b1 := { b with active_file_ := active, index_ := b.index_.put key entry }
      if b1.active_file_.size ≥ b1.max_file_size then (.Ok (), b1.rotate_active_file)
      else (.Ok (), b1)

/-- `Bitcask::get`; reading moves the stream of the file read. -/
def get (b : Bitcask) (key : Bytes) : Result Bytes × Bitcask :=
  match b.index_.get key with
  | none => (.Err "Key not found", b)
  | some entry =>
    if b.active_file_.id == entry.file_id then
      let (r, active) := b.active_file_.read_value entry.value_pos entry.value_size
      (r, { b with active_file_ := active })
    else
      match read_old b.old_files_ entry.file_id entry.value_pos entry.value_size with
      | some (r, old_files) => (r, { b with old_files_ := old_files })
      | none => (.Err "File not found for key", b)

/-- `Bitcask::del`. -/
def del (b : Bitcask) (key : Bytes) (now : Nat) : Result Unit × Bitcask :=
  if !b.index_.contains key then (.Err "Key not found", b)
  else
    let timestamp := now % 2 ^ 32
    let (append_result, active) := b.active_file_.append key [] timestamp
    match append_result with
    | .Err e => (.Err e, { b with active_file_ := active })
    | .Ok _ => (.Ok (), { b with active_file_ := active, index_ := b.index_.remove key timestamp })

/-- `Bitcask::list_keys`. -/
def list_keys (b : Bitcask) : List Bytes := b.index_.keys

/-- `Bitcask::write_hint_file` (it writes into `config_.directory`). -/
def write_hint_file (b : Bitcask) (file_id : Nat) (hints : List HintEntry) : Bitcask :=
  { b with
    hint_files := fun id => if id = file_id then some (write_hint_file_bytes hints)
                            else b.hint_files id }

/-- `Bitcask::read_hint_file`. -/
def read_hint_file (uninit : List Byte) (b : Bitcask) (file_id : Nat) :
    Option (Result Bool × Bitcask) :=
  match bitcask.read_hint_file uninit (b.hint_files file_id) file_id b.index_ with
  | some (r, index) => some (r, { b with index_ := index })
  | none => none

/-- The grouping loop of `Bitcask::merge` over `live_keys`, the vector
`index_.keys()` returned: the live keys that are not in the active file, by file
id.  The order of `live_keys` is the iteration order of the `std::unordered_map`,
which is unspecified; it decides the order of the keys inside a group. -/
def keys_by_file_of (b : Bitcask) (live_keys : List Bytes) : List (Nat × List Bytes) :=
  live_keys.foldl
    (fun groups key =>
      match b.index_.get key with
      | some entry =>
        if entry.file_id != b.active_file_.id then group_add entry.file_id key groups
        else groups
      | none => groups)
    []

/-- The grouping loop at the enumeration `HashIndex.keys` of the embedding. -/
def keys_by_file (b : Bitcask) : List (Nat × List Bytes) :=
  b.keys_by_file_of b.index_.keys

/-- The loop "copy live entries" of `Bitcask::merge` for one group. -/
def merge_keys (new_file_id : Nat) :
    List Bytes → Bitcask → LogFile → List HintEntry → Bitcask × LogFile × List HintEntry
  | [], b, merged_file, hints => (b, merged_file, hints)
  | key :: keys, b, merged_file, hints =>
    let (value_result, b1) := b.get key
    match value_result with
    | .Err _ => merge_keys new_file_id keys b1 merged_file hints
    | .Ok value =>
      match b1.index_.get key with
      | none => merge_keys new_file_id keys b1 merged_file hints
      | some entry =>
        let timestamp := entry.timestamp
        let (append_result, merged_file1) := merged_file.append key value timestamp
        match append_result with
        | .Ok value_pos =>
          merge_keys new_file_id keys b1 merged_file1
            (hints ++ [{ key := key,
                         entry := { file_id := new_file_id, value_pos := value_pos,
                                    value_size := value.length % 2 ^ 32,
                                    timestamp := timestamp } }])
        | .Err _ => merge_keys new_file_id keys b1 merged_file1 hints

/-- The loop "process each old file" of `Bitcask::merge`: the database and the
merged files written into `.merge`, in the order of `merged_file_ids`. -/
def merge_groups : List (Nat × List Bytes) → Bitcask → List LogFile → Bitcask × List LogFile
  | [], b, merged => (b, merged)
  | (_, keys) :: groups, b, merged =>
    if keys.isEmpty then merge_groups groups b merged
    else
      let new_file_id := b.next_file_id_ % 2 ^ 32
      let b1 := { b with next_file_id_ := b.next_file_id_ + 1 }
      let (b2, merged_file, hints) :=
        merge_keys new_file_id keys b1 (LogFile.mk_open new_file_id [] false) []
      let b3 := b2.write_hint_file new_file_id hints
      merge_groups groups b3 (merged ++ [merged_file.close])

/-- `Bitcask::merge`, where `live_keys` is the vector `index_.keys()` returns (an
enumeration of the live keys in the unspecified iteration order of the
`std::unordered_map`).  After the loops the old data files are deleted, the
merged files are moved from `.merge` into the directory and reopened read-only as
the new `old_files_`. -/
def merge_of (b : Bitcask) (live_keys : List Bytes) : Result Unit × Bitcask :=
  if b.old_files_.isEmpty then (.Ok (), b)
  else
    let (b1, merged) := merge_groups (b.keys_by_file_of live_keys) b []
    (.Ok (), { b1 with
               old_files_ := merged.map (fun m => LogFile.mk_open m.file_id_ m.content true) })

/-- `Bitcask::merge` at the enumeration `HashIndex.keys` of the embedding. -/
def merge (b : Bitcask) : Result Unit × Bitcask := b.merge_of b.index_.keys

/-- The loop of `Bitcask::load_existing_files` over the sorted file ids. -/
def load_loop (uninit : List Byte) (d : Directory) :
    List Nat → HashIndex → List LogFile → Option LogFile →
      Option (Result (HashIndex × List LogFile × Option LogFile))
  | [], index, old_files, active => some (.Ok (index, old_files, active))
  | file_id :: rest, index, old_files, active =>
    let is_last := rest.isEmpty
    match bitcask.read_hint_file uninit (d.hint_files file_id) file_id index with
    | none => none
    | some (hint_result, index1) =>
      if hint_result == .Ok true then
        if !is_last then
          load_loop uninit d rest index1
            (old_files ++ [LogFile.mk_open file_id (d.data_content file_id) true]) active
        else
          load_loop uninit d rest index1 old_files
            (some (LogFile.mk_open file_id (d.data_content file_id) false))
      else
        match (LogFile.mk_open file_id (d.data_content file_id) true).read_all_entries with
        | none => none
        | some (.Err e, _) => some (.Err ("Failed to read log file: " ++ e))
        | some (.Ok entries, log_file) =>
          let index2 := entries.foldl
            (fun ix entry =>
              ix.put entry.key
                { file_id := file_id, value_pos := entry.value_pos,
                  value_size := entry.value_size, timestamp := entry.timestamp })
            index1
          if is_last then
            load_loop uninit d rest index2 old_files
              (some (LogFile.mk_open file_id (d.data_content file_id) false))
          else load_loop uninit d rest index2 (old_files ++ [log_file]) active

/-- `Bitcask::open` on an existing directory: `load_existing_files`, then the
first active file is created when the directory holds no data file. -/
def open_dir (uninit : List Byte) (max_file_size : Nat) (d : Directory) : Option (Result Bitcask) :=
  let file_ids := (d.data_files.map (fun p => p.1)).insertionSort (fun a b => a ≤ b)
  match load_loop uninit d file_ids HashIndex.empty [] none with
  | none => none
  | some (.Err e) => some (.Err e)
  | some (.Ok (index, old_files, active)) =>
    match active with
    | some a =>
      some (.Ok { max_file_size := max_file_size, index_ := index, old_files_ := old_files,
                  active_file_ := a,
                  next_file_id_ := (file_ids.getLast?.getD 0 + 1) % 2 ^ 32,
                  hint_files := d.hint_files })
    | none =>
      some (.Ok { max_file_size := max_file_size, index_ := index, old_files_ := old_files,
                  active_file_ := LogFile.mk_open 0 (d.data_content 0) false,
                  next_file_id_ := 1,
                  hint_files := d.hint_files })

/-- `Bitcask::open` on an empty directory. -/
def open_empty (max_file_size : Nat) : Bitcask :=
  { max_file_size := max_file_size, index_ := HashIndex.empty, old_files_ := [],
    active_file_ := LogFile.mk_open 0 [] false, next_file_id_ := 1,
    hint_files := fun _ => none }

/-- Destroying the database object and opening it again on its directory. -/
def reopen (uninit : List Byte) (b : Bitcask) : Option (Result Bitcask) :=
  Bitcask.open_dir uninit b.max_file_size b.directory

end Bitcask

/-- One call of the public interface; `now` is the clock reading of the call. -/
inductive Op where
  | put (key value : Bytes) (now : Nat)
  | del (key : Bytes) (now : Nat)
  | merge
  deriving DecidableEq, Repr

/-- The database after the call. -/
def Bitcask.step (b : Bitcask) : Op → Bitcask
  | .put key value now => (b.put key value now).2
  | .del key now => (b.del key now).2
  | .merge => b.merge.2

/-- The database after the calls, in order. -/
def Bitcask.run (b : Bitcask) (ops : List Op) : Bitcask := ops.foldl Bitcask.step b

end bitcask

namespace bitcask

/-! ## Predicates on database states used to state the properties -/

namespace Bitcask

/-- The key has a live index entry in a file other than the active one. -/
def in_old_file (b : Bitcask) (key : Bytes) : Prop :=
  ∃ e, b.index_.get key = some e ∧ (e.file_id != b.active_file_.id) = true

/-- The active file is writable and open, its stream is good, and `size()` is the
length of the file. -/
def active_usable (b : Bitcask) : Prop :=
  b.active_file_.read_only_ = false ∧ b.active_file_.is_open = true ∧
    b.active_file_.good = true ∧ b.active_file_.current_size_ = b.active_file_.content.length

/-- The handle of the active file after `append(key, value, timestamp)` wrote its
record. -/
def appended (f : LogFile) (key value : Bytes) (timestamp : Nat) : LogFile :=
  { f with
    content := f.content ++ entry_bytes timestamp key value
    pos := (f.content ++ entry_bytes timestamp key value).length
    current_size_ := f.current_size_ + (entry_bytes timestamp key value).length }

/-- The database after the append and the index update of `put`, before the
rotation check. -/
def put_appended (b : Bitcask) (key value : Bytes) (now : Nat) : Bitcask :=
  { b with
    active_file_ := appended b.active_file_ key value (now % 2 ^ 32)
    index_ := b.index_.put key
      { file_id := b.active_file_.id,
        value_pos := b.active_file_.current_size_ + 16 + key.length,
        value_size := value.length % 2 ^ 32, timestamp := now % 2 ^ 32 } }

/-- The database after the append and the index update of `del`. -/
def del_appended (b : Bitcask) (key : Bytes) (now : Nat) : Bitcask :=
  { b with
    active_file_ := appended b.active_file_ key [] (now % 2 ^ 32)
    index_ := b.index_.remove key (now % 2 ^ 32) }

end Bitcask

end bitcask

namespace bitcask

/-! ## The key-value map a sequence of calls describes -/

/-- The map after one more call: `put` with a non-empty key binds the key to the
value, `del` unbinds it, `merge` changes nothing. -/
def last_put_step (m : Bytes → Option Bytes) : Op → Bytes → Option Bytes
  | .put key value _ => if key = [] then m else Function.update m key (some value)
  | .del key _ => Function.update m key none
  | .merge => m

/-- The value of the last `put` of each key that no later `del` removed, after
the calls `ops` on an empty database. -/
def last_put (ops : List Op) : Bytes → Option Bytes :=
  ops.foldl last_put_step (fun _ => none)

/-- The bytes `get` can return for a value written by `put`: the index keeps the
length of the value as a `uint32_t`. -/
def readable (value : Bytes) : Bytes := value.take (value.length % 2 ^ 32)

namespace Bitcask

/-- The content of the file `get` reads for an index entry with this file id: the
active file when its id matches, else the first immutable file with the id. -/
def file_content (b : Bitcask) (file_id : Nat) : Option (List Byte) :=
  if b.active_file_.id = file_id then some b.active_file_.content
  else (b.old_files_.find? (fun f => f.id == file_id)).map (fun f => f.content)

/-- The ids of the immutable files increase in the order of attachment and lie
below the id of the active file, which lies below `next_file_id_`. -/
def ids_ordered (b : Bitcask) : Prop :=
  (b.old_files_.map LogFile.id).Pairwise (fun x y => x < y) ∧
    (∀ i ∈ b.old_files_.map LogFile.id, i < b.active_file_.id) ∧
    b.active_file_.id < b.next_file_id_

/-- Every immutable file is open with a good stream. -/
def old_files_readable (b : Bitcask) : Prop :=
  ∀ f ∈ b.old_files_, f.is_open = true ∧ f.good = true

/-- The index describes the map `m`: a bound key has a live entry whose file
holds the readable bytes of the value at the entry's position, an unbound key has
no live entry. -/
def agrees (b : Bitcask) (m : Bytes → Option Bytes) : Prop :=
  ∀ k, match m k with
    | some v =>
      ∃ e c, b.index_.get k = some e ∧ e.value_size = (readable v).length ∧
        b.file_content e.file_id = some c ∧
        (c.drop e.value_pos).take e.value_size = readable v
    | none => b.index_.get k = none

/-- The invariant of the states reached by put and delete: the active file is
usable and, as long as the id counter stays below `2 ^ 32 - 1`, the ids are
ordered, the immutable files are readable and the index describes `m`. -/
def sound (b : Bitcask) (m : Bytes → Option Bytes) : Prop :=
  b.active_usable ∧
    (b.next_file_id_ ≤ 2 ^ 32 - 1 → b.ids_ordered ∧ b.old_files_readable ∧ b.agrees m)

end Bitcask

end bitcask

namespace bitcask

/-! ## The replay of data files by `load_existing_files` -/

/-- The index after the loop of `load_existing_files` over the entries scanned
from the data file `file_id`. -/
def replay_entries (file_id : Nat) (entries : List EntryMetadata) (index : HashIndex) :
    HashIndex :=
  entries.foldl
    (fun ix entry =>
      ix.put entry.key
        { file_id := file_id, value_pos := entry.value_pos,
          value_size := entry.value_size, timestamp := entry.timestamp })
    index

/-- The index after the replay of several data files, in order. -/
def replay_files (files : List (Nat × List EntryMetadata)) (index : HashIndex) : HashIndex :=
  files.foldl (fun ix p => replay_entries p.1 p.2 ix) index

/-- The handle `read_all_entries` leaves behind on a file it has read to its
end. -/
def scanned (file_id : Nat) (content : List Byte) : LogFile :=
  { LogFile.mk_open file_id content true with pos := content.length }

/-- The key and the value of a `put` fit the `uint32_t` length fields of the
record header. -/
def Op.fits : Op → Prop
  | .put key value _ => key.length < 2 ^ 32 ∧ value.length < 2 ^ 32
  | .del _ _ => True
  | .merge => True

instance (op : Op) : Decidable op.fits := by
  cases op <;> unfold Op.fits <;> infer_instance

namespace Bitcask

/-- The data files of the database hold the encodings of the records `fs` (the
immutable files, with their ids) and `act` (the active file), all of which fit
the header fields, and every live index entry is the entry a replay of these
records installs for its key. -/
def logged_with (b : Bitcask) (fs : List (Nat × List LogRecord)) (act : List LogRecord) : Prop :=
  b.old_files_.map (fun f => (f.file_id_, f.content)) =
      fs.map (fun p => (p.1, encode_all p.2)) ∧
    b.active_file_.content = encode_all act ∧
    (∀ p ∈ fs, ∀ r ∈ p.2, r.fits) ∧ (∀ r ∈ act, r.fits) ∧
    ∀ k e, b.index_.get k = some e →
      k.length < 2 ^ 32 ∧
        (replay_files
          (fs.map (fun p => (p.1, entry_metas 0 p.2)) ++
            [(b.active_file_.file_id_, entry_metas 0 act)])
          HashIndex.empty).index_.lookup k = some e

/-- The invariant of the states reached by put and delete that a reopen relies
on: there are no hint files and, as long as the id counter stays below
`2 ^ 32 - 1`, the data files are logs of well-formed records that replay to the
live index entries. -/
def logged (b : Bitcask) : Prop :=
  b.hint_files = (fun _ => none) ∧
    (b.next_file_id_ ≤ 2 ^ 32 - 1 → ∃ fs act, b.logged_with fs act)

end Bitcask

end bitcask

namespace bitcask

/-! ## `bitcask.cpp`: recognising data files by name -/

/-- `s` begins with `pat`. -/
def starts_with : Bytes → Bytes → Bool
  | _, [] => true
  | [], _ :: _ => false
  | c :: cs, p :: ps => c == p && starts_with cs ps

/-- The search of `std::string::find`, where `i` is the index of the first byte
of `s` in the whole string. -/
def find_from (i : Nat) : Bytes → Bytes → Option Nat
  | [], pat => if pat.isEmpty then some i else none
  | c :: cs, pat => if starts_with (c :: cs) pat then some i else find_from (i + 1) cs pat

/-- `s.find(pat)`: the index of the first occurrence of `pat` in `s`, or `none`
for `std::string::npos`. -/
def find (s pat : Bytes) : Option Nat := find_from 0 s pat

/-- `isspace` in the "C" locale: space, `\t`, `\n`, `\v`, `\f`, `\r`. -/
def is_space (c : Byte) : Bool := c.val == 32 || (9 ≤ c.val && c.val ≤ 13)

/-- `isdigit`. -/
def is_digit (c : Byte) : Bool := 48 ≤ c.val && c.val ≤ 57

/-- The value of a sequence of decimal digits. -/
def digits_value (ds : Bytes) : Nat := ds.foldl (fun acc d => 10 * acc + (d.val - 48)) 0

/-- `std::stoul(s)` with a 64-bit `unsigned long`, that is `strtoul(s, &end, 10)`:
white space is skipped, one sign is accepted, then the longest run of digits is
converted and whatever follows it is ignored.  `none` stands for the exception
thrown when there is no digit (`std::invalid_argument`) or the digits exceed
`ULONG_MAX` (`std::out_of_range`).  A minus sign negates the value in
`unsigned long`. -/
def stoul (s : Bytes) : Option Nat :=
  let s1 := s.dropWhile is_space
  let negative := s1.head? == some 45
  let s2 := if s1.head? == some 45 || s1.head? == some 43 then s1.tail else s1
  let ds := s2.takeWhile is_digit
  if ds.isEmpty then none
  else if digits_value ds ≥ 2 ^ 64 then none
  else some (if negative then (2 ^ 64 - digits_value ds) % 2 ^ 64 else digits_value ds)

/-- The bytes of `"cask."`. -/
def cask_dot : Bytes := [99, 97, 115, 107, 46]

/-- The bytes of `".hint"`. -/
def dot_hint : Bytes := [46, 104, 105, 110, 116]

/-- The body of the loop of `Bitcask::get_log_file_ids` for one directory entry:
the id pushed for the name, if any.  The value of `std::stoul` is narrowed to
`uint32_t`. -/
def log_file_id (filename : Bytes) : Option Nat :=
  if find filename cask_dot == some 0 && find filename dot_hint == none then
    match stoul (filename.drop 5) with
    | some n => some (n % 2 ^ 32)
    | none => none
  else none

/-- `Bitcask::get_log_file_ids` on a directory whose entries `readdir` returns in
the order `names`. -/
def get_log_file_ids (names : List Bytes) : List Nat := names.filterMap log_file_id

end bitcask

namespace bitcask

namespace Bitcask

/-- The ids of the attached files are pairwise distinct and lie below
`next_file_id_`. -/
def ids_fresh (b : Bitcask) : Prop :=
  ((b.active_file_ :: b.old_files_).map LogFile.id).Nodup ∧
    ∀ i ∈ (b.active_file_ :: b.old_files_).map LogFile.id, i < b.next_file_id_

end Bitcask

end bitcask

namespace bitcask

/-! ## What a merge is expected to write -/

namespace Bitcask

end Bitcask

end bitcask

/-! # Theorems -/

namespace bitcask

theorem crc_round_eq (c : Nat) :
    crc_round c = if c % 2 = 1 then (c / 2) ^^^ 0xEDB88320 else c / 2 := by
  simp [crc_round, Nat.shiftRight_eq_div_pow]

theorem crc_round_lt {c : Nat} (h : c < 2 ^ 32) : crc_round c < 2 ^ 32 := by
  rw [crc_round_eq]
  split
  · exact Nat.xor_lt_two_pow (by omega) (by decide)
  · omega

theorem crc_round_testBit {c : Nat} (h : c < 2 ^ 32) :
    (crc_round c).testBit 31 = decide (c % 2 = 1) := by
  have h2 : c / 2 < 2 ^ 31 := by omega
  rw [crc_round_eq]
  split
  · rename_i hc
    rw [Nat.testBit_xor, Nat.testBit_lt_two_pow h2]
    simp [hc]
    decide
  · rename_i hc
    rw [Nat.testBit_lt_two_pow h2]
    simp [hc]

theorem crc_round_inj {a b : Nat} (ha : a < 2 ^ 32) (hb : b < 2 ^ 32)
    (h : crc_round a = crc_round b) : a = b := by
  have hp : decide (a % 2 = 1) = decide (b % 2 = 1) := by
    rw [← crc_round_testBit ha, ← crc_round_testBit hb, h]
  have hp2 : a % 2 = 1 ↔ b % 2 = 1 := by simpa using hp
  rw [crc_round_eq, crc_round_eq] at h
  by_cases hc : a % 2 = 1
  · have hd := hp2.mp hc
    rw [if_pos hc, if_pos hd] at h
    have := Nat.xor_left_injective h
    simp only at this
    omega
  · have hd : ¬ b % 2 = 1 := fun x => hc (hp2.mpr x)
    rw [if_neg hc, if_neg hd] at h
    omega

theorem crc_rounds_lt (k : Nat) {c : Nat} (h : c < 2 ^ 32) : crc_round^[k] c < 2 ^ 32 := by
  induction k generalizing c with
  | zero => simpa using h
  | succ k ih => rw [Function.iterate_succ_apply]; exact ih (crc_round_lt h)

theorem crc_rounds_inj (k : Nat) {a b : Nat} (ha : a < 2 ^ 32) (hb : b < 2 ^ 32)
    (h : crc_round^[k] a = crc_round^[k] b) : a = b := by
  induction k generalizing a b with
  | zero => simpa using h
  | succ k ih =>
    rw [Function.iterate_succ_apply, Function.iterate_succ_apply] at h
    exact crc_round_inj ha hb (ih (crc_round_lt ha) (crc_round_lt hb) h)

theorem byte_lt_two_pow_32 (b : Byte) : b.val < 2 ^ 32 := by
  have := b.isLt
  omega

theorem crc_update_lt {c : Nat} (b : Byte) (h : c < 2 ^ 32) : crc_update c b < 2 ^ 32 :=
  crc_rounds_lt 8 (Nat.xor_lt_two_pow h (byte_lt_two_pow_32 b))

theorem crc_update_inj_state {a b : Nat} (x : Byte) (ha : a < 2 ^ 32) (hb : b < 2 ^ 32)
    (h : crc_update a x = crc_update b x) : a = b :=
  Nat.xor_left_injective
    (crc_rounds_inj 8 (Nat.xor_lt_two_pow ha (byte_lt_two_pow_32 x))
      (Nat.xor_lt_two_pow hb (byte_lt_two_pow_32 x)) h)

theorem crc_update_inj_byte {c : Nat} (x y : Byte) (hc : c < 2 ^ 32)
    (h : crc_update c x = crc_update c y) : x = y :=
  Fin.ext (Nat.xor_right_injective
    (crc_rounds_inj 8 (Nat.xor_lt_two_pow hc (byte_lt_two_pow_32 x))
      (Nat.xor_lt_two_pow hc (byte_lt_two_pow_32 y)) h))

theorem crc_foldl_lt (data : List Byte) {c : Nat} (h : c < 2 ^ 32) :
    data.foldl crc_update c < 2 ^ 32 := by
  induction data generalizing c with
  | nil => simpa using h
  | cons b bs ih => exact ih (crc_update_lt b h)

theorem crc_foldl_inj (data : List Byte) {a b : Nat} (ha : a < 2 ^ 32) (hb : b < 2 ^ 32)
    (h : data.foldl crc_update a = data.foldl crc_update b) : a = b := by
  induction data generalizing a b with
  | nil => simpa using h
  | cons x xs ih =>
    exact crc_update_inj_state x ha hb (ih (crc_update_lt x ha) (crc_update_lt x hb) h)

theorem calculate_crc32_lt (data : List Byte) : calculate_crc32 data < 2 ^ 32 :=
  Nat.xor_lt_two_pow (crc_foldl_lt data (by decide)) (by decide)

/-- Changing one byte of the input changes the checksum. -/
theorem calculate_crc32_byte_change (pre suf : List Byte) (x y : Byte)
    (h : calculate_crc32 (pre ++ x :: suf) = calculate_crc32 (pre ++ y :: suf)) : x = y := by
  unfold calculate_crc32 at h
  have h1 := Nat.xor_left_injective h
  simp only [List.foldl_append, List.foldl_cons] at h1
  have hs : pre.foldl crc_update 0xFFFFFFFF < 2 ^ 32 := crc_foldl_lt pre (by decide)
  exact crc_update_inj_byte x y hs
    (crc_foldl_inj suf (crc_update_lt x hs) (crc_update_lt y hs) h1)

end bitcask

namespace bitcask

theorem crc_round_xor (c d : Nat) :
    crc_round (c ^^^ d) = crc32_reference_step c (d.testBit 0) ^^^ (d / 2) := by
  rw [crc_round_eq, crc32_reference_step, Nat.xor_div_two, Nat.testBit_zero]
  have hx : (c ^^^ d) % 2 = (c + d) % 2 := Nat.xor_mod_two_eq
  by_cases hc : c % 2 = 1 <;> by_cases hd : d % 2 = 1
  · have h1 : ¬ (c ^^^ d) % 2 = 1 := by omega
    rw [if_neg h1]
    simp [hc, hd]
  · have h1 : (c ^^^ d) % 2 = 1 := by omega
    simp [h1, hc, hd, Nat.xor_assoc, Nat.xor_comm (d / 2)]
  · have h1 : (c ^^^ d) % 2 = 1 := by omega
    simp [h1, hc, hd, Nat.xor_assoc, Nat.xor_comm (d / 2)]
  · have h1 : ¬ (c ^^^ d) % 2 = 1 := by omega
    rw [if_neg h1]
    simp [hc, hd]

theorem crc_rounds_xor (k : Nat) (c d : Nat) :
    crc_round^[k] (c ^^^ d) =
      ((List.range k).map (fun j => d.testBit j)).foldl crc32_reference_step c ^^^ (d / 2 ^ k) := by
  induction k generalizing c d with
  | zero => simp
  | succ k ih =>
    rw [Function.iterate_succ_apply, crc_round_xor, ih, List.range_succ_eq_map]
    simp only [List.map_cons, List.map_map, List.foldl_cons]
    congr 1
    · congr 1
      apply List.map_congr_left
      intro j _
      simp [Nat.testBit_succ]
    · rw [Nat.div_div_eq_div_mul, pow_succ, Nat.mul_comm]

theorem crc_update_eq_reference (c : Nat) (b : Byte) :
    crc_update c b = (bits_of_byte b).foldl crc32_reference_step c := by
  have hb : b.val / 2 ^ 8 = 0 := Nat.div_eq_of_lt b.isLt
  rw [crc_update, crc_rounds_xor, hb, Nat.xor_zero, bits_of_byte]

theorem crc_foldl_eq_reference (data : List Byte) (c : Nat) :
    data.foldl crc_update c = (data.flatMap bits_of_byte).foldl crc32_reference_step c := by
  induction data generalizing c with
  | nil => rfl
  | cons b bs ih =>
    rw [List.foldl_cons, List.flatMap_cons, List.foldl_append, ih, crc_update_eq_reference]

/-- C14. `calculate_crc32` is the standard CRC-32/ISO-HDLC: on every byte sequence
it equals the bit-serial reference with reflected polynomial `0xEDB88320`, initial
value `0xFFFFFFFF` and final exclusive or `0xFFFFFFFF`; it returns `0` for the
empty sequence and `0xCBF43926` for the nine ASCII bytes `123456789`. -/
theorem calculate_crc32_is_crc32_iso_hdlc :
    (∀ data : List Byte, calculate_crc32 data = crc32_reference data) ∧
      calculate_crc32 [] = 0 ∧
      calculate_crc32 [0x31, 0x32, 0x33, 0x34, 0x35, 0x36, 0x37, 0x38, 0x39] = 0xCBF43926 := by
  refine ⟨fun data => ?_, by decide, by decide⟩
  rw [calculate_crc32, crc32_reference, crc_foldl_eq_reference]

end bitcask

namespace bitcask
namespace LogFile

theorem tellg_good {f : LogFile} (h : f.good = true) : f.tellg = ((f.pos : Int), f) := by
  simp [tellg, h]

theorem read_exact {f : LogFile} (h : f.good = true) (b c : List Byte)
    (hc : f.content.drop f.pos = b ++ c) :
    f.read b.length = (b, { f with pos := f.pos + b.length }) := by
  simp [read, h, hc]

theorem drop_after_read {f : LogFile} (b c : List Byte)
    (hc : f.content.drop f.pos = b ++ c) :
    f.content.drop (f.pos + b.length) = c := by
  rw [← List.drop_drop, hc, List.drop_left]

end LogFile
end bitcask

namespace bitcask
namespace LogFile

theorem fill_buffer_exact (n : Nat) (got : List Byte) (h : got.length = n) :
    fill_buffer n got = got := by
  simp [fill_buffer, zeros, h]

theorem scan_loop_chunk (fuel : Nat) (f : LogFile) (entries : List EntryMetadata)
    (hdr k v suf : List Byte) (hg : f.good = true) (hl : hdr.length = 16)
    (hk : le_value ((hdr.drop 8).take 4) = k.length)
    (hv : le_value ((hdr.drop 12).take 4) = v.length)
    (hc : f.content.drop f.pos = hdr ++ (k ++ (v ++ suf)))
    (hsz : f.pos < f.current_size_) :
    scan_loop (fuel + 1) f entries =
      if calculate_crc32 (hdr.drop 4 ++ k ++ v) = le_value (hdr.take 4) then
        scan_loop fuel { f with pos := f.pos + 16 + k.length + v.length }
          (entries ++ [{ key := k, value_pos := f.pos + 16 + k.length,
                         value_size := v.length,
                         timestamp := le_value ((hdr.drop 4).take 4) }])
      else some (entries, { f with pos := f.pos + 16 + k.length + v.length }) := by
  have r1 := read_exact hg hdr (k ++ (v ++ suf)) hc
  rw [hl] at r1
  have hg2 : ({ f with pos := f.pos + 16 } : LogFile).good = true := hg
  have hc2 : ({ f with pos := f.pos + 16 } : LogFile).content.drop
      ({ f with pos := f.pos + 16 } : LogFile).pos = k ++ (v ++ suf) := by
    have := drop_after_read hdr _ hc
    rwa [hl] at this
  have r2 := read_exact hg2 k (v ++ suf) hc2
  have hg3 : ({ f with pos := f.pos + 16 + k.length } : LogFile).good = true := hg
  have hc3 : ({ f with pos := f.pos + 16 + k.length } : LogFile).content.drop
      ({ f with pos := f.pos + 16 + k.length } : LogFile).pos = v ++ suf :=
    drop_after_read k _ hc2
  have r3 := read_exact hg3 v suf hc3
  have hg4 : ({ f with pos := f.pos + 16 + k.length + v.length } : LogFile).good = true := hg
  have hlt : (f.pos : Int) < (f.current_size_ : Int) := by exact_mod_cast hsz
  have hnn : ¬ ((f.pos : Int) < 0) := by omega
  rw [scan_loop]
  simp only [tellg_good hg, hlt, if_true, hnn, if_false, r1, hg2, hk, hv, r2, r3, hg4,
    Bool.not_true, Bool.false_and, Bool.false_eq_true, Int.toNat_ofNat,
    fill_buffer_exact _ _ rfl, bne_iff_ne, ne_eq, ite_not]
  
end LogFile
end bitcask

namespace bitcask

theorem le_bytes_length (w n : Nat) : (le_bytes w n).length = w := by
  induction w generalizing n with
  | zero => rfl
  | succ w ih => simp [le_bytes, ih]

theorem le32_length (n : Nat) : (le32 n).length = 4 := le_bytes_length 4 n

theorem le64_length (n : Nat) : (le64 n).length = 8 := le_bytes_length 8 n

theorem le_value_le_bytes (w n : Nat) : le_value (le_bytes w n) = n % 256 ^ w := by
  induction w generalizing n with
  | zero => simp [le_bytes, le_value, Nat.mod_one]
  | succ w ih =>
    simp only [le_bytes, le_value, ih, byte_of]
    rw [pow_succ, Nat.mul_comm (256 ^ w) 256, Nat.mod_mul]

theorem le_value_le32 (n : Nat) : le_value (le32 n) = n % 2 ^ 32 :=
  le_value_le_bytes 4 n

theorem le_value_le32_of_lt {n : Nat} (h : n < 2 ^ 32) : le_value (le32 n) = n := by
  rw [le_value_le32, Nat.mod_eq_of_lt h]

theorem le_value_le64_of_lt {n : Nat} (h : n < 2 ^ 64) : le_value (le64 n) = n := by
  have h8 : (256 : Nat) ^ 8 = 2 ^ 64 := by norm_num
  rw [le64, le_value_le_bytes, h8, Nat.mod_eq_of_lt h]

/-- The bytes the checksum of a record covers. -/
theorem pack_entry_drop (ts : Nat) (k v : Bytes) :
    (pack_entry ts k v).drop 4 = le32 ts ++ le32 k.length ++ le32 v.length ++ k ++ v := by
  have h : (le32 0).length = 4 := le32_length 0
  simp only [pack_entry, List.append_assoc]
  rw [← h, List.drop_left]

theorem entry_bytes_eq (ts : Nat) (k v : Bytes) :
    entry_bytes ts k v =
      (le32 (calculate_crc32 (le32 ts ++ le32 k.length ++ le32 v.length ++ k ++ v)) ++
        le32 ts ++ le32 k.length ++ le32 v.length) ++ (k ++ v) := by
  simp only [entry_bytes, pack_entry_drop, List.append_assoc]

theorem entry_bytes_length (ts : Nat) (k v : Bytes) :
    (entry_bytes ts k v).length = 16 + k.length + v.length := by
  simp only [entry_bytes_eq, List.length_append, le32_length]
  omega

end bitcask

namespace bitcask

theorem header_slices (a b c d : List Byte) (ha : a.length = 4) (hb : b.length = 4)
    (hc : c.length = 4) (hd : d.length = 4) :
    (a ++ b ++ c ++ d).length = 16 ∧ (a ++ b ++ c ++ d).take 4 = a ∧
      (a ++ b ++ c ++ d).drop 4 = b ++ c ++ d ∧
      ((a ++ b ++ c ++ d).drop 4).take 4 = b ∧
      ((a ++ b ++ c ++ d).drop 8).take 4 = c ∧
      ((a ++ b ++ c ++ d).drop 12).take 4 = d := by
  simp [List.take_append_eq_append_take, List.drop_append_eq_append_drop, ha, hb, hc, hd,
    List.drop_eq_nil_of_le, List.take_of_length_le]

namespace LogFile

theorem scan_loop_record (fuel : Nat) (f : LogFile) (entries : List EntryMetadata)
    (r : LogRecord) (suf : List Byte) (hfit : r.fits) (hg : f.good = true)
    (hc : f.content.drop f.pos = r.encode ++ suf) (hsz : f.pos < f.current_size_) :
    scan_loop (fuel + 1) f entries =
      scan_loop fuel { f with pos := f.pos + 16 + r.key.length + r.value.length }
        (entries ++ entry_metas f.pos [r]) := by
  obtain ⟨ht, hk, hv⟩ := hfit
  have hs := header_slices
    (le32 (calculate_crc32 (le32 r.timestamp ++ le32 r.key.length ++ le32 r.value.length ++
      r.key ++ r.value)))
    (le32 r.timestamp) (le32 r.key.length) (le32 r.value.length)
    (le32_length _) (le32_length _) (le32_length _) (le32_length _)
  obtain ⟨h16, h0, h4, h1, h2, h3⟩ := hs
  have hc1 : f.content.drop f.pos =
      (le32 (calculate_crc32 (le32 r.timestamp ++ le32 r.key.length ++ le32 r.value.length ++
        r.key ++ r.value)) ++ le32 r.timestamp ++ le32 r.key.length ++ le32 r.value.length) ++
      (r.key ++ (r.value ++ suf)) := by
    rw [hc, LogRecord.encode, entry_bytes_eq]
    simp only [List.append_assoc]
  rw [scan_loop_chunk fuel f entries _ r.key r.value suf hg h16
    (by rw [h2, le_value_le32_of_lt hk]) (by rw [h3, le_value_le32_of_lt hv]) hc1 hsz]
  rw [h0, h1, h4, le_value_le32_of_lt (calculate_crc32_lt _), le_value_le32_of_lt ht]
  simp [entry_metas]

end LogFile
end bitcask

namespace bitcask

theorem encode_length (r : LogRecord) :
    r.encode.length = 16 + r.key.length + r.value.length :=
  entry_bytes_length _ _ _

theorem length_le_encode_all (rs : List LogRecord) : rs.length ≤ (encode_all rs).length := by
  induction rs with
  | nil => simp [encode_all]
  | cons r rs ih =>
    simp only [encode_all, List.length_cons, List.length_append, encode_length]
    omega

theorem entry_metas_append (base : Nat) (rs ss : List LogRecord) :
    entry_metas base (rs ++ ss) =
      entry_metas base rs ++ entry_metas (base + (encode_all rs).length) ss := by
  induction rs generalizing base with
  | nil => simp [entry_metas, encode_all]
  | cons r rs ih =>
    rw [List.cons_append, entry_metas, entry_metas, ih, encode_all, List.length_append,
      encode_length, List.cons_append]
    simp only [Nat.add_assoc]

theorem encode_all_append (rs ss : List LogRecord) :
    encode_all (rs ++ ss) = encode_all rs ++ encode_all ss := by
  induction rs with
  | nil => simp [encode_all]
  | cons r rs ih => simp [encode_all, ih]

namespace LogFile

/-- Scanning over the encodings of well-formed records collects their metadata
and leaves the stream behind them, using one round per record. -/
theorem scan_loop_records (rs : List LogRecord) (hfit : ∀ r ∈ rs, r.fits) :
    ∀ (fuel : Nat) (f : LogFile) (entries : List EntryMetadata) (suf : List Byte),
      f.good = true → f.content.drop f.pos = encode_all rs ++ suf →
      f.pos + (encode_all rs).length ≤ f.current_size_ →
      scan_loop (rs.length + fuel) f entries =
        scan_loop fuel { f with pos := f.pos + (encode_all rs).length }
          (entries ++ entry_metas f.pos rs) := by
  induction rs with
  | nil =>
    intro fuel f entries suf _ _ _
    simp [encode_all, entry_metas]
  | cons r rs ih =>
    intro fuel f entries suf hg hc hsz
    have hr : r.fits := hfit r (List.mem_cons_self _ _)
    have hrs : ∀ x ∈ rs, x.fits := fun x hx => hfit x (List.mem_cons_of_mem _ hx)
    simp only [encode_all, List.length_append, encode_length] at hc hsz ⊢
    rw [List.append_assoc] at hc
    have e : (r :: rs).length + fuel = (rs.length + fuel) + 1 := by
      simp only [List.length_cons]; omega
    rw [e, scan_loop_record _ f entries r _ hr hg hc (by omega)]
    have hc2 : ({ f with pos := f.pos + 16 + r.key.length + r.value.length } : LogFile).content.drop
        ({ f with pos := f.pos + 16 + r.key.length + r.value.length } : LogFile).pos =
        encode_all rs ++ suf := by
      have := drop_after_read r.encode _ hc
      rw [encode_length] at this
      simpa only [Nat.add_assoc] using this
    rw [ih hrs fuel { f with pos := f.pos + 16 + r.key.length + r.value.length } _ suf hg hc2
      (by simp only; omega)]
    simp only [entry_metas, List.append_assoc, List.singleton_append, Nat.add_assoc]

/-- The loop is left by its condition once a good stream stands at or behind
`current_size_`. -/
theorem scan_loop_exit (fuel : Nat) (f : LogFile) (entries : List EntryMetadata)
    (hg : f.good = true) (hsz : f.current_size_ ≤ f.pos) :
    scan_loop (fuel + 1) f entries = some (entries, f) := by
  have hlt : ¬ ((f.pos : Int) < (f.current_size_ : Int)) := by omega
  rw [scan_loop]
  simp only [tellg_good hg, hlt, if_false]

/-- Scanning a freshly opened file that holds exactly the encodings of
well-formed records returns their metadata. -/
theorem read_all_entries_encode_all (fid : Nat) (ro : Bool) (rs : List LogRecord)
    (hfit : ∀ r ∈ rs, r.fits) :
    (mk_open fid (encode_all rs) ro).read_all_entries =
      some (.Ok (entry_metas 0 rs),
        { mk_open fid (encode_all rs) ro with pos := (encode_all rs).length }) := by
  have hle := length_le_encode_all rs
  have e : (encode_all rs).length + 2 = rs.length + (((encode_all rs).length - rs.length + 1) + 1) := by
    omega
  have h := scan_loop_records rs hfit (((encode_all rs).length - rs.length + 1) + 1)
    (mk_open fid (encode_all rs) ro) [] [] rfl (by simp [mk_open]) (by simp [mk_open])
  have h2 := scan_loop_exit ((encode_all rs).length - rs.length + 1)
    { mk_open fid (encode_all rs) ro with pos := (mk_open fid (encode_all rs) ro).pos + (encode_all rs).length }
    ([] ++ entry_metas (mk_open fid (encode_all rs) ro).pos rs) rfl (by simp [mk_open])
  rw [h2] at h
  have hs : (mk_open fid (encode_all rs) ro).seekg 0 = mk_open fid (encode_all rs) ro := rfl
  have hl : (mk_open fid (encode_all rs) ro).content.length = (encode_all rs).length := rfl
  rw [read_all_entries, hs, hl, e, h]
  simp [mk_open]

end LogFile
end bitcask

namespace bitcask
namespace LogFile

theorem read_content (f : LogFile) (n : Nat) : (f.read n).2.content = f.content := by
  unfold read
  by_cases hg : f.good = true
  · by_cases hl : (List.take n (List.drop f.pos f.content)).length = n
    · simp only [hg, hl, if_true]
    · simp only [hg, hl, if_true, if_false]
  · simp only [hg, if_false, Bool.false_eq_true]

theorem read_good {f : LogFile} {n : Nat} (h : (f.read n).2.good = true) :
    f.good = true ∧ (f.read n).2.pos = f.pos + n ∧ n ≤ f.content.length - f.pos := by
  unfold read at h ⊢
  by_cases hg : f.good = true
  · simp only [hg, if_true] at h ⊢
    by_cases hl : (List.take n (List.drop f.pos f.content)).length = n
    · simp only [hl, if_true] at h ⊢
      refine ⟨trivial, trivial, ?_⟩
      simp only [List.length_take, List.length_drop] at hl
      omega
    · simp only [hl, if_false] at h
      simp [good] at h
  · simp only [hg] at h
    simp [good] at h

theorem read_not_good {f : LogFile} (n : Nat) (h : ¬ f.good = true) :
    f.read n = ([], { f with failbit := true }) := by
  simp [read, h]

/-- The scan loop terminates within `scan_measure f + 1` rounds and only adds
entries behind those it was given. -/
theorem scan_loop_total (fuel : Nat) :
    ∀ (f : LogFile) (entries : List EntryMetadata), scan_measure f < fuel →
      ∃ es f1, scan_loop fuel f entries = some (entries ++ es, f1) := by
  induction fuel with
  | zero => intro f entries h; omega
  | succ fuel ih =>
    intro f entries hm
    by_cases hg : f.good = true
    · rw [scan_loop]
      simp only [tellg_good hg]
      split
      · split
        · exact ⟨[], _, by rw [List.append_nil]⟩
        · rename_i hg3
          simp only [Bool.not_eq_true, Bool.not_eq_eq_eq_not, Bool.not_true,
            Bool.not_eq_false] at hg3
          split
          · exact ⟨[], _, by rw [List.append_nil]⟩
          · split
            · exact ⟨[], _, by rw [List.append_nil]⟩
            · rename_i hbad _
              obtain ⟨h3a, h3b, h3c⟩ := read_good hg3
              have hmf : f.content.length - f.pos + 1 < fuel + 1 := by
                simpa [scan_measure, hg] using hm
              have hm5 : scan_measure ((((f.read 16).2.read
                  (le_value (List.take 4 (List.drop 8 (f.read 16).1)))).2).read
                  (le_value (List.take 4 (List.drop 12 (f.read 16).1)))).2 < fuel := by
                unfold scan_measure
                split
                · rename_i hg5
                  obtain ⟨h5a, h5b, _⟩ := read_good hg5
                  obtain ⟨_, h4b, _⟩ := read_good h5a
                  rw [read_content, read_content, read_content, h5b, h4b, h3b]
                  omega
                · omega
              obtain ⟨es, f1, he⟩ := ih _ (entries ++ [_]) hm5
              exact ⟨_ :: es, f1, by rw [he, List.append_assoc, List.singleton_append]⟩
      · exact ⟨[], _, by rw [List.append_nil]⟩
    · have hng : ¬ ({ f with failbit := true } : LogFile).good = true := by simp [good]
      have hlt : (-1 : Int) < (f.current_size_ : Int) := by omega
      have ht1 : f.tellg = (-1, { f with failbit := true }) := by simp [tellg, hg]
      have ht2 : ({ f with failbit := true } : LogFile).tellg =
          (-1, { f with failbit := true }) := by
        simp [tellg, hng]
      have hb : (!({ f with failbit := true } : LogFile).good) = true := by simp [good]
      refine ⟨[], { f with failbit := true }, ?_⟩
      rw [scan_loop]
      simp only [ht1, ht2, hlt, if_true, read_not_good 16 hng, hb, List.append_nil]

end LogFile
end bitcask

namespace bitcask

theorem flip_bit_length (bs : List Byte) (p : Nat) : (flip_bit bs p).length = bs.length := by
  induction bs generalizing p with
  | nil => rfl
  | cons b bs ih =>
    rw [flip_bit]
    split
    · rfl
    · simp [ih]

theorem byte_flip_ne (b : Byte) {i : Nat} (hi : i < 8) : byte_of (b.val ^^^ 2 ^ i) ≠ b := by
  intro h
  have hb : b.val < 2 ^ 8 := b.isLt
  have hp : 2 ^ i < 2 ^ 8 := Nat.pow_lt_pow_right (by decide) hi
  have hx : b.val ^^^ 2 ^ i < 256 := Nat.xor_lt_two_pow hb hp
  have hv : (b.val ^^^ 2 ^ i) % 256 = b.val := congrArg Fin.val h
  rw [Nat.mod_eq_of_lt hx] at hv
  have h0 : b.val ^^^ 2 ^ i = b.val ^^^ 0 := by rw [hv, Nat.xor_zero]
  have := Nat.xor_right_injective h0
  have hpos : 0 < 2 ^ i := Nat.two_pow_pos i
  omega

/-- Inverting a bit inside `bs` replaces exactly one byte by a different one. -/
theorem flip_bit_split (bs : List Byte) (p : Nat) (hp : p < 8 * bs.length) :
    ∃ l x y r, bs = l ++ x :: r ∧ flip_bit bs p = l ++ y :: r ∧ x ≠ y := by
  induction bs generalizing p with
  | nil => simp at hp
  | cons b bs ih =>
    rw [flip_bit]
    split
    · rename_i h8
      exact ⟨[], b, _, bs, rfl, rfl, fun h => byte_flip_ne b h8 h.symm⟩
    · simp only [List.length_cons] at hp
      obtain ⟨l, x, y, r, h1, h2, h3⟩ := ih (p - 8) (by omega)
      exact ⟨b :: l, x, y, r, by rw [h1]; rfl, by rw [h2]; rfl, h3⟩

theorem flip_bit_append_right (a b : List Byte) (p : Nat) :
    flip_bit (a ++ b) (8 * a.length + p) = a ++ flip_bit b p := by
  induction a with
  | nil => simp
  | cons x a ih =>
    have h : ¬ 8 * (x :: a).length + p < 8 := by simp only [List.length_cons]; omega
    have e : 8 * (x :: a).length + p - 8 = 8 * a.length + p := by
      simp only [List.length_cons]; omega
    rw [List.cons_append, flip_bit, if_neg h, e, ih, List.cons_append]

theorem take_flip_bit (bs : List Byte) (p n : Nat) :
    (flip_bit bs p).take n = if p < 8 * n then flip_bit (bs.take n) p else bs.take n := by
  induction bs generalizing p n with
  | nil => simp [flip_bit]
  | cons b bs ih =>
    cases n with
    | zero => simp
    | succ n =>
      rw [flip_bit]
      by_cases h8 : p < 8
      · have : p < 8 * (n + 1) := by omega
        simp [h8, this, flip_bit]
      · simp only [h8, if_false, List.take_succ_cons, ih, flip_bit]
        by_cases hn : p - 8 < 8 * n
        · have : p < 8 * (n + 1) := by omega
          simp [hn, this]
        · have : ¬ p < 8 * (n + 1) := by omega
          simp [hn, this]

theorem drop_flip_bit (bs : List Byte) (p n : Nat) :
    (flip_bit bs p).drop n = if p < 8 * n then bs.drop n else flip_bit (bs.drop n) (p - 8 * n) := by
  induction bs generalizing p n with
  | nil => simp [flip_bit]
  | cons b bs ih =>
    cases n with
    | zero => simp
    | succ n =>
      rw [flip_bit]
      by_cases h8 : p < 8
      · have : p < 8 * (n + 1) := by omega
        simp [h8, this]
      · simp only [h8, if_false, List.drop_succ_cons, ih]
        by_cases hn : p - 8 < 8 * n
        · have : p < 8 * (n + 1) := by omega
          simp [hn, this]
        · have : ¬ p < 8 * (n + 1) := by omega
          have e : p - 8 - 8 * n = p - 8 * (n + 1) := by omega
          simp [hn, this, e]

theorem flip_bit_ne (bs : List Byte) (p : Nat) (hp : p < 8 * bs.length) : flip_bit bs p ≠ bs := by
  obtain ⟨l, x, y, r, h1, h2, h3⟩ := flip_bit_split bs p hp
  rw [h2, h1]
  intro h
  have := List.append_cancel_left h
  simp only [List.cons.injEq, and_true] at this
  exact h3 this.symm

theorem calculate_crc32_flip_bit (bs : List Byte) (p : Nat) (hp : p < 8 * bs.length) :
    calculate_crc32 (flip_bit bs p) ≠ calculate_crc32 bs := by
  obtain ⟨l, x, y, r, h1, h2, h3⟩ := flip_bit_split bs p hp
  rw [h2, h1]
  exact fun h => h3 (calculate_crc32_byte_change l r y x h).symm

theorem le_value_inj (a b : List Byte) (hl : a.length = b.length)
    (h : le_value a = le_value b) : a = b := by
  induction a generalizing b with
  | nil =>
    cases b with
    | nil => rfl
    | cons _ _ => simp at hl
  | cons x a ih =>
    cases b with
    | nil => simp at hl
    | cons y b =>
      simp only [le_value] at h
      simp only [List.length_cons, Nat.add_right_cancel_iff] at hl
      have hx := x.isLt
      have hy := y.isLt
      have h1 : x.val = y.val := by omega
      have h2 : le_value a = le_value b := by omega
      rw [Fin.ext h1, ih b hl h2]

end bitcask

namespace bitcask

/-- The first four bytes of an encoded record hold the checksum of the rest. -/
theorem encode_take_drop (r : LogRecord) :
    r.encode.take 4 = le32 (calculate_crc32 (r.encode.drop 4)) ∧
      r.encode.drop 4 =
        le32 r.timestamp ++ le32 r.key.length ++ le32 r.value.length ++ r.key ++ r.value := by
  have h4 : ∀ n, (le32 n).length = 4 := le32_length
  have hd : r.encode.drop 4 =
      le32 r.timestamp ++ le32 r.key.length ++ le32 r.value.length ++ r.key ++ r.value := by
    rw [LogRecord.encode, entry_bytes, pack_entry_drop]
    exact List.drop_left' (h4 _)
  refine ⟨?_, hd⟩
  rw [hd, LogRecord.encode, entry_bytes, pack_entry_drop]
  exact List.take_left' (h4 _)

theorem encode_size_fields (r : LogRecord) :
    ((r.encode.take 16).drop 8).take 4 = le32 r.key.length ∧
      ((r.encode.take 16).drop 12).take 4 = le32 r.value.length := by
  have hs := header_slices
    (le32 (calculate_crc32 (le32 r.timestamp ++ le32 r.key.length ++ le32 r.value.length ++
      r.key ++ r.value)))
    (le32 r.timestamp) (le32 r.key.length) (le32 r.value.length)
    (le32_length _) (le32_length _) (le32_length _) (le32_length _)
  obtain ⟨h16, _, _, _, h2, h3⟩ := hs
  rw [LogRecord.encode, entry_bytes_eq, List.take_left' h16]
  exact ⟨h2, h3⟩

namespace LogFile

/-- A record with one inverted bit outside its two size fields fails the checksum
test: the loop is left with the entries collected before it. -/
theorem scan_loop_flipped (fuel : Nat) (f : LogFile) (entries : List EntryMetadata)
    (r : LogRecord) (suf : List Byte) (p : Nat) (hfit : r.fits) (hg : f.good = true)
    (hc : f.content.drop f.pos = flip_bit r.encode p ++ suf) (hsz : f.pos < f.current_size_)
    (hp : p < 8 * r.encode.length) (hfield : p / 8 < 8 ∨ 16 ≤ p / 8) :
    ∃ f1, scan_loop (fuel + 1) f entries = some (entries, f1) := by
  obtain ⟨_, hk, hv⟩ := hfit
  have hlen := encode_length r
  have hlen' : (flip_bit r.encode p).length = 16 + r.key.length + r.value.length := by
    rw [flip_bit_length, hlen]
  obtain ⟨ht4, hd4⟩ := encode_take_drop r
  obtain ⟨hks, hvs⟩ := encode_size_fields r
  -- the pieces the scanner reads
  have hsplit : flip_bit r.encode p =
      (flip_bit r.encode p).take 16 ++
        (((flip_bit r.encode p).drop 16).take r.key.length ++
          ((flip_bit r.encode p).drop 16).drop r.key.length) := by
    rw [List.take_append_drop, List.take_append_drop]
  have hl16 : ((flip_bit r.encode p).take 16).length = 16 := by
    rw [List.length_take, hlen']; omega
  have hlk : (((flip_bit r.encode p).drop 16).take r.key.length).length = r.key.length := by
    rw [List.length_take, List.length_drop, hlen']; omega
  have hlv : (((flip_bit r.encode p).drop 16).drop r.key.length).length = r.value.length := by
    rw [List.length_drop, List.length_drop, hlen']; omega
  -- the size fields are untouched
  have hsame8 : ((flip_bit r.encode p).take 16).drop 8 = (r.encode.take 16).drop 8 := by
    rw [take_flip_bit]
    split
    · rw [drop_flip_bit, if_pos (by omega)]
    · rfl
  have hk' : le_value ((((flip_bit r.encode p).take 16).drop 8).take 4) =
      (((flip_bit r.encode p).drop 16).take r.key.length).length := by
    rw [hsame8, hks, hlk, le_value_le32_of_lt hk]
  have hv' : le_value ((((flip_bit r.encode p).take 16).drop 12).take 4) =
      (((flip_bit r.encode p).drop 16).drop r.key.length).length := by
    have e : ((flip_bit r.encode p).take 16).drop 12 = ((r.encode.take 16).drop 12) := by
      have := congrArg (List.drop 4) hsame8
      simpa only [List.drop_drop] using this
    rw [e, hvs, hlv, le_value_le32_of_lt hv]
  have hc' : f.content.drop f.pos =
      (flip_bit r.encode p).take 16 ++
        (((flip_bit r.encode p).drop 16).take r.key.length ++
          (((flip_bit r.encode p).drop 16).drop r.key.length ++ suf)) := by
    rw [hc]
    conv_lhs => rw [hsplit]
    simp only [List.append_assoc]
  -- the checksum test fails
  have hcrc : ¬ calculate_crc32 (((flip_bit r.encode p).take 16).drop 4 ++
      ((flip_bit r.encode p).drop 16).take r.key.length ++
      ((flip_bit r.encode p).drop 16).drop r.key.length) =
      le_value (((flip_bit r.encode p).take 16).take 4) := by
    have e1 : ((flip_bit r.encode p).take 16).drop 4 ++
        ((flip_bit r.encode p).drop 16).take r.key.length ++
        ((flip_bit r.encode p).drop 16).drop r.key.length = (flip_bit r.encode p).drop 4 := by
      conv_rhs => rw [hsplit]
      rw [List.drop_append_of_le_length (by rw [hl16]; omega), List.append_assoc]
    have e2 : ((flip_bit r.encode p).take 16).take 4 = (flip_bit r.encode p).take 4 := by
      rw [List.take_take]; rfl
    rw [e1, e2, take_flip_bit, drop_flip_bit]
    by_cases h32 : p < 32
    · rw [if_pos (by omega), if_pos (by omega), ht4]
      intro h
      have hcv : le_value (le32 (calculate_crc32 (r.encode.drop 4))) =
          calculate_crc32 (r.encode.drop 4) := le_value_le32_of_lt (calculate_crc32_lt _)
      have h' : le_value (flip_bit (le32 (calculate_crc32 (r.encode.drop 4))) p) =
          le_value (le32 (calculate_crc32 (r.encode.drop 4))) := by
        rw [hcv]; exact h.symm
      exact flip_bit_ne _ p (by rw [le32_length]; omega)
        (le_value_inj _ _ (flip_bit_length _ _) h')
    · rw [if_neg (by omega), if_neg (by omega), ht4,
        le_value_le32_of_lt (calculate_crc32_lt _)]
      exact calculate_crc32_flip_bit _ _ (by rw [List.length_drop]; omega)
  rw [scan_loop_chunk fuel f entries _ _ _ suf hg hl16 hk' hv' hc' hsz, if_neg hcrc]
  exact ⟨_, rfl⟩

end LogFile
end bitcask

namespace bitcask
namespace HashIndex

theorem is_tombstone_create (ts : Nat) : (IndexEntry.create_tombstone ts).is_tombstone = true := by
  simp [IndexEntry.is_tombstone, IndexEntry.create_tombstone]

theorem get_put_self (h : HashIndex) (k : Bytes) (e : IndexEntry) :
    (h.put k e).get k = if e.is_tombstone then none else some e := by
  simp [get, put, AList.lookup_insert]

theorem get_put_ne (h : HashIndex) {k k' : Bytes} (e : IndexEntry) (hne : k' ≠ k) :
    (h.put k e).get k' = h.get k' := by
  simp [get, put, AList.lookup_insert_ne hne]

theorem get_remove_self (h : HashIndex) (k : Bytes) (ts : Nat) : (h.remove k ts).get k = none := by
  simp [get, remove, AList.lookup_insert, is_tombstone_create]

theorem get_remove_ne (h : HashIndex) {k k' : Bytes} (ts : Nat) (hne : k' ≠ k) :
    (h.remove k ts).get k' = h.get k' := by
  simp [get, remove, AList.lookup_insert_ne hne]

theorem mem_live_entries (h : HashIndex) (k : Bytes) (e : IndexEntry) :
    (⟨k, e⟩ : Sigma fun _ : Bytes => IndexEntry) ∈ h.live_entries ↔ h.get k = some e := by
  unfold live_entries get
  rw [List.mem_filter]
  constructor
  · rintro ⟨hm, ht⟩
    have hl : h.index_.lookup k = some e := by
      have := (AList.mem_lookup_iff (s := h.index_) (a := k) (b := e)).mpr hm
      simpa using this
    simp only [hl]
    simpa using ht
  · intro hg
    cases hl : h.index_.lookup k with
    | none => simp [hl] at hg
    | some e' =>
      simp only [hl] at hg
      by_cases ht : e'.is_tombstone = true
      · simp [ht] at hg
      · simp only [ht, if_false, Option.some.injEq, Bool.false_eq_true] at hg
        subst hg
        have hm : (⟨k, e'⟩ : Sigma fun _ : Bytes => IndexEntry) ∈ h.index_.entries :=
          (AList.mem_lookup_iff (s := h.index_) (a := k) (b := e')).mp (by simp [hl])
        exact ⟨hm, by simpa using ht⟩

theorem mem_keys_iff (h : HashIndex) (k : Bytes) : k ∈ h.keys ↔ (h.get k).isSome = true := by
  unfold keys
  rw [List.mem_map]
  constructor
  · rintro ⟨⟨k', e⟩, hm, rfl⟩
    rw [(mem_live_entries h k' e).mp hm]
    rfl
  · intro hs
    obtain ⟨e, he⟩ := Option.isSome_iff_exists.mp hs
    exact ⟨⟨k, e⟩, (mem_live_entries h k e).mpr he, rfl⟩

theorem keys_nodup (h : HashIndex) : h.keys.Nodup := by
  have hs : List.Sublist h.keys h.index_.keys := by
    unfold keys live_entries AList.keys List.keys
    exact List.Sublist.map _ (List.filter_sublist _)
  exact List.Nodup.sublist hs h.index_.keys_nodup

theorem mem_export_hints (h : HashIndex) (x : HintEntry) :
    x ∈ h.export_hints ↔ h.get x.key = some x.entry := by
  unfold export_hints
  rw [List.mem_map]
  constructor
  · rintro ⟨⟨k, e⟩, hm, rfl⟩
    exact (mem_live_entries h k e).mp hm
  · intro hg
    exact ⟨⟨x.key, x.entry⟩, (mem_live_entries h _ _).mpr hg, rfl⟩

/-- C17. Tombstones are absent in every view of the hash index: after
`remove(k, ts)` the key `k` is not returned by `get`, `contains`, `keys` or
`export_hints` while every other key keeps its `get` result; and in every index
state `keys()` has no duplicates, lists exactly the keys for which `contains` and
`get` succeed, and `size()` is the length of `keys()` and of `export_hints()`. -/
theorem tombstone_is_absent_in_every_view (h : HashIndex) (k : Bytes) (ts : Nat) :
    (h.remove k ts).get k = none ∧ (h.remove k ts).contains k = false ∧
      k ∉ (h.remove k ts).keys ∧ (∀ x ∈ (h.remove k ts).export_hints, x.key ≠ k) ∧
      (∀ k', k' ≠ k → (h.remove k ts).get k' = h.get k') ∧
      h.keys.Nodup ∧ (∀ x, x ∈ h.keys ↔ h.contains x = true) ∧
      (∀ x, h.contains x = true ↔ (h.get x).isSome = true) ∧
      h.size = h.keys.length ∧ h.size = h.export_hints.length := by
  have hg := get_remove_self h k ts
  refine ⟨hg, by simp [contains, hg], ?_, ?_, fun k' hne => get_remove_ne h ts hne,
    keys_nodup h, fun x => mem_keys_iff h x, fun x => Iff.rfl, ?_, ?_⟩
  · rw [mem_keys_iff, hg]; simp
  · intro x hx hk
    have := (mem_export_hints _ x).mp hx
    rw [hk, hg] at this
    exact Option.noConfusion this
  · simp [size, keys]
  · simp [size, export_hints]

end HashIndex
end bitcask

namespace bitcask
namespace LogFile

/-- On a writable, open handle whose stream is good, `append` returns the offset
of the value and adds the encoded record at the end of the file. -/
theorem append_good (f : LogFile) (k v : Bytes) (ts : Nat) (hw : f.read_only_ = false)
    (ho : f.is_open = true) (hg : f.good = true) :
    f.append k v ts =
      (.Ok (f.current_size_ + 16 + k.length),
        { f with content := f.content ++ entry_bytes ts k v,
                 pos := (f.content ++ entry_bytes ts k v).length,
                 current_size_ := f.current_size_ + (entry_bytes ts k v).length }) := by
  simp [append, hw, ho, hg]

/-- On a read-only handle `append` fails and changes nothing. -/
theorem append_read_only (f : LogFile) (k v : Bytes) (ts : Nat) (hr : f.read_only_ = true) :
    f.append k v ts = (.Err "Cannot append to read-only file", f) := by
  simp [append, hr]

/-- Reading back the value just appended. -/
theorem read_value_after_append (f : LogFile) (k v : Bytes) (ts : Nat)
    (hw : f.read_only_ = false) (ho : f.is_open = true) (hg : f.good = true)
    (hs : f.current_size_ = f.content.length) :
    ((f.append k v ts).2.read_value (f.current_size_ + 16 + k.length) v.length).1 = .Ok v := by
  rw [append_good f k v ts hw ho hg]
  have hfb : f.failbit = false := by
    simp only [good, Bool.and_eq_true, Bool.not_eq_eq_eq_not, Bool.not_true] at hg
    exact hg.2
  have hd : List.drop (f.content.length + 16 + k.length) (f.content ++ entry_bytes ts k v) = v := by
    have e : entry_bytes ts k v =
        ((le32 (calculate_crc32 (le32 ts ++ le32 k.length ++ le32 v.length ++ k ++ v)) ++
          le32 ts ++ le32 k.length ++ le32 v.length) ++ k) ++ v := by
      rw [entry_bytes_eq]; simp only [List.append_assoc]
    rw [e, ← List.append_assoc]
    apply List.drop_left'
    simp only [List.length_append, le32_length]
    omega
  simp [read_value, ho, seekg, hfb, read, good, hg, hs, hd, fill_buffer, zeros, eof]

end LogFile

/-- Successive appends on a writable, open handle with a good stream return the
value offsets of `entry_metas` and add the encodings of the records. -/
theorem append_all_good (rs : List LogRecord) :
    ∀ f : LogFile, f.read_only_ = false → f.is_open = true → f.good = true →
      (append_all f rs).1 = (entry_metas f.current_size_ rs).map (fun m => Result.Ok m.value_pos) ∧
        (append_all f rs).2.content = f.content ++ encode_all rs := by
  induction rs with
  | nil => intro f _ _ _; simp [append_all, entry_metas, encode_all]
  | cons r rs ih =>
    intro f hw ho hg
    have h := ih { f with content := f.content ++ entry_bytes r.timestamp r.key r.value,
                          pos := (f.content ++ entry_bytes r.timestamp r.key r.value).length,
                          current_size_ := f.current_size_ +
                            (entry_bytes r.timestamp r.key r.value).length } hw ho hg
    simp only [append_all, LogFile.append_good f r.key r.value r.timestamp hw ho hg,
      entry_metas, encode_all, List.map_cons, LogRecord.encode]
    refine ⟨?_, ?_⟩
    · rw [h.1]
      simp only [entry_bytes_length, Nat.add_assoc]
    · rw [h.2, List.append_assoc]

end bitcask

namespace bitcask

theorem flip_bit_append_left (a b : List Byte) (p : Nat) (hp : p < 8 * a.length) :
    flip_bit (a ++ b) p = flip_bit a p ++ b := by
  induction a generalizing p with
  | nil => simp at hp
  | cons x a ih =>
    rw [List.cons_append, flip_bit, flip_bit]
    split
    · rfl
    · simp only [List.length_cons] at hp
      rw [ih (p - 8) (by omega), List.cons_append]

/-- Inverting a bit of one record of a file leaves the encodings before and
behind that record as they are. -/
theorem flip_bit_encode_all (pre post : List LogRecord) (r : LogRecord) (p : Nat)
    (hp : p < 8 * r.encode.length) :
    flip_bit (encode_all (pre ++ r :: post)) (8 * (encode_all pre).length + p) =
      encode_all pre ++ (flip_bit r.encode p ++ encode_all post) := by
  rw [encode_all_append, flip_bit_append_right, encode_all, flip_bit_append_left _ _ _ hp]

namespace LogFile

/-- The scan of a fresh handle passes over leading well-formed records. -/
theorem read_all_entries_skip_records (fid : Nat) (ro : Bool) (pre : List LogRecord)
    (tail : List Byte) (hpre : ∀ x ∈ pre, x.fits) :
    (mk_open fid (encode_all pre ++ tail) ro).read_all_entries =
      match scan_loop ((encode_all pre ++ tail).length + 2 - pre.length)
          { mk_open fid (encode_all pre ++ tail) ro with pos := (encode_all pre).length }
          (entry_metas 0 pre) with
      | some (entries, f1) => some (.Ok entries, f1)
      | none => none := by
  have hle := length_le_encode_all pre
  have hl : (encode_all pre ++ tail).length = (encode_all pre).length + tail.length :=
    List.length_append _ _
  have e : (encode_all pre ++ tail).length + 2 =
      pre.length + ((encode_all pre ++ tail).length + 2 - pre.length) := by omega
  have h := scan_loop_records pre hpre ((encode_all pre ++ tail).length + 2 - pre.length)
    (mk_open fid (encode_all pre ++ tail) ro) [] tail rfl (by simp [mk_open])
    (by simp [mk_open])
  have hs : (mk_open fid (encode_all pre ++ tail) ro).seekg 0 =
      mk_open fid (encode_all pre ++ tail) ro := rfl
  have hc : (mk_open fid (encode_all pre ++ tail) ro).content.length =
      (encode_all pre ++ tail).length := rfl
  rw [read_all_entries]
  simp only [hs, hc]
  rw [e, h, ← e]
  simp [mk_open]

/-- The scan returns the metadata of leading well-formed records whatever
follows them. -/
theorem read_all_entries_after_records (fid : Nat) (ro : Bool) (pre : List LogRecord)
    (tail : List Byte) (hpre : ∀ x ∈ pre, x.fits) :
    ∃ es f1, (mk_open fid (encode_all pre ++ tail) ro).read_all_entries =
      some (.Ok (entry_metas 0 pre ++ es), f1) := by
  have hle := length_le_encode_all pre
  have hl : (encode_all pre ++ tail).length = (encode_all pre).length + tail.length :=
    List.length_append _ _
  obtain ⟨es, f1, h⟩ := scan_loop_total ((encode_all pre ++ tail).length + 2 - pre.length)
    { mk_open fid (encode_all pre ++ tail) ro with pos := (encode_all pre).length }
    (entry_metas 0 pre) (by
      simp only [scan_measure, mk_open, good, Bool.not_false, Bool.and_self, if_true]
      omega)
  exact ⟨es, f1, by rw [read_all_entries_skip_records fid ro pre tail hpre, h]⟩

/-- A record with one inverted bit outside its size fields ends the scan. -/
theorem read_all_entries_flipped_record (fid : Nat) (ro : Bool) (pre : List LogRecord)
    (r : LogRecord) (suf : List Byte) (p : Nat) (hpre : ∀ x ∈ pre, x.fits) (hr : r.fits)
    (hp : p < 8 * r.encode.length) (hfield : p / 8 < 8 ∨ 16 ≤ p / 8) :
    ∃ f1, (mk_open fid (encode_all pre ++ (flip_bit r.encode p ++ suf)) ro).read_all_entries =
      some (.Ok (entry_metas 0 pre), f1) := by
  have hle := length_le_encode_all pre
  have hlr := encode_length r
  have hlf := flip_bit_length r.encode p
  have hl : (encode_all pre ++ (flip_bit r.encode p ++ suf)).length =
      (encode_all pre).length + ((flip_bit r.encode p).length + suf.length) := by
    rw [List.length_append, List.length_append]
  have e : (encode_all pre ++ (flip_bit r.encode p ++ suf)).length + 2 - pre.length =
      ((encode_all pre ++ (flip_bit r.encode p ++ suf)).length + 1 - pre.length) + 1 := by
    omega
  obtain ⟨f1, h⟩ := scan_loop_flipped
    ((encode_all pre ++ (flip_bit r.encode p ++ suf)).length + 1 - pre.length)
    { mk_open fid (encode_all pre ++ (flip_bit r.encode p ++ suf)) ro with
      pos := (encode_all pre).length }
    (entry_metas 0 pre) r suf p hr rfl (by simp [mk_open])
    (by simp only [mk_open]; omega) hp hfield
  exact ⟨f1, by rw [read_all_entries_skip_records fid ro pre _ hpre, e, h]⟩

end LogFile
end bitcask

namespace bitcask
namespace LogFile

/-- `read_all_entries` always returns: the rounds allowed by its definition
suffice on every handle. -/
theorem read_all_entries_returns (f : LogFile) : ∃ r, f.read_all_entries = some r := by
  unfold read_all_entries
  by_cases ho : f.is_open = true
  · have hm : scan_measure (f.seekg 0) < f.content.length + 2 := by
      unfold scan_measure seekg
      by_cases hf : f.failbit = true
      · simp [hf, good]
      · simp only [hf, if_false, Bool.false_eq_true]
        split
        · simp only [Nat.sub_zero]; omega
        · omega
    obtain ⟨es, f1, h⟩ := scan_loop_total (f.content.length + 2) (f.seekg 0) [] hm
    simp only [ho, Bool.not_true, if_false, Bool.false_eq_true, h]
    exact ⟨_, rfl⟩
  · simp only [ho, Bool.not_false, if_true]
    exact ⟨_, rfl⟩

end LogFile
end bitcask

namespace bitcask

theorem stored_exact (n : Nat) (old got : List Byte) (h : got.length = n) :
    stored n old got = got := by
  have hl : ((old ++ zeros n).take n).length ≤ got.length := by
    rw [List.length_take, h]; exact Nat.min_le_left _ _
  rw [stored, List.drop_eq_nil_of_le hl, List.append_nil]

theorem hint_bytes_length (hint : HintEntry) : (hint_bytes hint).length = 20 + hint.key.length := by
  simp only [hint_bytes, List.length_append, le32_length, le64_length]

namespace HintStream

theorem hint_read_exact {s : HintStream} (h : s.good = true) (b c : List Byte)
    (hc : s.content.drop s.pos = b ++ c) :
    s.read b.length = (b, { s with pos := s.pos + b.length }) := by
  simp [read, h, hc]

theorem hint_drop_after_read {s : HintStream} (b c : List Byte)
    (hc : s.content.drop s.pos = b ++ c) :
    s.content.drop (s.pos + b.length) = c := by
  rw [← List.drop_drop, hc, List.drop_left]

end HintStream

/-- One round of the hint loop, written out. -/
theorem hint_loop_succ (uninit : List Byte) (file_id fuel : Nat) (s : HintStream)
    (index : HashIndex) :
    hint_loop uninit file_id (fuel + 1) s index =
      if s.peek_not_eof.1 = true then
        if (!((((((s.peek_not_eof.2.read 4).2.read 4).2.read 4).2.read 8).2.read
              (le_value (stored 4 ((uninit.drop 4).take 4)
                ((s.peek_not_eof.2.read 4).2.read 4).1))).2.good) &&
            !((((((s.peek_not_eof.2.read 4).2.read 4).2.read 4).2.read 8).2.read
              (le_value (stored 4 ((uninit.drop 4).take 4)
                ((s.peek_not_eof.2.read 4).2.read 4).1))).2.eof)) = true then
          some (.Err "Corrupted hint file", index)
        else
          hint_loop uninit file_id fuel
            (((((s.peek_not_eof.2.read 4).2.read 4).2.read 4).2.read 8).2.read
              (le_value (stored 4 ((uninit.drop 4).take 4)
                ((s.peek_not_eof.2.read 4).2.read 4).1))).2
            (index.put
              (fill_buffer
                (le_value (stored 4 ((uninit.drop 4).take 4)
                  ((s.peek_not_eof.2.read 4).2.read 4).1))
                (((((s.peek_not_eof.2.read 4).2.read 4).2.read 4).2.read 8).2.read
                  (le_value (stored 4 ((uninit.drop 4).take 4)
                    ((s.peek_not_eof.2.read 4).2.read 4).1))).1)
              { file_id := file_id,
                value_pos := le_value (stored 8 ((uninit.drop 12).take 8)
                  ((((s.peek_not_eof.2.read 4).2.read 4).2.read 4).2.read 8).1),
                value_size := le_value (stored 4 ((uninit.drop 8).take 4)
                  (((s.peek_not_eof.2.read 4).2.read 4).2.read 4).1),
                timestamp := le_value (stored 4 (uninit.take 4) (s.peek_not_eof.2.read 4).1) })
      else some (.Ok true, index) := by
  rfl

/-- One round of the hint loop over the bytes of a well-formed hint. -/
theorem hint_loop_hint (uninit : List Byte) (file_id fuel : Nat) (s : HintStream)
    (index : HashIndex) (hint : HintEntry) (suf : List Byte) (hfit : hint.fits)
    (hg : s.good = true) (hc : s.content.drop s.pos = hint_bytes hint ++ suf) :
    hint_loop uninit file_id (fuel + 1) s index =
      hint_loop uninit file_id fuel { s with pos := s.pos + (hint_bytes hint).length }
        (index.put hint.key
          { file_id := file_id, value_pos := hint.entry.value_pos,
            value_size := hint.entry.value_size, timestamp := hint.entry.timestamp }) := by
  obtain ⟨hk, ht, hv, hp⟩ := hfit
  have hlt : s.pos < s.content.length := by
    have := congrArg List.length hc
    rw [List.length_drop, List.length_append, hint_bytes_length] at this
    omega
  have hc1 : s.content.drop s.pos = le32 hint.entry.timestamp ++ (le32 hint.key.length ++
      (le32 hint.entry.value_size ++ (le64 hint.entry.value_pos ++ (hint.key ++ suf)))) := by
    rw [hc, hint_bytes]; simp only [List.append_assoc]
  have r1 := HintStream.hint_read_exact hg _ _ hc1
  have hc2 := HintStream.hint_drop_after_read _ _ hc1
  have r2 := HintStream.hint_read_exact (s := { s with pos := s.pos + (le32 hint.entry.timestamp).length })
    hg _ _ hc2
  have hc3 := HintStream.hint_drop_after_read (s := { s with pos := s.pos + (le32 hint.entry.timestamp).length })
    _ _ hc2
  have r3 := HintStream.hint_read_exact (s := { s with pos := s.pos + (le32 hint.entry.timestamp).length
    + (le32 hint.key.length).length }) hg _ _ hc3
  have hc4 := HintStream.hint_drop_after_read (s := { s with pos := s.pos + (le32 hint.entry.timestamp).length
    + (le32 hint.key.length).length }) _ _ hc3
  have r4 := HintStream.hint_read_exact (s := { s with pos := s.pos + (le32 hint.entry.timestamp).length
    + (le32 hint.key.length).length + (le32 hint.entry.value_size).length }) hg _ _ hc4
  have hc5 := HintStream.hint_drop_after_read (s := { s with pos := s.pos + (le32 hint.entry.timestamp).length
    + (le32 hint.key.length).length + (le32 hint.entry.value_size).length }) _ _ hc4
  have r5 := HintStream.hint_read_exact (s := { s with pos := s.pos + (le32 hint.entry.timestamp).length
    + (le32 hint.key.length).length + (le32 hint.entry.value_size).length
    + (le64 hint.entry.value_pos).length }) hg _ _ hc5
  simp only [le32_length, le64_length] at r1 r2 r3 r4 r5
  have hg5 : ({ s with pos := s.pos + 4 + 4 + 4 + 8 + hint.key.length } : HintStream).good = true := hg
  have hpeek : s.peek_not_eof = (true, s) := by simp [HintStream.peek_not_eof, hg, hlt]
  rw [hint_loop_succ]
  simp only [hpeek, if_true, r1, r2, r3, r4,
    stored_exact _ _ _ (le32_length _), stored_exact _ _ _ (le64_length _),
    le_value_le32_of_lt hk, le_value_le32_of_lt ht, le_value_le32_of_lt hv,
    le_value_le64_of_lt hp, r5, hg5, LogFile.fill_buffer_exact _ _ rfl, Bool.not_true, Bool.false_and,
    Bool.false_eq_true, if_false, hint_bytes_length]
  have e : s.pos + 4 + 4 + 4 + 8 + hint.key.length = s.pos + (20 + hint.key.length) := by omega
  rw [e]

/-- The hint loop over the bytes `write_hint_file` wrote performs the puts of the
hints in order and ends at the end of the file. -/
theorem hint_loop_hints (uninit : List Byte) (file_id : Nat) (hints : List HintEntry)
    (hfit : ∀ h ∈ hints, h.fits) :
    ∀ (fuel : Nat) (s : HintStream) (index : HashIndex), s.good = true →
      s.content.drop s.pos = write_hint_file_bytes hints →
      hint_loop uninit file_id (hints.length + (fuel + 1)) s index =
        some (.Ok true, put_hints file_id index hints) := by
  induction hints with
  | nil =>
    intro fuel s index hg hc
    have hge : ¬ s.pos < s.content.length := by
      have := congrArg List.length hc
      simp only [write_hint_file_bytes, List.length_drop, List.length_nil] at this
      omega
    simp only [List.length_nil, Nat.zero_add, put_hints]
    have hpeek : s.peek_not_eof = (false, { s with eofbit := true }) := by
      simp [HintStream.peek_not_eof, hg, hge]
    rw [hint_loop_succ, hpeek]
    simp
  | cons hint hints ih =>
    intro fuel s index hg hc
    have hh : hint.fits := hfit hint (List.mem_cons_self _ _)
    have hrest : ∀ h ∈ hints, h.fits := fun h hm => hfit h (List.mem_cons_of_mem _ hm)
    have e : (hint :: hints).length + (fuel + 1) = (hints.length + (fuel + 1)) + 1 := by
      simp only [List.length_cons]; omega
    rw [write_hint_file_bytes] at hc
    rw [e, hint_loop_hint uninit file_id _ s index hint _ hh hg hc, put_hints]
    exact ih hrest fuel { s with pos := s.pos + (hint_bytes hint).length } _ hg
      (HintStream.hint_drop_after_read _ _ hc)

theorem length_le_hint_bytes (hints : List HintEntry) :
    hints.length ≤ (write_hint_file_bytes hints).length := by
  induction hints with
  | nil => simp [write_hint_file_bytes]
  | cons h hs ih =>
    simp only [write_hint_file_bytes, List.length_cons, List.length_append, hint_bytes_length]
    omega

/-- Reading the file `write_hint_file` wrote is the sequence of puts. -/
theorem read_hint_file_written (uninit : List Byte) (file_id : Nat) (index : HashIndex)
    (hints : List HintEntry) (hfit : ∀ h ∈ hints, h.fits) :
    read_hint_file uninit (some (write_hint_file_bytes hints)) file_id index =
      some (.Ok true, put_hints file_id index hints) := by
  have hle := length_le_hint_bytes hints
  have e : (write_hint_file_bytes hints).length + 1 =
      hints.length + (((write_hint_file_bytes hints).length - hints.length) + 1) := by omega
  rw [read_hint_file, e]
  exact hint_loop_hints uninit file_id hints hfit _ _ index rfl rfl

end bitcask

namespace bitcask

theorem LogFile.append_file_id (f : LogFile) (k v : Bytes) (ts : Nat) :
    (f.append k v ts).2.file_id_ = f.file_id_ := by
  unfold LogFile.append
  by_cases hr : f.read_only_ = true
  · simp [hr]
  · by_cases ho : f.is_open = true
    · by_cases hg : f.good = true <;> simp [hr, ho, hg]
    · simp [hr, ho]

namespace Bitcask

/-- What `put` does to the file ids: nothing, or one rotation. -/
theorem put_ids (b : Bitcask) (k v : Bytes) (now : Nat) :
    ((b.put k v now).2.old_files_ = b.old_files_ ∧
        (b.put k v now).2.active_file_.id = b.active_file_.id ∧
        (b.put k v now).2.next_file_id_ = b.next_file_id_) ∨
      ((b.put k v now).2.old_files_.map LogFile.id =
          b.old_files_.map LogFile.id ++ [b.active_file_.id] ∧
        (b.put k v now).2.active_file_.id = b.next_file_id_ % 2 ^ 32 ∧
        (b.put k v now).2.next_file_id_ = b.next_file_id_ + 1) := by
  have hid := LogFile.append_file_id b.active_file_ k v (now % 2 ^ 32)
  unfold put
  by_cases hk : k.isEmpty = true
  · simp [hk]
  · simp only [hk, if_false, Bool.false_eq_true]
    cases hres : (b.active_file_.append k v (now % 2 ^ 32)).1 with
    | Err e =>
      left
      simp only [hres]
      refine ⟨?_, ?_, ?_⟩ <;> trivial
    | Ok pos =>
      simp only [hres]
      split
      · right
        refine ⟨?_, rfl, rfl⟩
        simp only [rotate_active_file, LogFile.id, LogFile.mk_open, List.map_append,
          List.map_cons, List.map_nil]
        rw [show (b.active_file_.append k v (now % 2 ^ 32)).2.file_id_ = b.active_file_.file_id_
          from hid]
      · left
        refine ⟨?_, ?_, ?_⟩ <;> trivial

/-- `del` leaves the file ids alone. -/
theorem del_ids (b : Bitcask) (k : Bytes) (now : Nat) :
    (b.del k now).2.old_files_ = b.old_files_ ∧
      (b.del k now).2.active_file_.id = b.active_file_.id ∧
      (b.del k now).2.next_file_id_ = b.next_file_id_ := by
  have hid := LogFile.append_file_id b.active_file_ k [] (now % 2 ^ 32)
  unfold del
  by_cases hc : b.index_.contains k = true
  · simp only [hc, Bool.not_true, if_false, Bool.false_eq_true]
    cases hres : (b.active_file_.append k [] (now % 2 ^ 32)).1 with
    | Err e => simp only [hres]; refine ⟨?_, ?_, ?_⟩ <;> trivial
    | Ok pos => simp only [hres]; refine ⟨?_, ?_, ?_⟩ <;> trivial
  · simp [hc]

/-- A step that is not a merge keeps the active id above the immutable ids, as
long as the id counter has not wrapped. -/
theorem step_keeps_order (b : Bitcask) (op : Op) (hop : op ≠ Op.merge)
    (h : b.next_file_id_ ≤ 2 ^ 32 →
      b.active_file_.id < b.next_file_id_ ∧ ∀ f ∈ b.old_files_, f.id < b.active_file_.id) :
    (b.step op).next_file_id_ ≤ 2 ^ 32 →
      (b.step op).active_file_.id < (b.step op).next_file_id_ ∧
        ∀ f ∈ (b.step op).old_files_, f.id < (b.step op).active_file_.id := by
  cases op with
  | merge => exact absurd rfl hop
  | del k now =>
    obtain ⟨h1, h2, h3⟩ := del_ids b k now
    simp only [step]
    rw [h1, h2, h3]
    exact h
  | put k v now =>
    simp only [step]
    rcases put_ids b k v now with ⟨h1, h2, h3⟩ | ⟨h1, h2, h3⟩
    · rw [h1, h2, h3]
      exact h
    · intro hn
      rw [h3] at hn
      obtain ⟨ha, ho⟩ := h (by omega)
      have hmod : b.next_file_id_ % 2 ^ 32 = b.next_file_id_ := Nat.mod_eq_of_lt (by omega)
      rw [h2, h3, hmod]
      refine ⟨by omega, fun f hf => ?_⟩
      have hm : f.id ∈ (b.put k v now).2.old_files_.map LogFile.id := List.mem_map_of_mem _ hf
      rw [h1, List.mem_append, List.mem_singleton] at hm
      rcases hm with hm | hm
      · obtain ⟨g, hg, hge⟩ := List.mem_map.mp hm
        have := ho g hg
        omega
      · omega

theorem run_keeps_order (ops : List Op) (hops : ∀ op ∈ ops, op ≠ Op.merge) :
    ∀ b : Bitcask,
      (b.next_file_id_ ≤ 2 ^ 32 →
        b.active_file_.id < b.next_file_id_ ∧ ∀ f ∈ b.old_files_, f.id < b.active_file_.id) →
      (b.run ops).next_file_id_ ≤ 2 ^ 32 →
        (b.run ops).active_file_.id < (b.run ops).next_file_id_ ∧
          ∀ f ∈ (b.run ops).old_files_, f.id < (b.run ops).active_file_.id := by
  induction ops with
  | nil => intro b h; exact h
  | cons op ops ih =>
    intro b h
    exact ih (fun o ho => hops o (List.mem_cons_of_mem _ ho)) (b.step op)
      (step_keeps_order b op (hops op (List.mem_cons_self _ _)) h)

end Bitcask
end bitcask

namespace bitcask

/-- Every key of the grouping after `group_add` is the added key or was there
before. -/
theorem mem_group_add (file_id : Nat) (key : Bytes) (groups : List (Nat × List Bytes))
    (g : Nat × List Bytes) (k : Bytes) (hg : g ∈ group_add file_id key groups) (hk : k ∈ g.2) :
    k = key ∨ ∃ g' ∈ groups, k ∈ g'.2 := by
  induction groups with
  | nil =>
    simp only [group_add, List.mem_singleton] at hg
    subst hg
    simp only [List.mem_singleton] at hk
    exact Or.inl hk
  | cons g0 rest ih =>
    obtain ⟨fid, keys⟩ := g0
    simp only [group_add] at hg
    split at hg
    · rcases List.mem_cons.mp hg with h | h
      · subst h
        simp only [List.mem_singleton] at hk
        exact Or.inl hk
      · exact Or.inr ⟨g, h, hk⟩
    · split at hg
      · rcases List.mem_cons.mp hg with h | h
        · subst h
          simp only [List.mem_append, List.mem_singleton] at hk
          rcases hk with hk | hk
          · exact Or.inr ⟨(fid, keys), List.mem_cons_self _ _, hk⟩
          · exact Or.inl hk
        · exact Or.inr ⟨g, List.mem_cons_of_mem _ h, hk⟩
      · rcases List.mem_cons.mp hg with h | h
        · subst h
          exact Or.inr ⟨(fid, keys), List.mem_cons_self _ _, hk⟩
        · rcases ih h with h1 | ⟨g', hg', hk'⟩
          · exact Or.inl h1
          · exact Or.inr ⟨g', List.mem_cons_of_mem _ hg', hk'⟩

namespace Bitcask

theorem keys_by_file_fold (b : Bitcask) (keys : List Bytes) :
    ∀ groups : List (Nat × List Bytes), (∀ g ∈ groups, ∀ k ∈ g.2, b.in_old_file k) →
      ∀ g ∈ keys.foldl
          (fun groups key =>
            match b.index_.get key with
            | some entry =>
              if entry.file_id != b.active_file_.id then group_add entry.file_id key groups
              else groups
            | none => groups)
          groups,
        ∀ k ∈ g.2, b.in_old_file k := by
  induction keys with
  | nil => intro groups h; exact h
  | cons key keys ih =>
    intro groups h
    rw [List.foldl_cons]
    apply ih
    cases he : b.index_.get key with
    | none => exact h
    | some e =>
      simp only []
      by_cases hne : (e.file_id != b.active_file_.id) = true
      · simp only [hne, if_true]
        intro g hg k hk
        rcases mem_group_add _ _ _ g k hg hk with h1 | ⟨g', hg', hk'⟩
        · subst h1
          exact ⟨e, he, hne⟩
        · exact h g' hg' k hk'
      · simp only [hne, if_false]
        exact h

/-- Every key the merge groups has a live entry outside the active file. -/
theorem keys_by_file_of_old (b : Bitcask) (live_keys : List Bytes) :
    ∀ g ∈ b.keys_by_file_of live_keys, ∀ k ∈ g.2, b.in_old_file k :=
  keys_by_file_fold b live_keys [] (fun g hg => absurd hg (List.not_mem_nil g))

theorem keys_by_file_old (b : Bitcask) : ∀ g ∈ b.keys_by_file, ∀ k ∈ g.2, b.in_old_file k :=
  keys_by_file_of_old b b.index_.keys

/-- `get` of a key stored outside the active file changes only the streams of
the immutable files. -/
theorem get_in_old_file (b : Bitcask) (key : Bytes) (h : b.in_old_file key) :
    (b.get key).2.active_file_ = b.active_file_ ∧ (b.get key).2.index_ = b.index_ ∧
      (b.get key).2.next_file_id_ = b.next_file_id_ ∧
      (b.get key).2.hint_files = b.hint_files ∧
      (b.get key).2.max_file_size = b.max_file_size := by
  obtain ⟨e, he, hne⟩ := h
  have hne' : (b.active_file_.id == e.file_id) = false := by
    simp only [bne_iff_ne, ne_eq] at hne
    simp only [beq_eq_false_iff_ne, ne_eq]
    exact fun h => hne h.symm
  unfold get
  simp only [he, hne', Bool.false_eq_true, if_false]
  cases read_old b.old_files_ e.file_id e.value_pos e.value_size with
  | none => exact ⟨rfl, rfl, rfl, rfl, rfl⟩
  | some p => exact ⟨rfl, rfl, rfl, rfl, rfl⟩

/-- The inner loop of the merge leaves the active file and the index alone. -/
theorem merge_keys_frame (new_file_id : Nat) (keys : List Bytes) :
    ∀ (b : Bitcask) (mf : LogFile) (hints : List HintEntry), (∀ k ∈ keys, b.in_old_file k) →
      (merge_keys new_file_id keys b mf hints).1.active_file_ = b.active_file_ ∧
        (merge_keys new_file_id keys b mf hints).1.index_ = b.index_ ∧
        (merge_keys new_file_id keys b mf hints).1.next_file_id_ = b.next_file_id_ ∧
        (merge_keys new_file_id keys b mf hints).1.hint_files = b.hint_files ∧
        (merge_keys new_file_id keys b mf hints).1.max_file_size = b.max_file_size := by
  induction keys with
  | nil => intro b mf hints _; exact ⟨rfl, rfl, rfl, rfl, rfl⟩
  | cons key keys ih =>
    intro b mf hints h
    obtain ⟨h1, h2, h3, h4, h5⟩ := get_in_old_file b key (h key (List.mem_cons_self _ _))
    have hrest : ∀ k ∈ keys, (b.get key).2.in_old_file k := by
      intro k hk
      obtain ⟨e, he, hne⟩ := h k (List.mem_cons_of_mem _ hk)
      exact ⟨e, by rw [h2]; exact he, by rw [h1]; exact hne⟩
    rw [merge_keys]
    simp only []
    cases hv : (b.get key).1 with
    | Err e =>
      simp only [hv]
      rw [← h1, ← h2, ← h3, ← h4, ← h5]
      exact ih _ _ _ hrest
    | Ok value =>
      simp only [hv]
      cases hi : (b.get key).2.index_.get key with
      | none =>
        simp only [hi]
        rw [← h1, ← h2, ← h3, ← h4, ← h5]
        exact ih _ _ _ hrest
      | some entry =>
        simp only [hi]
        cases ha : (mf.append key value entry.timestamp).1 with
        | Ok pos =>
          simp only [ha]
          rw [← h1, ← h2, ← h3, ← h4, ← h5]
          exact ih _ _ _ hrest
        | Err e =>
          simp only [ha]
          rw [← h1, ← h2, ← h3, ← h4, ← h5]
          exact ih _ _ _ hrest

/-- The outer loop of the merge leaves the active file and the index alone. -/
theorem merge_groups_frame (groups : List (Nat × List Bytes)) :
    ∀ (b : Bitcask) (merged : List LogFile), (∀ g ∈ groups, ∀ k ∈ g.2, b.in_old_file k) →
      (merge_groups groups b merged).1.active_file_ = b.active_file_ ∧
        (merge_groups groups b merged).1.index_ = b.index_ ∧
        (merge_groups groups b merged).1.max_file_size = b.max_file_size := by
  induction groups with
  | nil => intro b merged _; exact ⟨rfl, rfl, rfl⟩
  | cons g groups ih =>
    intro b merged h
    obtain ⟨fid, keys⟩ := g
    rw [merge_groups]
    have hrest : ∀ g ∈ groups, ∀ k ∈ g.2, b.in_old_file k :=
      fun g hg => h g (List.mem_cons_of_mem _ hg)
    by_cases hk : keys.isEmpty = true
    · simp only [hk, if_true]
      exact ih b merged hrest
    · simp only [hk, if_false, Bool.false_eq_true]
      have hkeys : ∀ k ∈ keys,
          ({ b with next_file_id_ := b.next_file_id_ + 1 } : Bitcask).in_old_file k :=
        fun k hk => h (fid, keys) (List.mem_cons_self _ _) k hk
      obtain ⟨h1, h2, _, _, h5⟩ := merge_keys_frame (b.next_file_id_ % 2 ^ 32) keys
        { b with next_file_id_ := b.next_file_id_ + 1 }
        (LogFile.mk_open (b.next_file_id_ % 2 ^ 32) [] false) [] hkeys
      have hnext : ∀ g ∈ groups, ∀ k ∈ g.2,
          ((merge_keys (b.next_file_id_ % 2 ^ 32) keys
            { b with next_file_id_ := b.next_file_id_ + 1 }
            (LogFile.mk_open (b.next_file_id_ % 2 ^ 32) [] false) []).1.write_hint_file
              (b.next_file_id_ % 2 ^ 32)
              (merge_keys (b.next_file_id_ % 2 ^ 32) keys
                { b with next_file_id_ := b.next_file_id_ + 1 }
                (LogFile.mk_open (b.next_file_id_ % 2 ^ 32) [] false) []).2.2).in_old_file k := by
        intro g hg k hk
        obtain ⟨e, he, hne⟩ := hrest g hg k hk
        refine ⟨e, ?_, ?_⟩
        · show (merge_keys _ _ _ _ _).1.index_.get k = some e
          rw [h2]; exact he
        · show (e.file_id != (merge_keys _ _ _ _ _).1.active_file_.id) = true
          rw [h1]; exact hne
      obtain ⟨i1, i2, i3⟩ := ih _ (merged ++ [(merge_keys (b.next_file_id_ % 2 ^ 32) keys
            { b with next_file_id_ := b.next_file_id_ + 1 }
            (LogFile.mk_open (b.next_file_id_ % 2 ^ 32) [] false) []).2.1.close]) hnext
      refine ⟨?_, ?_, ?_⟩
      · rw [i1]; exact h1
      · rw [i2]; exact h2
      · rw [i3]; exact h5

/-- `merge` changes neither the active file nor the index, whatever the
enumeration of the live keys. -/
theorem merge_of_frame (b : Bitcask) (live_keys : List Bytes) :
    (b.merge_of live_keys).2.active_file_ = b.active_file_ ∧
      (b.merge_of live_keys).2.index_ = b.index_ ∧
      (b.merge_of live_keys).2.max_file_size = b.max_file_size := by
  unfold merge_of
  by_cases he : b.old_files_.isEmpty = true
  · rw [if_pos he]
    exact ⟨rfl, rfl, rfl⟩
  · rw [if_neg he]
    exact merge_groups_frame (b.keys_by_file_of live_keys) b []
      (keys_by_file_of_old b live_keys)

/-- `merge` changes neither the active file nor the index. -/
theorem merge_frame (b : Bitcask) :
    b.merge.2.active_file_ = b.active_file_ ∧ b.merge.2.index_ = b.index_ ∧
      b.merge.2.max_file_size = b.max_file_size :=
  merge_of_frame b b.index_.keys

end Bitcask
end bitcask

namespace bitcask
namespace Bitcask

theorem open_empty_usable (m : Nat) : (open_empty m).active_usable := ⟨rfl, rfl, rfl, rfl⟩

theorem append_usable (f : LogFile) (k v : Bytes) (ts : Nat) (hw : f.read_only_ = false)
    (ho : f.is_open = true) (hg : f.good = true) :
    f.append k v ts = (.Ok (f.current_size_ + 16 + k.length), appended f k v ts) :=
  LogFile.append_good f k v ts hw ho hg

/-- `put` with a non-empty key on a usable active file. -/
theorem put_eq (b : Bitcask) (k v : Bytes) (now : Nat) (hu : b.active_usable)
    (hk : k.isEmpty = false) :
    b.put k v now =
      (.Ok (), if (b.put_appended k v now).active_file_.size ≥ b.max_file_size then
          (b.put_appended k v now).rotate_active_file
        else b.put_appended k v now) := by
  obtain ⟨hw, ho, hg, _⟩ := hu
  have hid : (appended b.active_file_ k v (now % 2 ^ 32)).id = b.active_file_.id := rfl
  by_cases hr : (b.put_appended k v now).active_file_.size ≥ b.max_file_size
  · have hr' : (appended b.active_file_ k v (now % 2 ^ 32)).size ≥ b.max_file_size := hr
    rw [if_pos hr]
    simp only [put, hk, Bool.false_eq_true, if_false,
      append_usable b.active_file_ k v (now % 2 ^ 32) hw ho hg, hid, hr', if_true]
    rfl
  · have hr' : ¬ (appended b.active_file_ k v (now % 2 ^ 32)).size ≥ b.max_file_size := hr
    rw [if_neg hr]
    simp only [put, hk, Bool.false_eq_true, if_false,
      append_usable b.active_file_ k v (now % 2 ^ 32) hw ho hg, hid, hr']
    rfl

/-- `del` of a live key on a usable active file. -/
theorem del_eq (b : Bitcask) (k : Bytes) (now : Nat) (hu : b.active_usable)
    (hc : b.index_.contains k = true) :
    b.del k now = (.Ok (), b.del_appended k now) := by
  obtain ⟨hw, ho, hg, _⟩ := hu
  simp only [del, hc, Bool.not_true, Bool.false_eq_true, if_false,
    append_usable b.active_file_ k [] (now % 2 ^ 32) hw ho hg]
  rfl

/-- `del` of a key that `get` does not find. -/
theorem del_absent (b : Bitcask) (k : Bytes) (now : Nat) (hc : b.index_.contains k = false) :
    b.del k now = (.Err "Key not found", b) := by
  unfold del
  simp only [hc, Bool.not_false, if_true]

theorem appended_usable (f : LogFile) (k v : Bytes) (ts : Nat) (hw : f.read_only_ = false)
    (ho : f.is_open = true) (hg : f.good = true)
    (hs : f.current_size_ = f.content.length) :
    (appended f k v ts).read_only_ = false ∧ (appended f k v ts).is_open = true ∧
      (appended f k v ts).good = true ∧
      (appended f k v ts).current_size_ = (appended f k v ts).content.length := by
  refine ⟨hw, ho, hg, ?_⟩
  simp only [appended, List.length_append, hs]

theorem put_appended_usable (b : Bitcask) (k v : Bytes) (now : Nat) (hu : b.active_usable) :
    (b.put_appended k v now).active_usable :=
  appended_usable _ k v _ hu.1 hu.2.1 hu.2.2.1 hu.2.2.2

theorem rotate_usable (b : Bitcask) : b.rotate_active_file.active_usable := ⟨rfl, rfl, rfl, rfl⟩

theorem step_usable (b : Bitcask) (op : Op) (hu : b.active_usable) : (b.step op).active_usable := by
  cases op with
  | put k v now =>
    simp only [step]
    by_cases hk : k.isEmpty = true
    · have : b.put k v now = (.Err "Key cannot be empty", b) := by simp [put, hk]
      rw [this]; exact hu
    · rw [put_eq b k v now hu (by simpa using hk)]
      simp only []
      split
      · exact rotate_usable _
      · exact put_appended_usable b k v now hu
  | del k now =>
    simp only [step]
    by_cases hc : b.index_.contains k = true
    · rw [del_eq b k now hu hc]
      exact appended_usable _ k [] _ hu.1 hu.2.1 hu.2.2.1 hu.2.2.2
    · rw [del_absent b k now (by simpa using hc)]
      exact hu
  | merge =>
    simp only [step]
    unfold active_usable
    rw [(merge_frame b).1]
    exact hu

end Bitcask
end bitcask

namespace bitcask

theorem readable_length (v : Bytes) : (readable v).length = v.length % 2 ^ 32 := by
  have h : v.length % 2 ^ 32 ≤ v.length := Nat.mod_le _ _
  simp only [readable, List.length_take]
  omega

theorem readable_of_lt (v : Bytes) (h : v.length < 2 ^ 32) : readable v = v := by
  rw [readable, Nat.mod_eq_of_lt h, List.take_length]

namespace LogFile

/-- A read inside the file on an open handle with a good stream returns the
bytes at that position. -/
theorem read_value_good (f : LogFile) (p n : Nat) (ho : f.is_open = true) (hg : f.good = true)
    (hl : ((f.content.drop p).take n).length = n) :
    (f.read_value p n).1 = .Ok ((f.content.drop p).take n) := by
  have hb : f.eofbit = false ∧ f.failbit = false := by
    simpa [good] using hg
  simp [read_value, ho, seekg, hb.1, hb.2, read, good, hl, fill_buffer, zeros, eof]

end LogFile

theorem read_old_fst (fs : List LogFile) (id p n : Nat) :
    (read_old fs id p n).map Prod.fst =
      (fs.find? (fun f => f.id == id)).map (fun f => (f.read_value p n).1) := by
  induction fs with
  | nil => rfl
  | cons f fs ih =>
    rw [read_old, List.find?_cons]
    by_cases h : (f.id == id) = true
    · simp [h]
    · simp only [h, Bool.false_eq_true, if_false]
      rw [← ih]
      cases read_old fs id p n with
      | none => rfl
      | some r => rfl

namespace Bitcask

theorem get_none (b : Bitcask) (k : Bytes) (h : b.index_.get k = none) :
    (b.get k).1 = .Err "Key not found" := by
  simp [get, h]

/-- `get` returns the bytes the index entry points at. -/
theorem get_of_entry (b : Bitcask) (k : Bytes) (e : IndexEntry) (c : List Byte)
    (hu : b.active_usable) (ho : b.old_files_readable) (he : b.index_.get k = some e)
    (hc : b.file_content e.file_id = some c)
    (hl : ((c.drop e.value_pos).take e.value_size).length = e.value_size) :
    (b.get k).1 = .Ok ((c.drop e.value_pos).take e.value_size) := by
  unfold file_content at hc
  unfold get
  simp only [he]
  by_cases ha : b.active_file_.id = e.file_id
  · simp only [ha, if_true, Option.some.injEq] at hc
    subst hc
    have hb : (b.active_file_.id == e.file_id) = true := by simpa using ha
    simp only [hb, if_true]
    exact LogFile.read_value_good _ _ _ hu.2.1 hu.2.2.1 hl
  · simp only [ha, if_false] at hc
    have hb : (b.active_file_.id == e.file_id) = false := by simpa using ha
    simp only [hb, Bool.false_eq_true, if_false]
    have hf := read_old_fst b.old_files_ e.file_id e.value_pos e.value_size
    cases hfind : b.old_files_.find? (fun f => f.id == e.file_id) with
    | none => simp [hfind] at hc
    | some f =>
      rw [hfind] at hc hf
      simp only [Option.map_some', Option.some.injEq] at hc hf
      subst hc
      obtain ⟨hfo, hfg⟩ := ho f (List.mem_of_find?_eq_some hfind)
      cases hr : read_old b.old_files_ e.file_id e.value_pos e.value_size with
      | none => simp [hr] at hf
      | some r =>
        rw [hr] at hf
        simp only [Option.map_some', Option.some.injEq] at hf
        simp only []
        rw [hf]
        exact LogFile.read_value_good _ _ _ hfo hfg hl

/-- In a state whose index describes the map `m`, `get` returns the readable
bytes of the bound value, or "Key not found". -/
theorem get_of_agrees (b : Bitcask) (m : Bytes → Option Bytes) (k : Bytes)
    (hu : b.active_usable) (ho : b.old_files_readable) (ha : b.agrees m) :
    (b.get k).1 = match m k with
      | some v => .Ok (readable v)
      | none => .Err "Key not found" := by
  have h := ha k
  cases hm : m k with
  | none =>
    rw [hm] at h
    exact get_none b k h
  | some v =>
    rw [hm] at h
    obtain ⟨e, c, he, hs, hc, hv⟩ := h
    simp only []
    rw [← hv]
    exact get_of_entry b k e c hu ho he hc (by rw [hv, hs])

end Bitcask
end bitcask

namespace bitcask

/-- A slice inside a file is not changed by bytes added at its end. -/
theorem slice_append (c x v : List Byte) (p n : Nat) (h : (c.drop p).take n = v)
    (hn : v.length = n) : ((c ++ x).drop p).take n = v := by
  by_cases h0 : n = 0
  · subst h0
    rw [List.take_zero] at h ⊢
    exact h
  · have hl := congrArg List.length h
    rw [List.length_take, List.length_drop, hn] at hl
    have hp : p ≤ c.length := by omega
    rw [List.drop_append_of_le_length hp,
      List.take_append_of_le_length (by rw [List.length_drop]; omega)]
    exact h

/-- The value bytes of the record just appended. -/
theorem slice_of_appended (c k v : List Byte) (ts : Nat) :
    ((c ++ entry_bytes ts k v).drop (c.length + 16 + k.length)).take (readable v).length =
      readable v := by
  have e : c ++ entry_bytes ts k v =
      (c ++ ((le32 (calculate_crc32 (le32 ts ++ le32 k.length ++ le32 v.length ++ k ++ v)) ++
        le32 ts ++ le32 k.length ++ le32 v.length) ++ k)) ++ v := by
    rw [entry_bytes_eq]; simp only [List.append_assoc]
  rw [e, List.drop_left' (by
    simp only [List.length_append, le32_length]; omega), readable_length, readable]

namespace Bitcask

theorem agrees_some {b : Bitcask} {m : Bytes → Option Bytes} (ha : b.agrees m) {k v : Bytes}
    (hm : m k = some v) :
    ∃ e c, b.index_.get k = some e ∧ e.value_size = (readable v).length ∧
      b.file_content e.file_id = some c ∧
      (c.drop e.value_pos).take e.value_size = readable v := by
  have h := ha k
  rw [hm] at h
  exact h

theorem agrees_none {b : Bitcask} {m : Bytes → Option Bytes} (ha : b.agrees m) {k : Bytes}
    (hm : m k = none) : b.index_.get k = none := by
  have h := ha k
  rw [hm] at h
  exact h

theorem agrees_intro {b : Bitcask} {m : Bytes → Option Bytes}
    (h1 : ∀ k v, m k = some v →
      ∃ e c, b.index_.get k = some e ∧ e.value_size = (readable v).length ∧
        b.file_content e.file_id = some c ∧
        (c.drop e.value_pos).take e.value_size = readable v)
    (h2 : ∀ k, m k = none → b.index_.get k = none) : b.agrees m := by
  intro k
  cases hm : m k with
  | none => exact h2 k hm
  | some v => exact h1 k v hm

theorem open_empty_sound (max_file_size : Nat) :
    (open_empty max_file_size).sound (fun _ => none) := by
  refine ⟨open_empty_usable _, fun _ => ⟨⟨List.Pairwise.nil, ?_, Nat.zero_lt_one⟩, ?_, ?_⟩⟩
  · intro i hi; exact absurd hi (List.not_mem_nil i)
  · intro f hf; exact absurd hf (List.not_mem_nil f)
  · exact agrees_intro (fun k v h => Option.noConfusion h) (fun k _ => rfl)

/-- The entry `put` installs is live when the file id is not the sentinel. -/
theorem not_tombstone_of_id (e : IndexEntry) (h : e.file_id < 2 ^ 32 - 1) :
    e.is_tombstone = false := by
  have : e.file_id ≠ u32_max := by unfold u32_max; omega
  simp [IndexEntry.is_tombstone, this]

theorem file_content_appended (b : Bitcask) (f : LogFile) (hf : f.id = b.active_file_.id)
    (index : HashIndex) (id : Nat) (c x : List Byte) (hfc : f.content = b.active_file_.content ++ x)
    (hc : b.file_content id = some c) :
    ∃ c', ({ b with active_file_ := f, index_ := index } : Bitcask).file_content id = some c' ∧
      ∀ (p n : Nat) (v : List Byte), (c.drop p).take n = v → v.length = n →
        (c'.drop p).take n = v := by
  unfold file_content at hc ⊢
  by_cases hact : b.active_file_.id = id
  · simp only [hact, if_true, Option.some.injEq] at hc
    subst hc
    refine ⟨b.active_file_.content ++ x, ?_, fun p n v h hn => slice_append _ _ _ _ _ h hn⟩
    simp only [hf, hact, if_true, hfc]
  · simp only [hact, if_false] at hc
    refine ⟨c, ?_, fun p n v h _ => h⟩
    simp only [hf, hact, if_false]
    exact hc

theorem agrees_put_appended (b : Bitcask) (m : Bytes → Option Bytes) (k v : Bytes) (now : Nat)
    (hu : b.active_usable) (hid : b.active_file_.id < 2 ^ 32 - 1) (ha : b.agrees m) :
    (b.put_appended k v now).agrees (Function.update m k (some v)) := by
  apply agrees_intro
  · intro k' v' hm
    by_cases hk : k' = k
    · subst hk
      rw [Function.update_same, Option.some.injEq] at hm
      subst hm
      refine ⟨{ file_id := b.active_file_.id,
                value_pos := b.active_file_.current_size_ + 16 + k'.length,
                value_size := v.length % 2 ^ 32, timestamp := now % 2 ^ 32 },
        b.active_file_.content ++ entry_bytes (now % 2 ^ 32) k' v, ?_, ?_, ?_, ?_⟩
      · show (b.index_.put k' _).get k' = _
        rw [HashIndex.get_put_self, not_tombstone_of_id _ hid]
        rfl
      · exact (readable_length v).symm
      · simp [file_content, put_appended, appended, LogFile.id]
      · show List.take (v.length % 2 ^ 32)
          (List.drop (b.active_file_.current_size_ + 16 + k'.length)
            (b.active_file_.content ++ entry_bytes (now % 2 ^ 32) k' v)) = readable v
        rw [hu.2.2.2, ← readable_length]
        exact slice_of_appended _ _ _ _
    · rw [Function.update_noteq hk] at hm
      obtain ⟨e, c, he, hs, hc, hv⟩ := agrees_some ha hm
      obtain ⟨c', hc', hsl⟩ := file_content_appended b
        (appended b.active_file_ k v (now % 2 ^ 32)) rfl
        (b.index_.put k
          { file_id := b.active_file_.id,
            value_pos := b.active_file_.current_size_ + 16 + k.length,
            value_size := v.length % 2 ^ 32, timestamp := now % 2 ^ 32 })
        e.file_id c _ rfl hc
      refine ⟨e, c', ?_, hs, hc', hsl _ _ _ hv (by rw [hs])⟩
      show (b.index_.put k _).get k' = some e
      rw [HashIndex.get_put_ne _ _ hk]; exact he
  · intro k' hm
    by_cases hk : k' = k
    · subst hk
      rw [Function.update_same] at hm
      exact Option.noConfusion hm
    · rw [Function.update_noteq hk] at hm
      show (b.index_.put k _).get k' = none
      rw [HashIndex.get_put_ne _ _ hk]
      exact agrees_none ha hm

theorem agrees_del_appended (b : Bitcask) (m : Bytes → Option Bytes) (k : Bytes) (now : Nat)
    (ha : b.agrees m) : (b.del_appended k now).agrees (Function.update m k none) := by
  apply agrees_intro
  · intro k' v' hm
    by_cases hk : k' = k
    · subst hk
      rw [Function.update_same] at hm
      exact Option.noConfusion hm
    · rw [Function.update_noteq hk] at hm
      obtain ⟨e, c, he, hs, hc, hv⟩ := agrees_some ha hm
      obtain ⟨c', hc', hsl⟩ := file_content_appended b
        (appended b.active_file_ k [] (now % 2 ^ 32)) rfl
        (b.index_.remove k (now % 2 ^ 32)) e.file_id c _ rfl hc
      refine ⟨e, c', ?_, hs, hc', hsl _ _ _ hv (by rw [hs])⟩
      show (b.index_.remove k _).get k' = some e
      rw [HashIndex.get_remove_ne _ _ hk]; exact he
  · intro k' hm
    by_cases hk : k' = k
    · subst hk
      exact HashIndex.get_remove_self _ _ _
    · rw [Function.update_noteq hk] at hm
      show (b.index_.remove k _).get k' = none
      rw [HashIndex.get_remove_ne _ _ hk]
      exact agrees_none ha hm

end Bitcask
end bitcask

namespace bitcask
namespace Bitcask

theorem ids_ordered_rotate (b : Bitcask) (h : b.ids_ordered) (hn : b.next_file_id_ < 2 ^ 32) :
    b.rotate_active_file.ids_ordered := by
  obtain ⟨hp, hlt, ha⟩ := h
  have hmod : b.next_file_id_ % 2 ^ 32 = b.next_file_id_ := Nat.mod_eq_of_lt hn
  have hold : b.rotate_active_file.old_files_.map LogFile.id =
      b.old_files_.map LogFile.id ++ [b.active_file_.id] := by
    simp [rotate_active_file, LogFile.id, LogFile.mk_open]
  have hact : b.rotate_active_file.active_file_.id = b.next_file_id_ := by
    show b.next_file_id_ % 2 ^ 32 = b.next_file_id_
    exact hmod
  refine ⟨?_, ?_, ?_⟩
  · rw [hold, List.pairwise_append]
    refine ⟨hp, List.pairwise_singleton _ _, fun x hx y hy => ?_⟩
    rw [List.mem_singleton] at hy
    subst hy
    exact hlt x hx
  · intro i hi
    rw [hold, List.mem_append, List.mem_singleton] at hi
    rw [hact]
    rcases hi with hi | hi
    · have := hlt i hi; omega
    · omega
  · rw [hact]
    show b.next_file_id_ < b.next_file_id_ + 1
    omega

theorem old_files_readable_rotate (b : Bitcask) (h : b.old_files_readable) :
    b.rotate_active_file.old_files_readable := by
  intro f hf
  have hf' : f ∈ b.old_files_ ++ [LogFile.mk_open b.active_file_.id b.active_file_.content true] :=
    hf
  rw [List.mem_append, List.mem_singleton] at hf'
  rcases hf' with hf' | hf'
  · exact h f hf'
  · subst hf'
    exact ⟨rfl, rfl⟩

theorem file_content_rotate (b : Bitcask) (h : b.ids_ordered) (hn : b.next_file_id_ < 2 ^ 32)
    (id : Nat) (c : List Byte) (hc : b.file_content id = some c) :
    b.rotate_active_file.file_content id = some c := by
  obtain ⟨hp, hlt, ha⟩ := h
  have hmod : b.next_file_id_ % 2 ^ 32 = b.next_file_id_ := Nat.mod_eq_of_lt hn
  have hact : b.rotate_active_file.active_file_.id = b.next_file_id_ := by
    show b.next_file_id_ % 2 ^ 32 = b.next_file_id_
    exact hmod
  have hold : b.rotate_active_file.old_files_ =
      b.old_files_ ++ [LogFile.mk_open b.active_file_.id b.active_file_.content true] := rfl
  unfold file_content at hc ⊢
  rw [hact, hold, List.find?_append]
  by_cases hid : b.active_file_.id = id
  · simp only [hid, if_true, Option.some.injEq] at hc
    have hne : ¬ b.next_file_id_ = id := by omega
    have hnone : b.old_files_.find? (fun f => f.id == id) = none := by
      rw [List.find?_eq_none]
      intro f hf
      have := hlt f.id (List.mem_map_of_mem _ hf)
      simp only [beq_iff_eq]
      omega
    have hid' : (LogFile.mk_open b.active_file_.id b.active_file_.content true).id = id := hid
    simp only [hne, if_false, hnone, Option.none_or, List.find?_cons, hid', beq_self_eq_true,
      Option.map_some', Option.some.injEq]
    exact hc
  · simp only [hid, if_false] at hc
    cases hfind : b.old_files_.find? (fun f => f.id == id) with
    | none => simp [hfind] at hc
    | some f =>
      have hf := List.mem_of_find?_eq_some hfind
      have hfid : f.id = id := by
        have := List.find?_some hfind
        simpa using this
      have := hlt f.id (List.mem_map_of_mem _ hf)
      have hne : ¬ b.next_file_id_ = id := by omega
      rw [hfind] at hc
      simp only [hne, if_false, Option.or_some]
      exact hc

theorem agrees_rotate (b : Bitcask) (m : Bytes → Option Bytes) (h : b.ids_ordered)
    (hn : b.next_file_id_ < 2 ^ 32) (ha : b.agrees m) : b.rotate_active_file.agrees m := by
  apply agrees_intro
  · intro k v hm
    obtain ⟨e, c, he, hs, hc, hv⟩ := agrees_some ha hm
    exact ⟨e, c, he, hs, file_content_rotate b h hn _ _ hc, hv⟩
  · intro k hm
    exact agrees_none ha hm

/-- A step that is not a merge keeps the invariant and moves the map along. -/
theorem step_sound (b : Bitcask) (m : Bytes → Option Bytes) (op : Op) (hop : op ≠ Op.merge)
    (h : b.sound m) : (b.step op).sound (last_put_step m op) := by
  obtain ⟨hu, hcond⟩ := h
  refine ⟨step_usable b op hu, ?_⟩
  cases op with
  | merge => exact absurd rfl hop
  | put k v now =>
    by_cases hk : k = []
    · subst hk
      simp only [step, last_put_step, if_true]
      exact hcond
    · have hke : k.isEmpty = false := by
        cases k with
        | nil => exact absurd rfl hk
        | cons _ _ => rfl
      simp only [step, last_put_step, hk, if_false]
      rw [put_eq b k v now hu hke]
      simp only []
      split
      · intro hn
        have hn' : b.next_file_id_ + 1 ≤ 2 ^ 32 - 1 := hn
        obtain ⟨hi, ho, ha⟩ := hcond (by omega)
        have hi1 : (b.put_appended k v now).ids_ordered := hi
        have ho1 : (b.put_appended k v now).old_files_readable := ho
        have ha1 := agrees_put_appended b m k v now hu (by have := hi.2.2; omega) ha
        have hlt : (b.put_appended k v now).next_file_id_ < 2 ^ 32 := by
          show b.next_file_id_ < 2 ^ 32
          omega
        exact ⟨ids_ordered_rotate _ hi1 hlt, old_files_readable_rotate _ ho1,
          agrees_rotate _ _ hi1 hlt ha1⟩
      · intro hn
        have hn' : b.next_file_id_ ≤ 2 ^ 32 - 1 := hn
        obtain ⟨hi, ho, ha⟩ := hcond hn'
        exact ⟨hi, ho, agrees_put_appended b m k v now hu (by have := hi.2.2; omega) ha⟩
  | del k now =>
    simp only [step, last_put_step]
    by_cases hc : b.index_.contains k = true
    · rw [del_eq b k now hu hc]
      intro hn
      have hn' : b.next_file_id_ ≤ 2 ^ 32 - 1 := hn
      obtain ⟨hi, ho, ha⟩ := hcond hn'
      exact ⟨hi, ho, agrees_del_appended b m k now ha⟩
    · rw [del_absent b k now (by simpa using hc)]
      intro hn
      obtain ⟨hi, ho, ha⟩ := hcond hn
      have hmk : m k = none := by
        cases hm : m k with
        | none => rfl
        | some v =>
          obtain ⟨e, _, he, _⟩ := agrees_some ha hm
          exact absurd (by simp [HashIndex.contains, he]) hc
      have hupd : Function.update m k none = m := by
        rw [← hmk]; exact Function.update_eq_self k m
      rw [hupd]
      exact ⟨hi, ho, ha⟩

theorem run_sound (ops : List Op) (hops : ∀ op ∈ ops, op ≠ Op.merge) :
    ∀ (b : Bitcask) (m : Bytes → Option Bytes), b.sound m →
      (b.run ops).sound (ops.foldl last_put_step m) := by
  induction ops with
  | nil => intro b m h; exact h
  | cons op ops ih =>
    intro b m h
    exact ih (fun o ho => hops o (List.mem_cons_of_mem _ ho)) _ _
      (step_sound b m op (hops op (List.mem_cons_self _ _)) h)

/-- Refinement of the key-value map: after put and delete calls on an empty
database, while the id counter is below `2 ^ 32 - 1`, `get` returns the readable
bytes of the last value put for the key, or "Key not found". -/
theorem get_run (max_file_size : Nat) (ops : List Op) (hops : ∀ op ∈ ops, op ≠ Op.merge)
    (hn : ((open_empty max_file_size).run ops).next_file_id_ ≤ 2 ^ 32 - 1) (k : Bytes) :
    (((open_empty max_file_size).run ops).get k).1 =
      match last_put ops k with
      | some v => .Ok (readable v)
      | none => .Err "Key not found" := by
  obtain ⟨hu, hcond⟩ := run_sound ops hops _ _ (open_empty_sound max_file_size)
  obtain ⟨_, ho, ha⟩ := hcond hn
  exact get_of_agrees _ _ k hu ho ha

end Bitcask
end bitcask

namespace bitcask

/-- C11. Scan undoes append: for records whose timestamp, key length and value
length fit 32 bits, the successive `append` calls on an empty file return the
value offsets of `entry_metas 0 rs` and leave the concatenation of the encodings
in the file, and `read_all_entries` on that file returns `Ok` with exactly one
`EntryMetadata` per record, in append order, carrying the record's key and
timestamp, the length of its value and the offset its `append` returned. -/
theorem scan_undoes_append (fid : Nat) (ro : Bool) (rs : List LogRecord)
    (hfit : ∀ r ∈ rs, r.fits) :
    (append_all (LogFile.mk_open fid [] false) rs).1 =
        (entry_metas 0 rs).map (fun m => Result.Ok m.value_pos) ∧
      (append_all (LogFile.mk_open fid [] false) rs).2.content = encode_all rs ∧
      ((LogFile.mk_open fid (append_all (LogFile.mk_open fid [] false) rs).2.content
          ro).read_all_entries).map Prod.fst = some (.Ok (entry_metas 0 rs)) := by
  obtain ⟨h1, h2⟩ := append_all_good rs (LogFile.mk_open fid [] false) rfl rfl rfl
  have h2' : (append_all (LogFile.mk_open fid [] false) rs).2.content = encode_all rs := by
    rw [h2]; rfl
  refine ⟨h1, h2', ?_⟩
  rw [h2', LogFile.read_all_entries_encode_all fid ro rs hfit]
  rfl

/-- Witness of C11: two records, the second with a three-byte value. -/
theorem scan_undoes_append_witness :
    ((LogFile.mk_open 0 (append_all (LogFile.mk_open 0 [] false)
        [⟨1, [97], [0]⟩, ⟨7, [98], [1, 2, 3]⟩]).2.content true).read_all_entries).map Prod.fst =
      some (.Ok [⟨[97], 17, 1, 1⟩, ⟨[98], 35, 3, 7⟩]) :=
  (scan_undoes_append 0 true [⟨1, [97], [0]⟩, ⟨7, [98], [1, 2, 3]⟩] (by decide)).2.2

/-- C12 at a failing input. The file holds the single record
`(timestamp 1, key "a", value "\0")` with its final byte removed.  The header and
the key are read completely, the read of the value hits the end of the file,
`!file_.good() && !file_.eof()` is false because `eofbit` is set, the buffer keeps
its zero byte, the checksum matches, and the truncated record is reported.  A
database opened on a directory with this file as `cask.0` lists the key and `get`
returns the zero-filled buffer. -/
theorem torn_record_with_zero_tail_is_reported :
    ((LogFile.mk_open 0
        ((encode_all [⟨1, [97], [0]⟩]).take ((encode_all [⟨1, [97], [0]⟩]).length - 1))
        true).read_all_entries).map Prod.fst =
      some (.Ok [⟨[97], 17, 1, 1⟩]) ∧
    ∃ b,
      Bitcask.open_dir [] 64
          { data_files :=
              [(0, (encode_all [⟨1, [97], [0]⟩]).take
                ((encode_all [⟨1, [97], [0]⟩]).length - 1))],
            hint_files := fun _ => none } = some (.Ok b) ∧
        b.list_keys = [[97]] ∧ (b.get [97]).1 = .Ok [0] := by
  refine ⟨by decide, _, rfl, ?_, ?_⟩ <;> decide

/-- C13 does not hold for a bit of `key_size`. The file holds the single record
`(timestamp 1, key [99], value [185, 34, 91, 0, 0, 0])`; inverting bit 0 of byte 8
turns `key_size` from 1 into 0.  The scanner then takes the six bytes behind the
header as the value, their checksum equals the stored one, and it reports a
record with an empty key instead of no record. -/
theorem flipped_key_size_passes_checksum :
    ((LogFile.mk_open 0 (flip_bit (encode_all [⟨1, [99], [185, 34, 91, 0, 0, 0]⟩]) 64)
        true).read_all_entries).map Prod.fst =
      some (.Ok [⟨[], 16, 6, 1⟩]) := by
  decide

/-- C13, amended. Inverting one bit inside the bytes of record `r` of a file of
well-formed records never affects the records before `r`: the scan returns their
metadata first.  When the bit lies in the crc or timestamp field, in the key or
in the value (byte offset below 8 or from 16 on), the scan returns exactly the
metadata of the records before `r`. -/
theorem bit_flip_detection (fid : Nat) (ro : Bool) (pre post : List LogRecord) (r : LogRecord)
    (p : Nat) (hpre : ∀ x ∈ pre, x.fits) (hr : r.fits) (hp : p < 8 * r.encode.length) :
    ∃ es f1,
      (LogFile.mk_open fid
          (flip_bit (encode_all (pre ++ r :: post)) (8 * (encode_all pre).length + p))
          ro).read_all_entries = some (.Ok (entry_metas 0 pre ++ es), f1) ∧
        ((p / 8 < 8 ∨ 16 ≤ p / 8) → es = []) := by
  rw [flip_bit_encode_all pre post r p hp]
  by_cases hfield : p / 8 < 8 ∨ 16 ≤ p / 8
  · obtain ⟨f1, h⟩ := LogFile.read_all_entries_flipped_record fid ro pre r (encode_all post) p
      hpre hr hp hfield
    exact ⟨[], f1, by rw [h, List.append_nil], fun _ => rfl⟩
  · obtain ⟨es, f1, h⟩ := LogFile.read_all_entries_after_records fid ro pre
      (flip_bit r.encode p ++ encode_all post) hpre
    exact ⟨es, f1, h, fun hf => absurd hf hfield⟩

/-- Witness of C13, amended: bit 3 of the first value byte of the second of three
records. -/
theorem bit_flip_detection_witness :
    ∃ es f1,
      (LogFile.mk_open 0
          (flip_bit (encode_all ([⟨1, [97], [0]⟩] ++ ⟨7, [98], [1, 2, 3]⟩ :: [⟨9, [99], []⟩]))
            (8 * (encode_all [⟨1, [97], [0]⟩]).length + 139))
          true).read_all_entries = some (.Ok (entry_metas 0 [⟨1, [97], [0]⟩] ++ es), f1) ∧
        ((139 / 8 < 8 ∨ 16 ≤ 139 / 8) → es = []) :=
  bit_flip_detection 0 true [⟨1, [97], [0]⟩] [⟨9, [99], []⟩] ⟨7, [98], [1, 2, 3]⟩ 139
    (by decide) (by decide) (by decide)

/-- C15. Record layout: for a timestamp, key length and value length below
`2 ^ 32`, the bytes `append` adds to a file have length `16 + |key| + |value|`;
bytes 4..8, 8..12 and 12..16 are the little-endian encodings of timestamp, `|key|`
and `|value|`; bytes 16..16+|key| are the key and the rest is the value; bytes 0..4
are the little-endian encoding of `calculate_crc32` of bytes 4..end. -/
theorem record_layout (ts : Nat) (key value : Bytes) (hts : ts < 2 ^ 32)
    (hk : key.length < 2 ^ 32) (hv : value.length < 2 ^ 32) :
    (∀ f : LogFile, f.read_only_ = false → f.is_open = true → f.good = true →
        (f.append key value ts).2.content = f.content ++ entry_bytes ts key value) ∧
      (entry_bytes ts key value).length = 16 + key.length + value.length ∧
      ((entry_bytes ts key value).drop 4).take 4 = le32 ts ∧ le_value (le32 ts) = ts ∧
      ((entry_bytes ts key value).drop 8).take 4 = le32 key.length ∧
      le_value (le32 key.length) = key.length ∧
      ((entry_bytes ts key value).drop 12).take 4 = le32 value.length ∧
      le_value (le32 value.length) = value.length ∧
      ((entry_bytes ts key value).drop 16).take key.length = key ∧
      (entry_bytes ts key value).drop (16 + key.length) = value ∧
      (entry_bytes ts key value).take 4 =
        le32 (calculate_crc32 ((entry_bytes ts key value).drop 4)) ∧
      (∀ n, le32 n =
        [byte_of n, byte_of (n / 2 ^ 8), byte_of (n / 2 ^ 16), byte_of (n / 2 ^ 24)]) := by
  have hs := header_slices
    (le32 (calculate_crc32 (le32 ts ++ le32 key.length ++ le32 value.length ++ key ++ value)))
    (le32 ts) (le32 key.length) (le32 value.length)
    (le32_length _) (le32_length _) (le32_length _) (le32_length _)
  obtain ⟨h16, _, _, h1, h2, h3⟩ := hs
  have htd := encode_take_drop ⟨ts, key, value⟩
  have hdrop : ∀ n, n ≤ 16 → ((entry_bytes ts key value).drop n).take 4 =
      ((le32 (calculate_crc32 (le32 ts ++ le32 key.length ++ le32 value.length ++ key ++
        value)) ++ le32 ts ++ le32 key.length ++ le32 value.length).drop n ++
          (key ++ value)).take 4 := by
    intro n hn
    rw [entry_bytes_eq, List.drop_append_of_le_length (by rw [h16]; exact hn)]
  refine ⟨fun f hw ho hg => by rw [LogFile.append_good f key value ts hw ho hg],
    entry_bytes_length ts key value, ?_, le_value_le32_of_lt hts, ?_, le_value_le32_of_lt hk,
    ?_, le_value_le32_of_lt hv, ?_, ?_, htd.1,
    fun n => by simp [le32, le_bytes, Nat.div_div_eq_div_mul]⟩
  · rw [hdrop 4 (by omega),
      List.take_append_of_le_length (by rw [List.length_drop, h16]; omega), h1]
  · rw [hdrop 8 (by omega),
      List.take_append_of_le_length (by rw [List.length_drop, h16]; omega), h2]
  · rw [hdrop 12 (by omega),
      List.take_append_of_le_length (by rw [List.length_drop, h16]), h3]
  · rw [entry_bytes_eq, List.drop_left' h16, List.take_left]
  · have e : entry_bytes ts key value =
        ((le32 (calculate_crc32 (le32 ts ++ le32 key.length ++ le32 value.length ++ key ++
          value)) ++ le32 ts ++ le32 key.length ++ le32 value.length) ++ key) ++ value := by
      rw [entry_bytes_eq, ← List.append_assoc]
    rw [e]
    exact List.drop_left' (by rw [List.length_append, h16])

/-- Witness of C15: timestamp 1, key "a", value "\0". -/
theorem record_layout_witness :
    (entry_bytes 1 [97] [0]).length = 16 + [(97 : Byte)].length + [(0 : Byte)].length ∧
      (entry_bytes 1 [97] [0]).take 4 = le32 (calculate_crc32 ((entry_bytes 1 [97] [0]).drop 4)) :=
  ⟨(record_layout 1 [97] [0] (by decide) (by decide) (by decide)).2.1,
    (record_layout 1 [97] [0] (by decide) (by decide) (by decide)).2.2.2.2.2.2.2.2.2.2.1⟩

/-- C16 at a failing input. A writable handle is opened on an empty file and
`read_value(0, 1)` is called on it: the read runs past the end of the file, sets
`eofbit` and `failbit`, and returns `Ok`.  The following `append("k", "v", 0)`
returns `Ok(17)` and `size()` becomes 18, but `seekp` and `write` do nothing on
the failed stream: the file stays empty and `read_value(17, 1)` fails. -/
theorem append_on_failed_stream_writes_nothing :
    ((LogFile.mk_open 0 [] false).read_value 0 1).1 = .Ok [0] ∧
      ((LogFile.mk_open 0 [] false).read_value 0 1).2.is_open = true ∧
      ((LogFile.mk_open 0 [] false).read_value 0 1).2.read_only_ = false ∧
      ((LogFile.mk_open 0 [] false).read_value 0 1).2.size = 0 ∧
      ((LogFile.mk_open 0 [] false).read_value 0 1).2.content = [] ∧
      ((((LogFile.mk_open 0 [] false).read_value 0 1).2.append [107] [118] 0).1 = .Ok 17) ∧
      (((LogFile.mk_open 0 [] false).read_value 0 1).2.append [107] [118] 0).2.size = 18 ∧
      (((LogFile.mk_open 0 [] false).read_value 0 1).2.append [107] [118] 0).2.content = [] ∧
      ((((LogFile.mk_open 0 [] false).read_value 0 1).2.append [107] [118] 0).2.read_value
        17 1).1 = .Err "Failed to read value from file" := by
  decide

end bitcask

namespace bitcask

/-- C18 does not hold with merge. With `max_file_size = 1` a put rotates (file 0
becomes immutable, file 1 active, `next_file_id_ = 2`); the merge then writes the
live key of file 0 into the new file 2 and attaches it as the only immutable
file, while the active file keeps id 1. -/
theorem merged_file_id_exceeds_active_id :
    ((Bitcask.open_empty 1).run [.put [107] [118] 5, .merge]).active_file_.id = 1 ∧
      ((Bitcask.open_empty 1).run [.put [107] [118] 5, .merge]).old_files_.map LogFile.id = [2] ∧
      ¬ ∀ f ∈ ((Bitcask.open_empty 1).run [.put [107] [118] 5, .merge]).old_files_,
          f.id < ((Bitcask.open_empty 1).run [.put [107] [118] 5, .merge]).active_file_.id := by
  decide

/-- C18, amended. In every state reached from opening an empty directory by put
and delete operations (no merge), while fewer than `2 ^ 32` file ids have been
allocated, the id of the active file is strictly greater than the id of every
immutable file. -/
theorem active_id_exceeds_immutable_ids (max_file_size : Nat) (ops : List Op)
    (hops : ∀ op ∈ ops, op ≠ Op.merge)
    (hids : ((Bitcask.open_empty max_file_size).run ops).next_file_id_ ≤ 2 ^ 32) :
    ∀ f ∈ ((Bitcask.open_empty max_file_size).run ops).old_files_,
      f.id < ((Bitcask.open_empty max_file_size).run ops).active_file_.id :=
  (Bitcask.run_keeps_order ops hops (Bitcask.open_empty max_file_size)
    (fun _ => ⟨Nat.zero_lt_one, fun f hf => absurd hf (List.not_mem_nil f)⟩) hids).2

/-- Witness of C18, amended: after two puts that both rotate and a delete, the
immutable file 0 lies below the active file. -/
theorem active_id_exceeds_immutable_ids_witness :
    (LogFile.mk_open 0 (entry_bytes 5 [107] [118]) true).id <
      ((Bitcask.open_empty 1).run
        [.put [107] [118] 5, .put [108] [119] 6, .del [107] 7]).active_file_.id :=
  active_id_exceeds_immutable_ids 1 [.put [107] [118] 5, .put [108] [119] 6, .del [107] 7]
    (by decide) (by decide) (LogFile.mk_open 0 (entry_bytes 5 [107] [118]) true) (by decide)

/-- C19 at a failing input. With `max_file_size = 1`: `put("k", "v")` rotates,
`merge()` writes `cask.2` and `cask.2.hint`, and the active file is `cask.1`.
After close and reopen the largest id, 2, is the active file although
`cask.2.hint` exists.  A following `put("l", "w")` succeeds and is readable, but
after the next reopen the hint of file 2 is ingested instead of scanning the
file, and `get("l")` fails with "Key not found". -/
theorem hinted_file_becomes_active_after_reopen :
    ∃ b b2,
      ((Bitcask.open_empty 1).run [.put [107] [118] 5, .merge]).reopen [] = some (.Ok b) ∧
        b.active_file_.id = 2 ∧ b.active_file_.read_only_ = false ∧
        (b.hint_files 2).isSome = true ∧
        (b.put [108] [119] 6).1 = .Ok () ∧
        ((b.put [108] [119] 6).2.get [108]).1 = .Ok [119] ∧
        (b.put [108] [119] 6).2.reopen [] = some (.Ok b2) ∧
        (b2.get [108]).1 = .Err "Key not found" := by
  refine ⟨_, _, rfl, ?_, ?_, ?_, ?_, ?_, rfl, ?_⟩ <;> decide

/-- C20. Hint round trip: for hint entries whose key length and fields fit their
types, `read_hint_file(f)` on the file written by `write_hint_file(f, hints)`
returns `Ok(true)` and leaves the index as after
`index.put(key, (f, value_pos, value_size, timestamp))` for each hint in order;
the file is the concatenation of the entries, each of `20 + |key|` bytes laid out
as timestamp (u32), key size (u32), value size (u32), value offset (u64), key. -/
theorem hint_round_trip (uninit : List Byte) (b : Bitcask) (f : Nat) (hints : List HintEntry)
    (hfit : ∀ h ∈ hints, h.fits) :
    (b.write_hint_file f hints).read_hint_file uninit f =
        some (.Ok true,
          { b.write_hint_file f hints with index_ := put_hints f b.index_ hints }) ∧
      (b.write_hint_file f hints).hint_files f = some (write_hint_file_bytes hints) ∧
      ∀ h ∈ hints,
        (hint_bytes h).length = 20 + h.key.length ∧
          (hint_bytes h).take 4 = le32 h.entry.timestamp ∧
          ((hint_bytes h).drop 4).take 4 = le32 h.key.length ∧
          ((hint_bytes h).drop 8).take 4 = le32 h.entry.value_size ∧
          ((hint_bytes h).drop 12).take 8 = le64 h.entry.value_pos ∧
          (hint_bytes h).drop 20 = h.key ∧
          le_value (le32 h.entry.timestamp) = h.entry.timestamp ∧
          le_value (le32 h.key.length) = h.key.length ∧
          le_value (le32 h.entry.value_size) = h.entry.value_size ∧
          le_value (le64 h.entry.value_pos) = h.entry.value_pos := by
  have hf : (b.write_hint_file f hints).hint_files f = some (write_hint_file_bytes hints) := by
    simp [Bitcask.write_hint_file]
  refine ⟨?_, hf, fun h hm => ?_⟩
  · rw [Bitcask.read_hint_file, hf, read_hint_file_written uninit f _ hints hfit]
    rfl
  · obtain ⟨hk, ht, hv, hp⟩ := hfit h hm
    have l4 : ∀ n, (le32 n).length = 4 := le32_length
    have l8 : ∀ n, (le64 n).length = 8 := le64_length
    refine ⟨hint_bytes_length h, ?_, ?_, ?_, ?_, ?_, le_value_le32_of_lt ht,
      le_value_le32_of_lt hk, le_value_le32_of_lt hv, le_value_le64_of_lt hp⟩ <;>
      simp [hint_bytes, List.take_append_eq_append_take, List.drop_append_eq_append_drop, l4,
        l8, List.drop_eq_nil_of_le, List.take_of_length_le]

/-- Witness of C20: two hints read back into an empty index. -/
theorem hint_round_trip_witness :
    ((Bitcask.open_empty 64).write_hint_file 3
        [⟨[97], ⟨3, 17, 1, 5⟩⟩, ⟨[98, 99], ⟨3, 36, 0, 6⟩⟩]).read_hint_file [] 3 =
      some (.Ok true,
        { (Bitcask.open_empty 64).write_hint_file 3
            [⟨[97], ⟨3, 17, 1, 5⟩⟩, ⟨[98, 99], ⟨3, 36, 0, 6⟩⟩] with
          index_ := put_hints 3 (Bitcask.open_empty 64).index_
            [⟨[97], ⟨3, 17, 1, 5⟩⟩, ⟨[98, 99], ⟨3, 36, 0, 6⟩⟩] }) :=
  (hint_round_trip [] (Bitcask.open_empty 64) 3
    [⟨[97], ⟨3, 17, 1, 5⟩⟩, ⟨[98, 99], ⟨3, 36, 0, 6⟩⟩] (by decide)).1

end bitcask

namespace bitcask

/-- C9. `put` rejects the empty key atomically: for every value and every
database state, `put("", v)` returns an error and leaves the whole state as it
was: nothing is appended to the active file, and the index, the immutable files
and `next_file_id_` are unchanged (so there is no rotation). -/
theorem put_rejects_empty_key (b : Bitcask) (v : Bytes) (now : Nat) :
    b.put [] v now = (.Err "Key cannot be empty", b) ∧
      (b.put [] v now).2.active_file_ = b.active_file_ ∧
      (b.put [] v now).2.index_ = b.index_ ∧
      (b.put [] v now).2.old_files_ = b.old_files_ ∧
      (b.put [] v now).2.next_file_id_ = b.next_file_id_ :=
  ⟨rfl, rfl, rfl, rfl, rfl⟩

/-- C4 at a failing input (scenario 6). With `max_file_size = 64`:
`put("k1", 40 x)`, `put("k2", 40 x)` (rotates), `delete("k1")`, `merge()`.  Before
the merge `get("k2")` returns the 40 bytes.  The merge copies `k2` into `cask.2`,
deletes `cask.0` and attaches `cask.2`, but the index entry of `k2` still names
file 0: `get("k2")` fails with "File not found for key". -/
theorem merge_leaves_index_on_deleted_file :
    ((((Bitcask.open_empty 64).run
        [.put [107, 49] (List.replicate 40 120) 1, .put [107, 50] (List.replicate 40 120) 2,
          .del [107, 49] 3]).get [107, 50]).1 = .Ok (List.replicate 40 120)) ∧
      ((Bitcask.open_empty 64).run
        [.put [107, 49] (List.replicate 40 120) 1, .put [107, 50] (List.replicate 40 120) 2,
          .del [107, 49] 3]).merge.1 = .Ok () ∧
      (((Bitcask.open_empty 64).run
        [.put [107, 49] (List.replicate 40 120) 1, .put [107, 50] (List.replicate 40 120) 2,
          .del [107, 49] 3, .merge]).old_files_.map LogFile.id = [2]) ∧
      (((Bitcask.open_empty 64).run
        [.put [107, 49] (List.replicate 40 120) 1, .put [107, 50] (List.replicate 40 120) 2,
          .del [107, 49] 3, .merge]).index_.get [107, 50]).map (fun e => e.file_id) =
        some 0 ∧
      (((Bitcask.open_empty 64).run
        [.put [107, 49] (List.replicate 40 120) 1, .put [107, 50] (List.replicate 40 120) 2,
          .del [107, 49] 3, .merge]).get [107, 50]).1 = .Err "File not found for key" := by
  decide

/-- C6 at a failing input (scenario 3). `put("a","1")`, `delete("a")`: `get("a")`
fails with "Key not found".  After close and reopen the record the delete wrote
(empty value) is replayed as a put: `"a"` is listed and `get("a")` returns the
empty value. -/
theorem deleted_key_returns_after_reopen :
    ∃ b,
      ((((Bitcask.open_empty 64).run [.put [97] [49] 1]).del [97] 2).1 = .Ok ()) ∧
        (((Bitcask.open_empty 64).run [.put [97] [49] 1, .del [97] 2]).get [97]).1 =
          .Err "Key not found" ∧
        ((Bitcask.open_empty 64).run [.put [97] [49] 1, .del [97] 2]).reopen [] =
          some (.Ok b) ∧
        (b.get [97]).1 = .Ok [] ∧ b.list_keys = [[97]] := by
  refine ⟨_, ?_, ?_, rfl, ?_, ?_⟩ <;> decide

/-- C7 at a failing input. With `max_file_size = 20`: `put("a","1")`,
`put("b","2")` (rotates), `merge()` (writes `cask.2` and its hint),
`put("a","3")` (appended to the active file `cask.1`): `get("a")` returns "3".
After close and reopen `cask.1` is replayed first and the hint of `cask.2`
afterwards, so the merged copy overwrites the later append: `get("a")` returns
"1". -/
theorem merged_copy_overrides_later_put_after_reopen :
    ∃ b,
      (((Bitcask.open_empty 20).run
          [.put [97] [49] 1, .put [98] [50] 2, .merge, .put [97] [51] 3]).get [97]).1 =
          .Ok [51] ∧
        ((Bitcask.open_empty 20).run
          [.put [97] [49] 1, .put [98] [50] 2, .merge, .put [97] [51] 3]).reopen [] =
          some (.Ok b) ∧
        (b.get [97]).1 = .Ok [49] := by
  refine ⟨_, ?_, rfl, ?_⟩ <;> decide

/-- C8 at a failing input. With `max_file_size = 20`: `put("a","1")`,
`put("b","2")` (rotates), `merge()`.  A reopen after this one merge recovers both
keys from `cask.2.hint`.  A second `merge()` finds no file for the stale index
entries, writes an empty `cask.3`, and deletes `cask.2`; a reopen after the two
merges recovers no key. -/
theorem second_merge_loses_the_merged_data :
    ∃ b1 b2,
      ((Bitcask.open_empty 20).run [.put [97] [49] 1, .put [98] [50] 2, .merge]).reopen [] =
          some (.Ok b1) ∧
        (b1.get [97]).1 = .Ok [49] ∧ b1.list_keys = [[97], [98]] ∧
        ((Bitcask.open_empty 20).run
          [.put [97] [49] 1, .put [98] [50] 2, .merge, .merge]).old_files_.map
            (fun f => (f.id, f.content)) = [(3, [])] ∧
        ((Bitcask.open_empty 20).run
          [.put [97] [49] 1, .put [98] [50] 2, .merge, .merge]).reopen [] = some (.Ok b2) ∧
        (b2.get [97]).1 = .Err "Key not found" ∧ b2.list_keys = [] := by
  refine ⟨_, _, rfl, ?_, ?_, ?_, rfl, ?_, ?_⟩ <;> decide

end bitcask

namespace bitcask

/-- Delete on a state whose active file is usable (writable, open, stream good,
`size()` equal to the file length; every state reached from opening an empty
directory by put, delete and merge is such a state): a key is absent for `get`
exactly when the map has no entry for it or a tombstone; for such a key `del`
returns "Key not found" and leaves the whole state unchanged; for a live key `del`
returns `Ok`, appends the encoding of exactly one record with that key, the empty
value and the timestamp of the call to the active file, and replaces the index
entry by the tombstone with that same timestamp, after which `get` finds no
entry. -/
theorem del_on_usable_state (b : Bitcask) (hu : b.active_usable) (k : Bytes) (now : Nat) :
    (b.index_.get k = none ↔
        (b.index_.index_.lookup k = none ∨
          ∃ e, b.index_.index_.lookup k = some e ∧ e.is_tombstone = true)) ∧
      (b.index_.get k = none → b.del k now = (.Err "Key not found", b)) ∧
      (∀ e, b.index_.get k = some e →
        (b.del k now).1 = .Ok () ∧
          (b.del k now).2.active_file_.content =
            b.active_file_.content ++ entry_bytes (now % 2 ^ 32) k [] ∧
          (b.del k now).2.active_file_.size =
            b.active_file_.size + (16 + k.length) ∧
          (b.del k now).2.index_ = b.index_.remove k (now % 2 ^ 32) ∧
          (∃ t, (b.del k now).2.index_.index_.lookup k = some t ∧ t.is_tombstone = true ∧
            t.timestamp = now % 2 ^ 32) ∧
          (b.del k now).2.index_.get k = none ∧
          (b.del k now).2.old_files_ = b.old_files_ ∧
          (b.del k now).2.next_file_id_ = b.next_file_id_) := by
  refine ⟨?_, ?_, ?_⟩
  · unfold HashIndex.get
    cases hl : b.index_.index_.lookup k with
    | none => simp
    | some e =>
      by_cases ht : e.is_tombstone = true
      · simp [ht]
      · simp [ht]
  · intro hn
    exact Bitcask.del_absent b k now (by simp [HashIndex.contains, hn])
  · intro e he
    rw [Bitcask.del_eq b k now hu (by simp [HashIndex.contains, he])]
    refine ⟨rfl, rfl, ?_, rfl, ?_, ?_, rfl, rfl⟩
    · simp only [Bitcask.del_appended, Bitcask.appended, LogFile.size, entry_bytes_length,
        List.length_nil, Nat.add_zero]
    · exact ⟨IndexEntry.create_tombstone (now % 2 ^ 32),
        by simp [Bitcask.del_appended, HashIndex.remove, AList.lookup_insert],
        HashIndex.is_tombstone_create _, rfl⟩
    · exact HashIndex.get_remove_self _ _ _

/-- C10 at a failing input. The directory holds `cask.0` with the single record
`(timestamp 1, key "a", value "\0")` cut by its last byte (the torn file of C12).
After open, `get("a")` returns `Ok`; its read runs past the end of the file and
leaves `eofbit` and `failbit` set on the stream of the active file.  The key is
live, and `del("a")` returns `Ok` and installs the tombstone, but the append of
its record does nothing on the failed stream: the file has the same 17 bytes
before and after, while `size()` counts 34. -/
theorem del_on_failed_stream_appends_nothing :
    ∃ b,
      Bitcask.open_dir [] 64
          { data_files :=
              [(0, (encode_all [⟨1, [97], [0]⟩]).take
                ((encode_all [⟨1, [97], [0]⟩]).length - 1))],
            hint_files := fun _ => none } = some (.Ok b) ∧
        (b.get [97]).1 = .Ok [0] ∧
        (b.get [97]).2.index_.contains [97] = true ∧
        (b.get [97]).2.active_file_.content.length = 17 ∧
        (b.get [97]).2.active_file_.size = 17 ∧
        (((b.get [97]).2.del [97] 2).1 = .Ok ()) ∧
        ((b.get [97]).2.del [97] 2).2.active_file_.content =
          (b.get [97]).2.active_file_.content ∧
        ((b.get [97]).2.del [97] 2).2.active_file_.size = 34 ∧
        ((b.get [97]).2.del [97] 2).2.index_.get [97] = none := by
  refine ⟨_, rfl, ?_, ?_, ?_, ?_, ?_, ?_, ?_, ?_⟩ <;> decide

end bitcask

namespace bitcask

namespace Bitcask

theorem reach_sound (max_file_size : Nat) (ops : List Op) (hops : ∀ op ∈ ops, op ≠ Op.merge) :
    ((open_empty max_file_size).run ops).sound (last_put ops) :=
  run_sound ops hops _ _ (open_empty_sound max_file_size)

theorem is_empty_false {k : Bytes} (hk : k ≠ []) : k.isEmpty = false := by
  cases k with
  | nil => exact absurd rfl hk
  | cons _ _ => rfl

/-- `put` with a non-empty key on a sound state: it succeeds, the state stays
sound for the updated map, and `get` returns the readable bytes of the value. -/
theorem put_then_get (b : Bitcask) (m : Bytes → Option Bytes) (k v : Bytes) (now : Nat)
    (hs : b.sound m) (hk : k ≠ [])
    (hn : (b.put k v now).2.next_file_id_ ≤ 2 ^ 32 - 1) :
    (b.put k v now).1 = .Ok () ∧ ((b.put k v now).2.get k).1 = .Ok (readable v) ∧
      (b.put k v now).2.agrees (Function.update m k (some v)) := by
  have hstep := step_sound b m (.put k v now) (fun h => Op.noConfusion h) hs
  simp only [step, last_put_step, hk, if_false] at hstep
  obtain ⟨hu', hcond'⟩ := hstep
  obtain ⟨_, ho', ha'⟩ := hcond' hn
  refine ⟨?_, ?_, ha'⟩
  · rw [put_eq b k v now hs.1 (is_empty_false hk)]
  · have := get_of_agrees _ _ k hu' ho' ha'
    rw [Function.update_same] at this
    exact this

end Bitcask

/-- C1 does not hold for a value of `2 ^ 32` bytes. On an empty database
`put("k", v)` with such a value succeeds; the index entry keeps the length as a
`uint32_t`, which is 0, and `get("k")` returns the empty value. -/
theorem get_returns_truncated_value :
    ((Bitcask.open_empty 64).put [107] (List.replicate (2 ^ 32) 0) 0).1 = .Ok () ∧
      (((Bitcask.open_empty 64).put [107] (List.replicate (2 ^ 32) 0) 0).2.get [107]).1 =
        .Ok [] ∧
      (List.replicate (2 ^ 32) (0 : Byte)) ≠ [] := by
  have hn : ((Bitcask.open_empty 64).put [107] (List.replicate (2 ^ 32) 0) 0).2.next_file_id_ ≤
      2 ^ 32 - 1 := by
    rcases Bitcask.put_ids (Bitcask.open_empty 64) [107] (List.replicate (2 ^ 32) 0) 0 with
      ⟨_, _, h⟩ | ⟨_, _, h⟩
    · rw [h]; exact Nat.le_of_lt_succ (by decide)
    · rw [h]; exact Nat.le_of_lt_succ (by decide)
  obtain ⟨h1, h2, _⟩ := Bitcask.put_then_get (Bitcask.open_empty 64) (fun _ => none) [107]
    (List.replicate (2 ^ 32) 0) 0 (Bitcask.open_empty_sound 64) (by decide) hn
  refine ⟨h1, ?_, ?_⟩
  · rw [h2, readable, List.length_replicate, Nat.mod_self, List.take_zero]
  · intro h
    have := congrArg List.length h
    rw [List.length_replicate] at this
    exact absurd this (by decide)

/-- C1, amended. Round trip and last-write-wins: in every state reached from
opening an empty directory by put and delete operations (any `max_file_size`),
for every non-empty key and every value of fewer than `2 ^ 32` bytes, while the
file id counter stays below `2 ^ 32 - 1`, `put(k, v)` succeeds and the `get(k)`
that follows returns `Ok` with exactly `v`. -/
theorem put_get_round_trip (max_file_size : Nat) (ops : List Op)
    (hops : ∀ op ∈ ops, op ≠ Op.merge) (k v : Bytes) (now : Nat) (hk : k ≠ [])
    (hv : v.length < 2 ^ 32)
    (hn : (((Bitcask.open_empty max_file_size).run ops).put k v now).2.next_file_id_ ≤
      2 ^ 32 - 1) :
    (((Bitcask.open_empty max_file_size).run ops).put k v now).1 = .Ok () ∧
      ((((Bitcask.open_empty max_file_size).run ops).put k v now).2.get k).1 = .Ok v := by
  obtain ⟨h1, h2, _⟩ := Bitcask.put_then_get _ _ k v now
    (Bitcask.reach_sound max_file_size ops hops) hk hn
  rw [readable_of_lt v hv] at h2
  exact ⟨h1, h2⟩

/-- Witness of C1, amended: the key is put a second time after a rotation and a
delete. -/
theorem put_get_round_trip_witness :
    ((((Bitcask.open_empty 20).run
        [.put [97] [49] 1, .put [98] [50] 2, .del [97] 3]).put [97] [51, 52] 4).2.get [97]).1 =
      .Ok [51, 52] :=
  (put_get_round_trip 20 [.put [97] [49] 1, .put [98] [50] 2, .del [97] 3] (by decide)
    [97] [51, 52] 4 (by decide) (by decide) (by decide)).2

end bitcask

namespace bitcask

namespace Bitcask

/-- `get` on the state after a put or delete of another key, on a sound state. -/
theorem get_after_step_other (b : Bitcask) (m : Bytes → Option Bytes) (op : Op)
    (hop : op ≠ Op.merge) (hs : b.sound m) (hn : (b.step op).next_file_id_ ≤ 2 ^ 32 - 1)
    (hb : b.next_file_id_ ≤ 2 ^ 32 - 1) (k' : Bytes) (hm : last_put_step m op k' = m k') :
    ((b.step op).get k').1 = (b.get k').1 := by
  obtain ⟨hu', hcond'⟩ := step_sound b m op hop hs
  obtain ⟨_, ho', ha'⟩ := hcond' hn
  obtain ⟨hu, hcond⟩ := hs
  obtain ⟨_, ho, ha⟩ := hcond hb
  rw [get_of_agrees _ _ k' hu' ho' ha', get_of_agrees _ _ k' hu ho ha, hm]

theorem put_next_ge (b : Bitcask) (k v : Bytes) (now : Nat) :
    b.next_file_id_ ≤ (b.put k v now).2.next_file_id_ := by
  rcases put_ids b k v now with ⟨_, _, h⟩ | ⟨_, _, h⟩ <;> rw [h] <;> omega

end Bitcask

/-- C2 does not hold for a value of `2 ^ 32` bytes. After `put("k", v)` with such
a value on an empty database the index entry of `"k"` is live and names an
attached file, but its `value_size` is 0: the bytes at the entry are the empty
sequence, not the value of the last put. -/
theorem index_entry_of_long_value_is_short :
    ∃ e c,
      ((Bitcask.open_empty 64).put [107] (List.replicate (2 ^ 32) 0) 0).2.index_.get [107] =
          some e ∧
        ((Bitcask.open_empty 64).put [107] (List.replicate (2 ^ 32) 0) 0).2.file_content
          e.file_id = some c ∧
        (c.drop e.value_pos).take e.value_size = [] ∧
        last_put [.put [107] (List.replicate (2 ^ 32) 0) 0] [107] =
          some (List.replicate (2 ^ 32) 0) ∧
        (List.replicate (2 ^ 32) (0 : Byte)).length = 2 ^ 32 := by
  have hn : ((Bitcask.open_empty 64).put [107] (List.replicate (2 ^ 32) 0) 0).2.next_file_id_ ≤
      2 ^ 32 - 1 := by
    rcases Bitcask.put_ids (Bitcask.open_empty 64) [107] (List.replicate (2 ^ 32) 0) 0 with
      ⟨_, _, h⟩ | ⟨_, _, h⟩
    · rw [h]; exact Nat.le_of_lt_succ (by decide)
    · rw [h]; exact Nat.le_of_lt_succ (by decide)
  obtain ⟨_, _, ha⟩ := Bitcask.put_then_get (Bitcask.open_empty 64) (fun _ => none) [107]
    (List.replicate (2 ^ 32) 0) 0 (Bitcask.open_empty_sound 64) (by decide) hn
  obtain ⟨e, c, he, hs, hc, hv⟩ := Bitcask.agrees_some ha
    (Function.update_same [107] (some (List.replicate (2 ^ 32) (0 : Byte))) (fun _ => none))
  refine ⟨e, c, he, hc, ?_, ?_, List.length_replicate _ _⟩
  · rw [hv, readable, List.length_replicate, Nat.mod_self, List.take_zero]
  · show Function.update (fun _ => none) [107] (some (List.replicate (2 ^ 32) (0 : Byte)))
      [107] = _
    exact Function.update_same _ _ _

/-- C2, amended. Every prior key stays readable: in every state `b` reached from
opening an empty directory by put and delete operations, while the file id
counter stays below `2 ^ 32 - 1`, a put or delete of the key `k` leaves the result
of `get(k')` unchanged for every other key `k'`, also when the put rotates; and
every live index entry names an attached file whose bytes at the entry are the
first `|v| mod 2 ^ 32` bytes of the value `v` of the last put of that key, which
`get` returns: the value itself when it has fewer than `2 ^ 32` bytes. -/
theorem prior_keys_stay_readable (max_file_size : Nat) (ops : List Op)
    (hops : ∀ op ∈ ops, op ≠ Op.merge) (b : Bitcask)
    (hb : b = (Bitcask.open_empty max_file_size).run ops) :
    (∀ k v now k', k' ≠ k → (b.put k v now).2.next_file_id_ ≤ 2 ^ 32 - 1 →
        ((b.put k v now).2.get k').1 = (b.get k').1) ∧
      (∀ k now k', k' ≠ k → b.next_file_id_ ≤ 2 ^ 32 - 1 →
        ((b.del k now).2.get k').1 = (b.get k').1) ∧
      (b.next_file_id_ ≤ 2 ^ 32 - 1 →
        ∀ k e, b.index_.get k = some e →
          ∃ v c, last_put ops k = some v ∧ b.file_content e.file_id = some c ∧
            (c.drop e.value_pos).take e.value_size = v.take (v.length % 2 ^ 32) ∧
            (b.get k).1 = .Ok (v.take (v.length % 2 ^ 32)) ∧
            (v.length < 2 ^ 32 → v.take (v.length % 2 ^ 32) = v)) := by
  have hs : b.sound (last_put ops) := by
    rw [hb]; exact Bitcask.reach_sound max_file_size ops hops
  refine ⟨?_, ?_, ?_⟩
  · intro k v now k' hne hn
    have hbn := Bitcask.put_next_ge b k v now
    refine Bitcask.get_after_step_other b _ (.put k v now) (fun h => Op.noConfusion h) hs hn
      (by omega) k' ?_
    by_cases hk : k = []
    · simp [last_put_step, hk]
    · simp only [last_put_step, hk, if_false]
      exact Function.update_noteq hne _ _
  · intro k now k' hne hn
    have hdn : (b.del k now).2.next_file_id_ = b.next_file_id_ := (Bitcask.del_ids b k now).2.2
    refine Bitcask.get_after_step_other b _ (.del k now) (fun h => Op.noConfusion h) hs
      (by show (b.del k now).2.next_file_id_ ≤ _; rw [hdn]; exact hn) hn k' ?_
    simp only [last_put_step]
    exact Function.update_noteq hne _ _
  · intro hn k e he
    obtain ⟨hu, hcond⟩ := hs
    obtain ⟨_, ho, ha⟩ := hcond hn
    cases hm : last_put ops k with
    | none =>
      have := Bitcask.agrees_none ha hm
      rw [this] at he
      exact Option.noConfusion he
    | some v =>
      obtain ⟨e', c, he', hsz, hc, hv⟩ := Bitcask.agrees_some ha hm
      rw [he] at he'
      simp only [Option.some.injEq] at he'
      subst he'
      have hg := Bitcask.get_of_agrees _ _ k hu ho ha
      rw [hm] at hg
      exact ⟨v, c, rfl, hc, hv, hg, fun hlt => readable_of_lt v hlt⟩

/-- Witness of C2, amended: after two puts (the second rotates) a third put
leaves the first key readable. -/
theorem prior_keys_stay_readable_witness :
    ((((Bitcask.open_empty 20).run [.put [97] [49] 1, .put [98] [50] 2]).put
        [99] [51] 3).2.get [97]).1 =
      (((Bitcask.open_empty 20).run [.put [97] [49] 1, .put [98] [50] 2]).get [97]).1 :=
  (prior_keys_stay_readable 20 [.put [97] [49] 1, .put [98] [50] 2] (by decide) _ rfl).1
    [99] [51] 3 [97] (by decide) (by decide)

end bitcask

namespace bitcask

theorem replay_entries_append (file_id : Nat) (es es' : List EntryMetadata) (index : HashIndex) :
    replay_entries file_id (es ++ es') index =
      replay_entries file_id es' (replay_entries file_id es index) := by
  simp [replay_entries, List.foldl_append]

theorem replay_files_append (fs fs' : List (Nat × List EntryMetadata)) (index : HashIndex) :
    replay_files (fs ++ fs') index = replay_files fs' (replay_files fs index) := by
  simp [replay_files, List.foldl_append]

/-- Replaying one more record at the end of the last file is a `put` of its
entry. -/
theorem replay_files_snoc_record (fs : List (Nat × List EntryMetadata)) (id : Nat)
    (act : List LogRecord) (r : LogRecord) (index : HashIndex) :
    replay_files (fs ++ [(id, entry_metas 0 (act ++ [r]))]) index =
      (replay_files (fs ++ [(id, entry_metas 0 act)]) index).put r.key
        { file_id := id, value_pos := (encode_all act).length + 16 + r.key.length,
          value_size := r.value.length, timestamp := r.timestamp } := by
  rw [replay_files_append, replay_files_append, entry_metas_append]
  simp only [replay_files, List.foldl_cons, List.foldl_nil, replay_entries_append]
  simp [replay_entries, entry_metas]

/-- Replaying an empty file changes nothing. -/
theorem replay_files_snoc_empty (fs : List (Nat × List EntryMetadata)) (id : Nat)
    (index : HashIndex) :
    replay_files (fs ++ [(id, entry_metas 0 [])]) index = replay_files fs index := by
  rw [replay_files_append]
  rfl

theorem encode_all_snoc (act : List LogRecord) (r : LogRecord) :
    encode_all (act ++ [r]) = encode_all act ++ r.encode := by
  rw [encode_all_append]
  simp [encode_all]

theorem get_some_not_tombstone {h : HashIndex} {k : Bytes} {e : IndexEntry}
    (he : h.get k = some e) : h.index_.lookup k = some e ∧ e.is_tombstone = false := by
  unfold HashIndex.get at he
  cases hl : h.index_.lookup k with
  | none => rw [hl] at he; exact Option.noConfusion he
  | some e' =>
    rw [hl] at he
    have he' : (if e'.is_tombstone then none else some e') = some e := he
    by_cases ht : e'.is_tombstone = true
    · rw [if_pos ht] at he'
      exact Option.noConfusion he'
    · rw [if_neg ht] at he'
      injection he' with he'
      subst he'
      exact ⟨rfl, by simpa using ht⟩

theorem get_of_lookup {h : HashIndex} {k : Bytes} {e : IndexEntry}
    (hl : h.index_.lookup k = some e) (ht : e.is_tombstone = false) : h.get k = some e := by
  simp [HashIndex.get, hl, ht]

end bitcask

namespace bitcask

/-- Two byte sequences that agree everywhere except at index `i` are the same
prefix and suffix around the two bytes at `i`. -/
theorem split_at_difference (a b : List Byte) (i : Nat) (x y : Byte)
    (hx : a[i]? = some x) (hy : b[i]? = some y)
    (hsame : ∀ n, n ≠ i → a[n]? = b[n]?) :
    a = a.take i ++ x :: a.drop (i + 1) ∧ b = a.take i ++ y :: a.drop (i + 1) := by
  have hia : i < a.length := by
    rcases Nat.lt_or_ge i a.length with h | h
    · exact h
    · rw [List.getElem?_eq_none h] at hx; exact Option.noConfusion hx
  have ha : a.set i x = a := by
    apply List.ext_getElem?
    intro n
    rw [List.getElem?_set]
    by_cases hn : i = n
    · subst hn; simp [hia, hx]
    · simp [hn]
  have hb : a.set i y = b := by
    apply List.ext_getElem?
    intro n
    rw [List.getElem?_set]
    by_cases hn : i = n
    · subst hn; simp [hia, hy]
    · simp only [hn, if_false]
      exact hsame n (fun h => hn h.symm)
  constructor
  · conv_lhs => rw [← ha]
    rw [List.set_eq_take_append_cons_drop, if_pos hia]
  · conv_lhs => rw [← hb]
    rw [List.set_eq_take_append_cons_drop, if_pos hia]

/-- C28. CRC-32 detects every single-bit error: for all byte sequences `a` and
`b` of equal length that differ in exactly one bit (bit `j` of the byte at index
`i`; all other bytes are equal), `calculate_crc32 a ≠ calculate_crc32 b`. -/
theorem crc32_detects_single_bit_error (a b : List Byte) (i j : Nat) (x : Byte)
    (hlen : a.length = b.length) (hj : j < 8) (hx : a[i]? = some x)
    (hbit : b[i]? = some (byte_of (x.val ^^^ 2 ^ j)))
    (hsame : ∀ n, n ≠ i → a[n]? = b[n]?) :
    calculate_crc32 a ≠ calculate_crc32 b := by
  obtain ⟨ha, hb⟩ := split_at_difference a b i x _ hx hbit hsame
  rw [ha, hb]
  intro h
  exact byte_flip_ne x hj (calculate_crc32_byte_change _ _ _ _ h).symm

/-- Witness of C28: "ab" and "aj" differ in bit 3 of the second byte. -/
theorem crc32_detects_single_bit_error_witness :
    calculate_crc32 [97, 98] ≠ calculate_crc32 [97, 106] :=
  crc32_detects_single_bit_error [97, 98] [97, 106] 1 3 98 rfl (by decide) rfl rfl
    (fun n hn => by
      rcases n with _ | _ | n
      · rfl
      · exact absurd rfl hn
      · rfl)

namespace LogFile

/-- C26. Scanning never fails and always terminates: on every open handle,
whatever bytes the file holds and whatever the state of the stream,
`read_all_entries` returns (the rounds of the loop are bounded by the length of
the file) and its result is `Ok` with a list of entries. -/
theorem read_all_entries_never_fails (f : LogFile) (ho : f.is_open = true) :
    ∃ entries f1, f.read_all_entries = some (.Ok entries, f1) := by
  have hm : scan_measure (f.seekg 0) < f.content.length + 2 := by
    unfold scan_measure seekg
    by_cases hf : f.failbit = true
    · simp [hf, good]
    · simp only [hf, if_false, Bool.false_eq_true]
      split
      · simp only [Nat.sub_zero]; omega
      · omega
  obtain ⟨es, f1, h⟩ := scan_loop_total (f.content.length + 2) (f.seekg 0) [] hm
  unfold read_all_entries
  simp only [ho, Bool.not_true, if_false, Bool.false_eq_true, h]
  exact ⟨_, _, rfl⟩

/-- Witness of C26: a file of 20 bytes whose header announces a key of
`2 ^ 32 - 1` bytes. -/
theorem read_all_entries_never_fails_witness :
    ∃ entries f1,
      (mk_open 0 ([0, 0, 0, 0, 1, 0, 0, 0, 255, 255, 255, 255, 9, 0, 0, 0] ++ [1, 2, 3, 4])
        true).read_all_entries = some (.Ok entries, f1) :=
  read_all_entries_never_fails _ rfl

end LogFile

namespace Bitcask

/-- C23. Merge never touches the active file: for every database state, `merge`
leaves the handle of the active file as it was (so its id, its size and its
bytes), leaves the index as it was (so the entry of every key, in particular of
those whose entry refers to the active file), and `get` of a key whose entry
refers to the active file returns after the merge what it returned before. -/
theorem merge_keeps_active_file (b : Bitcask) :
    b.merge.2.active_file_ = b.active_file_ ∧
      b.merge.2.active_file_.id = b.active_file_.id ∧
      b.merge.2.active_file_.size = b.active_file_.size ∧
      b.merge.2.active_file_.content = b.active_file_.content ∧
      b.merge.2.index_ = b.index_ ∧
      ∀ k e, b.index_.get k = some e → e.file_id = b.active_file_.id →
        b.merge.2.index_.get k = some e ∧ (b.merge.2.get k).1 = (b.get k).1 := by
  obtain ⟨ha, hi, _⟩ := merge_frame b
  refine ⟨ha, by rw [ha], by rw [ha], by rw [ha], hi, ?_⟩
  intro k e he hid
  have he' : b.merge.2.index_.get k = some e := by rw [hi]; exact he
  refine ⟨he', ?_⟩
  have hbeq : (b.active_file_.id == e.file_id) = true := by simp [hid]
  unfold get
  simp only [he', he, ha, hbeq, if_true]

end Bitcask
end bitcask

namespace bitcask

theorem stored_full4 (old : List Byte) (a b c d : Byte) : stored 4 old [a, b, c, d] = [a, b, c, d] :=
  stored_exact 4 old _ rfl

theorem stored_full8 (old : List Byte) (a b c d e f g h : Byte) :
    stored 8 old [a, b, c, d, e, f, g, h] = [a, b, c, d, e, f, g, h] :=
  stored_exact 8 old _ rfl

/-- C21 at a failing input. The hint file holds only the first 20 bytes of the
encoding of the hint (key "a", timestamp 1, value size 1, value offset 17): the
four fixed fields are complete and the key byte is missing.  Ingestion returns
`Ok(true)` and, whatever the uninitialised locals held, the index has an entry
for the key of one zero byte with the fields of the truncated hint, where
ingesting the complete entries (none) leaves the index empty. -/
theorem truncated_hint_adds_an_entry (uninit : List Byte) (file_id : Nat) :
    (hint_bytes ⟨[97], ⟨0, 17, 1, 1⟩⟩).take 20 =
        [1, 0, 0, 0, 1, 0, 0, 0, 1, 0, 0, 0, 17, 0, 0, 0, 0, 0, 0, 0] ∧
      read_hint_file uninit (some ((hint_bytes ⟨[97], ⟨0, 17, 1, 1⟩⟩).take 20)) file_id
          HashIndex.empty =
        some (.Ok true, HashIndex.empty.put [0] ⟨file_id, 17, 1, 1⟩) ∧
      (HashIndex.empty.put [0] ⟨file_id, 17, 1, 1⟩).get [0] = some ⟨file_id, 17, 1, 1⟩ ∧
      put_hints file_id HashIndex.empty [] = HashIndex.empty := by
  have hc : (hint_bytes ⟨[97], ⟨0, 17, 1, 1⟩⟩).take 20 =
      [1, 0, 0, 0, 1, 0, 0, 0, 1, 0, 0, 0, 17, 0, 0, 0, 0, 0, 0, 0] := by decide
  refine ⟨hc, ?_, ?_, rfl⟩
  · have h0 : (HintStream.mk_open
        [1, 0, 0, 0, 1, 0, 0, 0, 1, 0, 0, 0, 17, 0, 0, 0, 0, 0, 0, 0]).peek_not_eof =
        (true, ⟨[1, 0, 0, 0, 1, 0, 0, 0, 1, 0, 0, 0, 17, 0, 0, 0, 0, 0, 0, 0], 0, false, false⟩) := by
      decide
    have h1 : (⟨[1, 0, 0, 0, 1, 0, 0, 0, 1, 0, 0, 0, 17, 0, 0, 0, 0, 0, 0, 0], 0, false, false⟩ :
        HintStream).read 4 =
        ([1, 0, 0, 0],
          ⟨[1, 0, 0, 0, 1, 0, 0, 0, 1, 0, 0, 0, 17, 0, 0, 0, 0, 0, 0, 0], 4, false, false⟩) := by
      decide
    have h2 : (⟨[1, 0, 0, 0, 1, 0, 0, 0, 1, 0, 0, 0, 17, 0, 0, 0, 0, 0, 0, 0], 4, false, false⟩ :
        HintStream).read 4 =
        ([1, 0, 0, 0],
          ⟨[1, 0, 0, 0, 1, 0, 0, 0, 1, 0, 0, 0, 17, 0, 0, 0, 0, 0, 0, 0], 8, false, false⟩) := by
      decide
    have h3 : (⟨[1, 0, 0, 0, 1, 0, 0, 0, 1, 0, 0, 0, 17, 0, 0, 0, 0, 0, 0, 0], 8, false, false⟩ :
        HintStream).read 4 =
        ([1, 0, 0, 0],
          ⟨[1, 0, 0, 0, 1, 0, 0, 0, 1, 0, 0, 0, 17, 0, 0, 0, 0, 0, 0, 0], 12, false, false⟩) := by
      decide
    have h4 : (⟨[1, 0, 0, 0, 1, 0, 0, 0, 1, 0, 0, 0, 17, 0, 0, 0, 0, 0, 0, 0], 12, false, false⟩ :
        HintStream).read 8 =
        ([17, 0, 0, 0, 0, 0, 0, 0],
          ⟨[1, 0, 0, 0, 1, 0, 0, 0, 1, 0, 0, 0, 17, 0, 0, 0, 0, 0, 0, 0], 20, false, false⟩) := by
      decide
    have h5 : (⟨[1, 0, 0, 0, 1, 0, 0, 0, 1, 0, 0, 0, 17, 0, 0, 0, 0, 0, 0, 0], 20, false, false⟩ :
        HintStream).read 1 =
        ([], ⟨[1, 0, 0, 0, 1, 0, 0, 0, 1, 0, 0, 0, 17, 0, 0, 0, 0, 0, 0, 0], 20, true, true⟩) := by
      decide
    have h6 : (⟨[1, 0, 0, 0, 1, 0, 0, 0, 1, 0, 0, 0, 17, 0, 0, 0, 0, 0, 0, 0], 20, true, true⟩ :
        HintStream).peek_not_eof.1 = false := by
      decide
    have l1 : le_value ([1, 0, 0, 0] : List Byte) = 1 := by decide
    have l17 : le_value ([17, 0, 0, 0, 0, 0, 0, 0] : List Byte) = 17 := by decide
    have hf : fill_buffer 1 [] = [0] := by decide
    rw [hc, read_hint_file]
    show hint_loop uninit file_id (19 + 1 + 1) _ _ = _
    rw [hint_loop_succ]
    simp only [h0, h1, h2, h3, h4, stored_full4, stored_full8, l1, l17, h5, hf]
    rw [hint_loop_succ]
    simp only [h6]
    rfl
  · rw [HashIndex.get_put_self]
    simp [IndexEntry.is_tombstone, u64_max]


theorem starts_with_nil (s : Bytes) : starts_with s [] = true := by
  cases s <;> rfl

theorem digit_facts (d : Byte) (h : is_digit d = true) :
    is_space d = false ∧ d ≠ 45 ∧ d ≠ 43 ∧ d ≠ 46 ∧ d ≠ 104 := by
  revert h
  revert d
  decide

theorem find_from_digits (ds : Bytes) (hd : ∀ d ∈ ds, is_digit d = true) :
    ∀ i, find_from i ds dot_hint = none := by
  induction ds with
  | nil => intro i; rfl
  | cons d ds ih =>
    intro i
    have h46 := (digit_facts d (hd d (List.mem_cons_self _ _))).2.2.2.1
    have hs : starts_with (d :: ds) dot_hint = false := by
      simp [starts_with, dot_hint, h46]
    rw [find_from, hs]
    exact ih (fun x hx => hd x (List.mem_cons_of_mem _ hx)) (i + 1)

/-- A name that is `cask.` followed by decimal digits of a number below `2 ^ 32`
(leading zeros allowed) is reported with that number. -/
theorem log_file_id_digits (ds : Bytes) (hne : ds ≠ []) (hd : ∀ d ∈ ds, is_digit d = true)
    (hv : digits_value ds < 2 ^ 32) :
    log_file_id (cask_dot ++ ds) = some (digits_value ds) := by
  obtain ⟨d, ds', rfl⟩ := List.exists_cons_of_ne_nil hne
  obtain ⟨hsp, h45, h43, h46, h104⟩ := digit_facts d (hd d (List.mem_cons_self _ _))
  have h1 : find (cask_dot ++ d :: ds') cask_dot = some 0 := by
    simp [find, find_from, cask_dot, starts_with, starts_with_nil]
  have h2 : find (cask_dot ++ d :: ds') dot_hint = none := by
    have := find_from_digits ds' (fun x hx => hd x (List.mem_cons_of_mem _ hx)) 6
    simp [find, find_from, cask_dot, starts_with, dot_hint, h104, h46]
    exact this
  have h3 : stoul (d :: ds') = some (digits_value (d :: ds')) := by
    have htw : (d :: ds').takeWhile is_digit = d :: ds' :=
      List.takeWhile_eq_self_iff.mpr hd
    have hdw : (d :: ds').dropWhile is_space = d :: ds' := by
      simp [List.dropWhile_cons, hsp]
    have hb45 : (some d == some (45 : Byte)) = false := by simp [h45]
    have hb43 : (some d == some (43 : Byte)) = false := by simp [h43]
    have hlt : ¬ digits_value (d :: ds') ≥ 2 ^ 64 := by
      have : (2:Nat) ^ 32 < 2 ^ 64 := by decide
      omega
    unfold stoul
    simp only [hdw, List.head?_cons, hb45, hb43, Bool.or_false, Bool.false_eq_true, if_false,
      htw, List.isEmpty_cons, hlt]
  have hdrop : (cask_dot ++ d :: ds').drop 5 = d :: ds' := rfl
  rw [log_file_id, h1, h2, hdrop, h3]
  simp only [Nat.mod_eq_of_lt hv]
  rfl



/-- C22 at failing inputs. Names that are not `cask.` followed by the digits of
an unsigned 32-bit integer are reported with an id: `"cask.5x"` as 5,
`"cask.1.bak"` as 1, `"cask. 7"` as 7, `"cask.-1"` as 4294967295 and
`"cask.4294967296"` as 0.  `"cask.007"` is reported as 7, and `"cask.1.hint"` and
`"cask."` are not reported. -/
theorem lenient_names_are_data_files :
    get_log_file_ids [cask_dot ++ [53, 120]] = [5] ∧
      get_log_file_ids [cask_dot ++ [49, 46, 98, 97, 107]] = [1] ∧
      get_log_file_ids [cask_dot ++ [32, 55]] = [7] ∧
      get_log_file_ids [cask_dot ++ [45, 49]] = [4294967295] ∧
      get_log_file_ids [cask_dot ++ [52, 50, 57, 52, 57, 54, 55, 50, 57, 54]] = [0] ∧
      get_log_file_ids [cask_dot ++ [48, 48, 55]] = [7] ∧
      get_log_file_ids [cask_dot ++ [49] ++ dot_hint] = [] ∧
      get_log_file_ids [cask_dot] = [] := by
  decide


end bitcask

namespace bitcask
namespace Bitcask

theorem get_next (b : Bitcask) (k : Bytes) : (b.get k).2.next_file_id_ = b.next_file_id_ := by
  unfold get
  cases b.index_.get k with
  | none => rfl
  | some e =>
    simp only []
    split
    · rfl
    · cases read_old b.old_files_ e.file_id e.value_pos e.value_size with
      | none => rfl
      | some p => rfl

/-- The inner loop of the merge uses no file id and keeps the id of the merged
file. -/
theorem merge_keys_ids (new_file_id : Nat) (keys : List Bytes) :
    ∀ (b : Bitcask) (mf : LogFile) (hints : List HintEntry),
      (merge_keys new_file_id keys b mf hints).1.next_file_id_ = b.next_file_id_ ∧
        (merge_keys new_file_id keys b mf hints).2.1.file_id_ = mf.file_id_ := by
  induction keys with
  | nil => intro b mf hints; exact ⟨rfl, rfl⟩
  | cons key keys ih =>
    intro b mf hints
    have h3 := get_next b key
    rw [merge_keys]
    simp only []
    cases hv : (b.get key).1 with
    | Err e =>
      simp only [hv]
      rw [← h3]
      exact ih _ _ _
    | Ok value =>
      simp only [hv]
      cases hi : (b.get key).2.index_.get key with
      | none =>
        simp only [hi]
        rw [← h3]
        exact ih _ _ _
      | some entry =>
        simp only [hi]
        have hid := LogFile.append_file_id mf key value entry.timestamp
        cases ha : (mf.append key value entry.timestamp).1 with
        | Ok pos =>
          simp only [ha]
          rw [← h3, ← hid]
          exact ih _ _ _
        | Err e =>
          simp only [ha]
          rw [← h3, ← hid]
          exact ih _ _ _

/-- The outer loop of the merge gives the merged files the next `n` ids, in
order, and advances the counter by `n`. -/
theorem merge_groups_ids (groups : List (Nat × List Bytes)) :
    ∀ (b : Bitcask) (merged : List LogFile),
      ∃ n, (merge_groups groups b merged).1.next_file_id_ = b.next_file_id_ + n ∧
        (merge_groups groups b merged).2.map LogFile.id =
          merged.map LogFile.id ++
            (List.range n).map (fun i => (b.next_file_id_ + i) % 2 ^ 32) := by
  induction groups with
  | nil =>
    intro b merged
    refine ⟨0, rfl, ?_⟩
    rw [merge_groups]
    simp
  | cons g groups ih =>
    intro b merged
    obtain ⟨fid, keys⟩ := g
    rw [merge_groups]
    by_cases hk : keys.isEmpty = true
    · simp only [hk, if_true]
      exact ih b merged
    · simp only [hk, if_false, Bool.false_eq_true]
      obtain ⟨h1, h2⟩ := merge_keys_ids (b.next_file_id_ % 2 ^ 32) keys
        { b with next_file_id_ := b.next_file_id_ + 1 }
        (LogFile.mk_open (b.next_file_id_ % 2 ^ 32) [] false) []
      obtain ⟨n, i1, i2⟩ := ih
        ((merge_keys (b.next_file_id_ % 2 ^ 32) keys
            { b with next_file_id_ := b.next_file_id_ + 1 }
            (LogFile.mk_open (b.next_file_id_ % 2 ^ 32) [] false) []).1.write_hint_file
              (b.next_file_id_ % 2 ^ 32)
              (merge_keys (b.next_file_id_ % 2 ^ 32) keys
                { b with next_file_id_ := b.next_file_id_ + 1 }
                (LogFile.mk_open (b.next_file_id_ % 2 ^ 32) [] false) []).2.2)
        (merged ++ [(merge_keys (b.next_file_id_ % 2 ^ 32) keys
            { b with next_file_id_ := b.next_file_id_ + 1 }
            (LogFile.mk_open (b.next_file_id_ % 2 ^ 32) [] false) []).2.1.close])
      have hn : ((merge_keys (b.next_file_id_ % 2 ^ 32) keys
            { b with next_file_id_ := b.next_file_id_ + 1 }
            (LogFile.mk_open (b.next_file_id_ % 2 ^ 32) [] false) []).1.write_hint_file
              (b.next_file_id_ % 2 ^ 32)
              (merge_keys (b.next_file_id_ % 2 ^ 32) keys
                { b with next_file_id_ := b.next_file_id_ + 1 }
                (LogFile.mk_open (b.next_file_id_ % 2 ^ 32) [] false) []).2.2).next_file_id_ =
          b.next_file_id_ + 1 := h1
      have hid : (merge_keys (b.next_file_id_ % 2 ^ 32) keys
            { b with next_file_id_ := b.next_file_id_ + 1 }
            (LogFile.mk_open (b.next_file_id_ % 2 ^ 32) [] false) []).2.1.close.id =
          b.next_file_id_ % 2 ^ 32 := h2
      refine ⟨n + 1, ?_, ?_⟩
      · rw [i1, hn]; omega
      · rw [i2, hn, List.map_append, List.map_cons, List.map_nil, hid, List.append_assoc,
          List.range_succ_eq_map, List.map_cons, List.map_map]
        simp only [List.singleton_append, Nat.add_zero, List.append_cancel_left_eq,
          List.cons.injEq, true_and]
        apply List.map_congr_left
        intro i _
        simp only [Function.comp]
        congr 1
        omega

/-- `merge` attaches files with the next `n` ids and advances the counter by
`n`. -/
theorem merge_of_ids (b : Bitcask) (live_keys : List Bytes) :
    ∃ n, (b.merge_of live_keys).2.next_file_id_ = b.next_file_id_ + n ∧
      (b.merge_of live_keys).2.old_files_.map LogFile.id =
        (List.range n).map (fun i => (b.next_file_id_ + i) % 2 ^ 32) := by
  unfold merge_of
  by_cases he : b.old_files_.isEmpty = true
  · rw [if_pos he]
    refine ⟨0, rfl, ?_⟩
    have : b.old_files_ = [] := List.isEmpty_iff.mp he
    simp [this]
  · rw [if_neg he]
    obtain ⟨n, h1, h2⟩ := merge_groups_ids (b.keys_by_file_of live_keys) b []
    refine ⟨n, h1, ?_⟩
    have h2' : (merge_groups (b.keys_by_file_of live_keys) b []).2.map LogFile.id =
        (List.range n).map (fun i => (b.next_file_id_ + i) % 2 ^ 32) := by
      rw [h2]; rfl
    rw [← h2']
    simp only [List.map_map]
    apply List.map_congr_left
    intro f _
    rfl

theorem merge_ids (b : Bitcask) :
    ∃ n, b.merge.2.next_file_id_ = b.next_file_id_ + n ∧
      b.merge.2.old_files_.map LogFile.id =
        (List.range n).map (fun i => (b.next_file_id_ + i) % 2 ^ 32) :=
  merge_of_ids b b.index_.keys

theorem step_next_ge (b : Bitcask) (op : Op) : b.next_file_id_ ≤ (b.step op).next_file_id_ := by
  cases op with
  | put k v now =>
    rcases put_ids b k v now with ⟨_, _, h⟩ | ⟨_, _, h⟩
    · exact Nat.le_of_eq h.symm
    · show _ ≤ (b.put k v now).2.next_file_id_
      rw [h]; omega
  | del k now => exact Nat.le_of_eq (del_ids b k now).2.2.symm
  | merge =>
    obtain ⟨n, h, _⟩ := merge_ids b
    show _ ≤ b.merge.2.next_file_id_
    rw [h]; omega

theorem run_next_ge (ops : List Op) : ∀ b : Bitcask, b.next_file_id_ ≤ (b.run ops).next_file_id_ := by
  induction ops with
  | nil => intro b; exact Nat.le_refl _
  | cons op ops ih => intro b; exact Nat.le_trans (step_next_ge b op) (ih (b.step op))

/-- The ids after one call: each is an id attached before the call or is not
below the counter before the call, and they are fresh again. -/
theorem step_fresh (b : Bitcask) (op : Op) (h : b.ids_fresh)
    (hn : (b.step op).next_file_id_ ≤ 2 ^ 32) :
    (b.step op).ids_fresh ∧
      ∀ i ∈ ((b.step op).active_file_ :: (b.step op).old_files_).map LogFile.id,
        i ∈ (b.active_file_ :: b.old_files_).map LogFile.id ∨ b.next_file_id_ ≤ i := by
  obtain ⟨hnd, hlt⟩ := h
  cases op with
  | del k now =>
    obtain ⟨h1, h2, h3⟩ := del_ids b k now
    have e : ((b.step (.del k now)).active_file_ :: (b.step (.del k now)).old_files_).map
        LogFile.id = (b.active_file_ :: b.old_files_).map LogFile.id := by
      show ((b.del k now).2.active_file_ :: (b.del k now).2.old_files_).map LogFile.id = _
      rw [List.map_cons, List.map_cons, h1, h2]
    refine ⟨⟨by rw [e]; exact hnd, fun i hi => ?_⟩, fun i hi => Or.inl (by rw [← e]; exact hi)⟩
    rw [e] at hi
    show i < (b.del k now).2.next_file_id_
    rw [h3]; exact hlt i hi
  | put k v now =>
    rcases put_ids b k v now with ⟨h1, h2, h3⟩ | ⟨h1, h2, h3⟩
    · have e : ((b.step (.put k v now)).active_file_ ::
          (b.step (.put k v now)).old_files_).map LogFile.id =
          (b.active_file_ :: b.old_files_).map LogFile.id := by
        show ((b.put k v now).2.active_file_ :: (b.put k v now).2.old_files_).map LogFile.id = _
        rw [List.map_cons, List.map_cons, h1, h2]
      refine ⟨⟨by rw [e]; exact hnd, fun i hi => ?_⟩, fun i hi => Or.inl (by rw [← e]; exact hi)⟩
      rw [e] at hi
      show i < (b.put k v now).2.next_file_id_
      rw [h3]; exact hlt i hi
    · have hn' : b.next_file_id_ + 1 ≤ 2 ^ 32 := by
        have : (b.step (.put k v now)).next_file_id_ = b.next_file_id_ + 1 := h3
        omega
      have hmod : b.next_file_id_ % 2 ^ 32 = b.next_file_id_ := Nat.mod_eq_of_lt (by omega)
      have e : ((b.step (.put k v now)).active_file_ ::
          (b.step (.put k v now)).old_files_).map LogFile.id =
          b.next_file_id_ :: (b.old_files_.map LogFile.id ++ [b.active_file_.id]) := by
        show ((b.put k v now).2.active_file_ :: (b.put k v now).2.old_files_).map LogFile.id = _
        rw [List.map_cons, h1, h2, hmod]
      have hperm : List.Perm (b.old_files_.map LogFile.id ++ [b.active_file_.id])
          ((b.active_file_ :: b.old_files_).map LogFile.id) := by
        rw [List.map_cons]
        exact List.perm_append_singleton _ _
      have hmem : ∀ i, i ∈ b.old_files_.map LogFile.id ++ [b.active_file_.id] →
          i ∈ (b.active_file_ :: b.old_files_).map LogFile.id :=
        fun i hi => hperm.subset hi
      refine ⟨⟨?_, ?_⟩, ?_⟩
      · rw [e, List.nodup_cons]
        refine ⟨fun hm => ?_, hperm.nodup_iff.mpr hnd⟩
        have := hlt _ (hmem _ hm)
        omega
      · intro i hi
        rw [e] at hi
        show i < (b.put k v now).2.next_file_id_
        rw [h3]
        rcases List.mem_cons.mp hi with hi | hi
        · omega
        · have := hlt i (hmem i hi)
          omega
      · intro i hi
        rw [e] at hi
        rcases List.mem_cons.mp hi with hi | hi
        · right; omega
        · left; exact hmem i hi
  | merge =>
    obtain ⟨n, h1, h2⟩ := merge_ids b
    obtain ⟨ha, _, _⟩ := merge_frame b
    have hn' : b.next_file_id_ + n ≤ 2 ^ 32 := by
      have : (b.step .merge).next_file_id_ = b.next_file_id_ + n := h1
      omega
    have hold : b.merge.2.old_files_.map LogFile.id =
        (List.range n).map (fun i => b.next_file_id_ + i) := by
      rw [h2]
      apply List.map_congr_left
      intro i hi
      have := List.mem_range.mp hi
      exact Nat.mod_eq_of_lt (by omega)
    have e : ((b.step .merge).active_file_ :: (b.step .merge).old_files_).map LogFile.id =
        b.active_file_.id :: (List.range n).map (fun i => b.next_file_id_ + i) := by
      show (b.merge.2.active_file_ :: b.merge.2.old_files_).map LogFile.id = _
      rw [List.map_cons, hold, ha]
    have hact : b.active_file_.id < b.next_file_id_ :=
      hlt _ (by rw [List.map_cons]; exact List.mem_cons_self _ _)
    have hmem : ∀ i, i ∈ (List.range n).map (fun i => b.next_file_id_ + i) →
        b.next_file_id_ ≤ i ∧ i < b.next_file_id_ + n := by
      intro i hi
      obtain ⟨j, hj, rfl⟩ := List.mem_map.mp hi
      have := List.mem_range.mp hj
      omega
    refine ⟨⟨?_, ?_⟩, ?_⟩
    · rw [e, List.nodup_cons]
      refine ⟨fun hm => ?_, ?_⟩
      · have := (hmem _ hm).1
        omega
      · exact List.Nodup.map (fun x y hxy => by simpa using hxy) (List.nodup_range n)
    · intro i hi
      rw [e] at hi
      show i < b.merge.2.next_file_id_
      rw [h1]
      rcases List.mem_cons.mp hi with hi | hi
      · omega
      · exact (hmem i hi).2
    · intro i hi
      rw [e] at hi
      rcases List.mem_cons.mp hi with hi | hi
      · left; rw [hi, List.map_cons]; exact List.mem_cons_self _ _
      · right; exact (hmem i hi).1

theorem open_empty_fresh (m : Nat) : (open_empty m).ids_fresh := by
  refine ⟨by simp [open_empty], ?_⟩
  intro i hi
  simp only [open_empty, List.map_cons, List.map_nil, List.mem_singleton] at hi
  subst hi
  exact Nat.zero_lt_one

theorem run_fresh (ops : List Op) :
    ∀ b : Bitcask, b.ids_fresh → (b.run ops).next_file_id_ ≤ 2 ^ 32 → (b.run ops).ids_fresh := by
  induction ops with
  | nil => intro b h _; exact h
  | cons op ops ih =>
    intro b h hn
    have hstep : (b.step op).next_file_id_ ≤ 2 ^ 32 :=
      Nat.le_trans (run_next_ge ops (b.step op)) hn
    exact ih (b.step op) (step_fresh b op h hstep).1 hn

end Bitcask
end bitcask

namespace bitcask

namespace Bitcask

/-- No data file of the directory has an id that no attached file has. -/
theorem data_content_fresh (b : Bitcask) (id : Nat)
    (h : ∀ i ∈ (b.active_file_ :: b.old_files_).map LogFile.id, i ≠ id) :
    b.directory.data_content id = [] := by
  have hf : List.find? (fun p => p.1 == id)
      ((b.active_file_ :: b.old_files_).map fun f => (f.file_id_, f.content)) = none := by
    rw [List.find?_eq_none]
    intro p hp
    obtain ⟨f, hf, rfl⟩ := List.mem_map.mp hp
    have := h f.id (List.mem_map_of_mem _ hf)
    simpa [LogFile.id] using this
  unfold directory Directory.data_content
  simp only [hf]

theorem reach_fresh (max_file_size : Nat) (ops : List Op)
    (hn : ((open_empty max_file_size).run ops).next_file_id_ ≤ 2 ^ 32) :
    ((open_empty max_file_size).run ops).ids_fresh :=
  run_fresh ops _ (open_empty_fresh max_file_size) hn

end Bitcask

/-- C27. File ids are never reused: in every state `b` reached from opening an
empty directory by put, delete and merge operations in which the id counter is at
most `2 ^ 32 - 1` (so that the `uint32_t` counter has not wrapped),
`next_file_id_` is strictly greater than the id of the active file and of every
immutable file, and the ids of the active and the immutable files are pairwise
distinct.  No operation decreases `next_file_id_`.  While the counter stays in
that range after the operation, the ids after it are pairwise distinct again, a
put keeps the active id or makes `next_file_id_` the new active id, and every
file a merge attaches has an id that is at least `next_file_id_`: an id no data
file had before. -/
theorem file_ids_are_never_reused (max_file_size : Nat) (ops : List Op) (b : Bitcask)
    (hb : b = (Bitcask.open_empty max_file_size).run ops)
    (hn : b.next_file_id_ ≤ 2 ^ 32 - 1) :
    b.next_file_id_ % 2 ^ 32 = b.next_file_id_ ∧
      b.active_file_.id < b.next_file_id_ ∧
      (∀ f ∈ b.old_files_, f.id < b.next_file_id_) ∧
      ((b.active_file_ :: b.old_files_).map LogFile.id).Nodup ∧
      (∀ op, b.next_file_id_ ≤ (b.step op).next_file_id_) ∧
      (∀ op, (b.step op).next_file_id_ ≤ 2 ^ 32 - 1 →
        (((b.step op).active_file_ :: (b.step op).old_files_).map LogFile.id).Nodup ∧
          ∀ f ∈ (b.step op).active_file_ :: (b.step op).old_files_,
            f.id ∈ (b.active_file_ :: b.old_files_).map LogFile.id ∨
              b.next_file_id_ ≤ f.id) ∧
      (∀ k v now, (b.put k v now).2.next_file_id_ ≤ 2 ^ 32 - 1 →
        (b.put k v now).2.active_file_.id = b.active_file_.id ∨
          (b.put k v now).2.active_file_.id = b.next_file_id_) ∧
      (b.merge.2.next_file_id_ ≤ 2 ^ 32 - 1 →
        ∀ f ∈ b.merge.2.old_files_, b.next_file_id_ ≤ f.id) := by
  have hfresh : b.ids_fresh := by
    rw [hb]
    exact Bitcask.reach_fresh max_file_size ops (by rw [← hb]; omega)
  obtain ⟨hnd, hlt⟩ := hfresh
  refine ⟨Nat.mod_eq_of_lt (by omega), ?_, ?_, hnd, fun op => Bitcask.step_next_ge b op, ?_, ?_, ?_⟩
  · exact hlt _ (by rw [List.map_cons]; exact List.mem_cons_self _ _)
  · intro f hf
    exact hlt _ (List.mem_map_of_mem _ (List.mem_cons_of_mem _ hf))
  · intro op hop
    obtain ⟨⟨h1, _⟩, h2⟩ := Bitcask.step_fresh b op ⟨hnd, hlt⟩ (by omega)
    exact ⟨h1, fun f hf => h2 f.id (List.mem_map_of_mem _ hf)⟩
  · intro k v now hk
    rcases Bitcask.put_ids b k v now with ⟨_, h2, _⟩ | ⟨_, h2, h3⟩
    · exact Or.inl h2
    · right
      rw [h2]
      exact Nat.mod_eq_of_lt (by omega)
  · intro hm f hf
    obtain ⟨n, h1, h2⟩ := Bitcask.merge_ids b
    have hmem : f.id ∈ b.merge.2.old_files_.map LogFile.id := List.mem_map_of_mem _ hf
    rw [h2] at hmem
    obtain ⟨i, hi, hfi⟩ := List.mem_map.mp hmem
    have := List.mem_range.mp hi
    rw [← hfi, Nat.mod_eq_of_lt (by omega)]
    omega

/-- Witness of C27: two puts (the second rotates), a merge and a put, with
`max_file_size = 20`. -/
theorem file_ids_are_never_reused_witness :
    ((Bitcask.open_empty 20).run
        [.put [97] [49] 1, .put [98] [50] 2, .merge, .put [99] [51] 3]).active_file_.id <
      ((Bitcask.open_empty 20).run
        [.put [97] [49] 1, .put [98] [50] 2, .merge, .put [99] [51] 3]).next_file_id_ :=
  (file_ids_are_never_reused 20 [.put [97] [49] 1, .put [98] [50] 2, .merge, .put [99] [51] 3]
    _ rfl (by decide)).2.1

end bitcask

namespace bitcask
namespace Bitcask

/-- The append of `put` extends the log of the active file by one record. -/
theorem logged_put_appended (b : Bitcask) (fs : List (Nat × List LogRecord))
    (act : List LogRecord) (k v : Bytes) (now : Nat) (hu : b.active_usable)
    (hk : k.length < 2 ^ 32) (hv : v.length < 2 ^ 32) (hl : b.logged_with fs act) :
    (b.put_appended k v now).logged_with fs (act ++ [⟨now % 2 ^ 32, k, v⟩]) := by
  obtain ⟨h1, h2, h3, h4, h5⟩ := hl
  have hsz : b.active_file_.current_size_ = (encode_all act).length := by
    rw [hu.2.2.2, h2]
  refine ⟨h1, ?_, h3, ?_, ?_⟩
  · show b.active_file_.content ++ entry_bytes (now % 2 ^ 32) k v = _
    rw [encode_all_snoc, h2]
    rfl
  · intro r hr
    rcases List.mem_append.mp hr with hr | hr
    · exact h4 r hr
    · rw [List.mem_singleton] at hr
      subst hr
      exact ⟨Nat.mod_lt _ (by decide), hk, hv⟩
  · intro k' e he
    show _ ∧ (replay_files (_ ++ [(b.active_file_.file_id_,
      entry_metas 0 (act ++ [⟨now % 2 ^ 32, k, v⟩]))]) HashIndex.empty).index_.lookup k' = some e
    rw [replay_files_snoc_record]
    have hidx : (b.put_appended k v now).index_ = b.index_.put k
        { file_id := b.active_file_.id,
          value_pos := b.active_file_.current_size_ + 16 + k.length,
          value_size := v.length % 2 ^ 32, timestamp := now % 2 ^ 32 } := rfl
    rw [hidx] at he
    by_cases hkk : k' = k
    · subst hkk
      obtain ⟨hlook, _⟩ := get_some_not_tombstone he
      refine ⟨hk, ?_⟩
      rw [← hlook]
      simp only [HashIndex.put, AList.lookup_insert, hsz, Nat.mod_eq_of_lt hv, LogFile.id]
    · rw [HashIndex.get_put_ne _ _ hkk] at he
      obtain ⟨hlen, hlook⟩ := h5 k' e he
      refine ⟨hlen, ?_⟩
      simp only [HashIndex.put, AList.lookup_insert_ne hkk]
      exact hlook

/-- The append of `del` extends the log of the active file by one record. -/
theorem logged_del_appended (b : Bitcask) (fs : List (Nat × List LogRecord))
    (act : List LogRecord) (k : Bytes) (now : Nat) (hk : k.length < 2 ^ 32)
    (hl : b.logged_with fs act) :
    (b.del_appended k now).logged_with fs (act ++ [⟨now % 2 ^ 32, k, []⟩]) := by
  obtain ⟨h1, h2, h3, h4, h5⟩ := hl
  refine ⟨h1, ?_, h3, ?_, ?_⟩
  · show b.active_file_.content ++ entry_bytes (now % 2 ^ 32) k [] = _
    rw [encode_all_snoc, h2]
    rfl
  · intro r hr
    rcases List.mem_append.mp hr with hr | hr
    · exact h4 r hr
    · rw [List.mem_singleton] at hr
      subst hr
      exact ⟨Nat.mod_lt _ (by decide), hk, Nat.two_pow_pos 32⟩
  · intro k' e he
    show _ ∧ (replay_files (_ ++ [(b.active_file_.file_id_,
      entry_metas 0 (act ++ [⟨now % 2 ^ 32, k, []⟩]))]) HashIndex.empty).index_.lookup k' = some e
    rw [replay_files_snoc_record]
    have hidx : (b.del_appended k now).index_ = b.index_.remove k (now % 2 ^ 32) := rfl
    rw [hidx] at he
    by_cases hkk : k' = k
    · subst hkk
      rw [HashIndex.get_remove_self] at he
      exact Option.noConfusion he
    · rw [HashIndex.get_remove_ne _ _ hkk] at he
      obtain ⟨hlen, hlook⟩ := h5 k' e he
      refine ⟨hlen, ?_⟩
      simp only [HashIndex.put, AList.lookup_insert_ne hkk]
      exact hlook

/-- A rotation closes the log of the active file and starts an empty one. -/
theorem logged_rotate (b : Bitcask) (fs : List (Nat × List LogRecord)) (act : List LogRecord)
    (hf : b.ids_fresh) (hn : b.next_file_id_ < 2 ^ 32) (hl : b.logged_with fs act) :
    b.rotate_active_file.logged_with (fs ++ [(b.active_file_.file_id_, act)]) [] := by
  obtain ⟨h1, h2, h3, h4, h5⟩ := hl
  have hmod : b.next_file_id_ % 2 ^ 32 = b.next_file_id_ := Nat.mod_eq_of_lt hn
  have hdc : b.directory.data_content (b.next_file_id_ % 2 ^ 32) = [] := by
    apply data_content_fresh
    intro i hi
    have := hf.2 i hi
    omega
  refine ⟨?_, ?_, ?_, ?_, ?_⟩
  · show (b.old_files_ ++ [LogFile.mk_open b.active_file_.id b.active_file_.content true]).map
      (fun f => (f.file_id_, f.content)) = _
    rw [List.map_append, List.map_append, h1]
    show _ ++ [(b.active_file_.file_id_, b.active_file_.content)] = _
    rw [h2]
    rfl
  · show (LogFile.mk_open (b.next_file_id_ % 2 ^ 32)
      (b.directory.data_content (b.next_file_id_ % 2 ^ 32)) false).content = _
    rw [hdc]
    rfl
  · intro p hp r hr
    rcases List.mem_append.mp hp with hp | hp
    · exact h3 p hp r hr
    · rw [List.mem_singleton] at hp
      subst hp
      exact h4 r hr
  · intro r hr
    exact absurd hr (List.not_mem_nil r)
  · intro k e he
    have he' : b.index_.get k = some e := he
    obtain ⟨hlen, hlook⟩ := h5 k e he'
    refine ⟨hlen, ?_⟩
    rw [List.map_append, replay_files_snoc_empty]
    exact hlook

theorem open_empty_logged (m : Nat) : (open_empty m).logged :=
  ⟨rfl, fun _ => ⟨[], [], rfl, rfl, fun p hp => absurd hp (List.not_mem_nil p),
    fun r hr => absurd hr (List.not_mem_nil r), fun _ _ he => Option.noConfusion he⟩⟩

theorem put_appended_fresh (b : Bitcask) (k v : Bytes) (now : Nat) (h : b.ids_fresh) :
    (b.put_appended k v now).ids_fresh := h

/-- A put or delete whose arguments fit keeps the log invariant. -/
theorem step_logged (b : Bitcask) (op : Op) (hop : op ≠ Op.merge) (hfit : op.fits)
    (hu : b.active_usable) (hf : b.next_file_id_ ≤ 2 ^ 32 → b.ids_fresh) (hl : b.logged) :
    (b.step op).logged := by
  obtain ⟨hh, hcond⟩ := hl
  cases op with
  | merge => exact absurd rfl hop
  | put k v now =>
    by_cases hk : k.isEmpty = true
    · have : b.put k v now = (.Err "Key cannot be empty", b) := by simp [put, hk]
      simp only [step, this]
      exact ⟨hh, hcond⟩
    · have hput := put_eq b k v now hu (by simpa using hk)
      obtain ⟨hkl, hvl⟩ := hfit
      simp only [step, hput]
      split
      · refine ⟨hh, fun hn => ?_⟩
        have hn' : b.next_file_id_ + 1 ≤ 2 ^ 32 - 1 := hn
        obtain ⟨fs, act, hl⟩ := hcond (by omega)
        exact ⟨_, _, logged_rotate _ fs _ (put_appended_fresh b k v now (hf (by omega)))
          (by show b.next_file_id_ < 2 ^ 32; omega)
          (logged_put_appended b fs act k v now hu hkl hvl hl)⟩
      · refine ⟨hh, fun hn => ?_⟩
        obtain ⟨fs, act, hl⟩ := hcond hn
        exact ⟨_, _, logged_put_appended b fs act k v now hu hkl hvl hl⟩
  | del k now =>
    by_cases hc : b.index_.contains k = true
    · simp only [step, del_eq b k now hu hc]
      refine ⟨hh, fun hn => ?_⟩
      obtain ⟨fs, act, hl⟩ := hcond hn
      have hk : k.length < 2 ^ 32 := by
        cases hg : b.index_.get k with
        | none => simp [HashIndex.contains, hg] at hc
        | some e => exact (hl.2.2.2.2 k e hg).1
      exact ⟨_, _, logged_del_appended b fs act k now hk hl⟩
    · simp only [step, del_absent b k now (by simpa using hc)]
      exact ⟨hh, hcond⟩

theorem run_logged (ops : List Op) (hops : ∀ op ∈ ops, op ≠ Op.merge)
    (hfit : ∀ op ∈ ops, op.fits) :
    ∀ b : Bitcask, b.active_usable → (b.next_file_id_ ≤ 2 ^ 32 → b.ids_fresh) → b.logged →
      (b.run ops).logged := by
  induction ops with
  | nil => intro b _ _ h; exact h
  | cons op ops ih =>
    intro b hu hf hl
    refine ih (fun o ho => hops o (List.mem_cons_of_mem _ ho))
      (fun o ho => hfit o (List.mem_cons_of_mem _ ho)) (b.step op) (step_usable b op hu) ?_
      (step_logged b op (hops op (List.mem_cons_self _ _)) (hfit op (List.mem_cons_self _ _))
        hu hf hl)
    intro hn
    exact (step_fresh b op (hf (Nat.le_trans (step_next_ge b op) hn)) hn).1

theorem reach_logged (max_file_size : Nat) (ops : List Op) (hops : ∀ op ∈ ops, op ≠ Op.merge)
    (hfit : ∀ op ∈ ops, op.fits) : ((open_empty max_file_size).run ops).logged :=
  run_logged ops hops hfit _ (open_empty_usable _) (fun _ => open_empty_fresh _)
    (open_empty_logged _)

end Bitcask
end bitcask

namespace bitcask
namespace Bitcask

/-- One round of the loading loop for a file without a hint file: the file is
scanned and its entries are replayed. -/
theorem load_loop_cons (uninit : List Byte) (d : Directory) (file_id : Nat) (rest : List Nat)
    (index : HashIndex) (old_files : List LogFile) (active : Option LogFile)
    (entries : List EntryMetadata) (log_file : LogFile) (hh : d.hint_files file_id = none)
    (hs : (LogFile.mk_open file_id (d.data_content file_id) true).read_all_entries =
      some (.Ok entries, log_file)) :
    load_loop uninit d (file_id :: rest) index old_files active =
      if rest.isEmpty then
        load_loop uninit d rest (replay_entries file_id entries index) old_files
          (some (LogFile.mk_open file_id (d.data_content file_id) false))
      else
        load_loop uninit d rest (replay_entries file_id entries index)
          (old_files ++ [log_file]) active := by
  have hne : ((Result.Ok false : Result Bool) == Result.Ok true) = false := by decide
  rw [load_loop]
  simp only [hh, bitcask.read_hint_file, hne, Bool.false_eq_true, if_false, hs]
  rfl

/-- The loading loop over files without hint files: every file is scanned and
replayed, the last one becomes the active file. -/
theorem load_loop_scanned (uninit : List Byte) (d : Directory) (hh : ∀ id, d.hint_files id = none)
    (aid : Nat) (aes : List EntryMetadata) (ah : LogFile)
    (ha : (LogFile.mk_open aid (d.data_content aid) true).read_all_entries =
      some (.Ok aes, ah)) :
    ∀ (fs : List (Nat × List EntryMetadata × LogFile)) (index : HashIndex) (acc : List LogFile),
      (∀ p ∈ fs, (LogFile.mk_open p.1 (d.data_content p.1) true).read_all_entries =
        some (.Ok p.2.1, p.2.2)) →
      load_loop uninit d (fs.map (fun p => p.1) ++ [aid]) index acc none =
        some (.Ok (replay_files (fs.map (fun p => (p.1, p.2.1)) ++ [(aid, aes)]) index,
          acc ++ fs.map (fun p => p.2.2),
          some (LogFile.mk_open aid (d.data_content aid) false))) := by
  intro fs
  induction fs with
  | nil =>
    intro index acc _
    rw [List.map_nil, List.nil_append, load_loop_cons uninit d aid [] index acc none aes ah
      (hh aid) ha]
    simp only [List.isEmpty_nil, if_true, List.map_nil, List.append_nil, List.nil_append]
    rw [load_loop]
    rfl
  | cons p fs ih =>
    intro index acc hfs
    have hp := hfs p (List.mem_cons_self _ _)
    rw [List.map_cons, List.cons_append, load_loop_cons uninit d p.1 _ index acc none p.2.1 p.2.2
      (hh p.1) hp]
    have hne : (fs.map (fun p => p.1) ++ [aid]).isEmpty = false := by
      cases fs <;> rfl
    simp only [hne, Bool.false_eq_true, if_false]
    rw [ih _ _ (fun q hq => hfs q (List.mem_cons_of_mem _ hq))]
    simp only [List.map_cons, List.cons_append, List.append_assoc, List.singleton_append]
    rfl

end Bitcask
end bitcask

namespace bitcask

theorem orderedInsert_last (a : Nat) (l : List Nat) (hlt : ∀ i ∈ l, i < a) :
    l.orderedInsert (fun a b => a ≤ b) a = l ++ [a] := by
  induction l with
  | nil => rfl
  | cons b l ih =>
    have hb : ¬ a ≤ b := by
      have := hlt b (List.mem_cons_self _ _)
      omega
    rw [List.orderedInsert, if_neg hb, ih (fun i hi => hlt i (List.mem_cons_of_mem _ hi))]
    rfl

theorem insertionSort_last (a : Nat) (l : List Nat) (hp : l.Pairwise (fun x y => x < y))
    (hlt : ∀ i ∈ l, i < a) :
    (a :: l).insertionSort (fun a b => a ≤ b) = l ++ [a] := by
  have hs : l.Sorted (fun a b => a ≤ b) := hp.imp (fun h => Nat.le_of_lt h)
  rw [List.insertionSort, List.Sorted.insertionSort_eq hs]
  exact orderedInsert_last a l hlt

theorem find_pair_of_mem (l : List (Nat × List Byte)) (hnd : (l.map Prod.fst).Nodup)
    (q : Nat × List Byte) (hq : q ∈ l) : l.find? (fun p => p.1 == q.1) = some q := by
  induction l with
  | nil => exact absurd hq (List.not_mem_nil q)
  | cons x l ih =>
    rw [List.map_cons, List.nodup_cons] at hnd
    rcases List.mem_cons.mp hq with h | h
    · subst h
      simp
    · have hne : x.1 ≠ q.1 := by
        intro he
        exact hnd.1 (he ▸ List.mem_map_of_mem Prod.fst h)
      rw [List.find?_cons_of_neg _ (by simpa using hne)]
      exact ih hnd.2 h

theorem find_content (l : List LogFile) (i : Nat) :
    (l.find? (fun f => f.id == i)).map (fun f => f.content) =
      ((l.map (fun f => (f.file_id_, f.content))).find? (fun p => p.1 == i)).map
        (fun p => p.2) := by
  induction l with
  | nil => rfl
  | cons f l ih =>
    rw [List.map_cons]
    by_cases h : f.id = i
    · have h' : f.file_id_ = i := h
      rw [List.find?_cons_of_pos _ (by simpa using h),
        List.find?_cons_of_pos _ (by simpa using h')]
      rfl
    · have h' : ¬ f.file_id_ = i := h
      rw [List.find?_cons_of_neg _ (by simpa using h),
        List.find?_cons_of_neg _ (by simpa using h')]
      exact ih


namespace Bitcask

/-- Closing and reopening a database whose files are logs of well-formed records
(and which has no hint files): every file is scanned in ascending order of id and
replayed, the file with the largest id becomes the active file. -/
theorem reopen_logged_with (uninit : List Byte) (b : Bitcask) (fs : List (Nat × List LogRecord))
    (act : List LogRecord) (hh : b.hint_files = fun _ => none) (ho : b.ids_ordered)
    (hl : b.logged_with fs act) :
    b.reopen uninit = some (.Ok
      { max_file_size := b.max_file_size,
        index_ := replay_files
          (fs.map (fun p => (p.1, entry_metas 0 p.2)) ++
            [(b.active_file_.file_id_, entry_metas 0 act)]) HashIndex.empty,
        old_files_ := fs.map (fun p => scanned p.1 (encode_all p.2)),
        active_file_ := LogFile.mk_open b.active_file_.file_id_ (encode_all act) false,
        next_file_id_ := (b.active_file_.file_id_ + 1) % 2 ^ 32,
        hint_files := b.hint_files }) := by
  obtain ⟨h1, h2, h3, h4, _⟩ := hl
  obtain ⟨hp, hlt, _⟩ := ho
  have hids : b.old_files_.map LogFile.id = fs.map (fun p => p.1) := by
    have := congrArg (List.map (fun p : Nat × List Byte => p.1)) h1
    rw [List.map_map, List.map_map] at this
    exact this
  have hfiles : b.directory.data_files =
      (b.active_file_.file_id_, encode_all act) :: fs.map (fun p => (p.1, encode_all p.2)) := by
    show (b.active_file_ :: b.old_files_).map (fun f => (f.file_id_, f.content)) = _
    rw [List.map_cons, h1, h2]
  have hsorted : (b.directory.data_files.map (fun p => p.1)).insertionSort (fun a b => a ≤ b) =
      fs.map (fun p => p.1) ++ [b.active_file_.file_id_] := by
    rw [hfiles, List.map_cons, List.map_map]
    exact insertionSort_last _ (fs.map (fun p => p.1)) (by rw [← hids]; exact hp)
      (by rw [← hids]; exact hlt)
  have hda : b.directory.data_content b.active_file_.file_id_ = encode_all act := by
    unfold Directory.data_content
    rw [hfiles, List.find?_cons_of_pos _ (by simp)]
  have hnd : ((fs.map (fun p => (p.1, encode_all p.2))).map Prod.fst).Nodup := by
    rw [List.map_map]
    have : (fs.map (fun p => p.1)).Pairwise (fun x y => x < y) := by rw [← hids]; exact hp
    exact (this.imp (fun h => Nat.ne_of_lt h) : (fs.map (fun p => p.1)).Pairwise (· ≠ ·))
  have hdp : ∀ p ∈ fs, b.directory.data_content p.1 = encode_all p.2 := by
    intro p hp'
    have hne : ¬ (b.active_file_.file_id_ = p.1) := by
      have : p.1 < b.active_file_.id := hlt p.1 (by rw [hids]; exact List.mem_map_of_mem _ hp')
      have e : b.active_file_.id = b.active_file_.file_id_ := rfl
      omega
    unfold Directory.data_content
    rw [hfiles, List.find?_cons_of_neg _ (by simpa using hne),
      find_pair_of_mem _ hnd (p.1, encode_all p.2)
        (List.mem_map_of_mem (fun p => (p.1, encode_all p.2)) hp')]
  have ha : (LogFile.mk_open b.active_file_.file_id_
      (b.directory.data_content b.active_file_.file_id_) true).read_all_entries =
      some (.Ok (entry_metas 0 act), scanned b.active_file_.file_id_ (encode_all act)) := by
    rw [hda]
    exact LogFile.read_all_entries_encode_all _ _ act h4
  have hfs : ∀ p ∈ fs.map (fun p => (p.1, entry_metas 0 p.2, scanned p.1 (encode_all p.2))),
      (LogFile.mk_open p.1 (b.directory.data_content p.1) true).read_all_entries =
        some (.Ok p.2.1, p.2.2) := by
    intro q hq
    obtain ⟨p, hp', rfl⟩ := List.mem_map.mp hq
    show (LogFile.mk_open p.1 (b.directory.data_content p.1) true).read_all_entries = _
    rw [hdp p hp']
    exact LogFile.read_all_entries_encode_all _ _ p.2 (h3 p hp')
  have hload := load_loop_scanned uninit b.directory (fun id => congrFun hh id)
    b.active_file_.file_id_ (entry_metas 0 act) _ ha _ HashIndex.empty [] hfs
  rw [List.map_map, List.map_map, List.map_map, List.nil_append] at hload
  unfold reopen open_dir
  simp only [hsorted]
  have hload' : load_loop uninit b.directory (fs.map (fun p => p.1) ++ [b.active_file_.file_id_])
      HashIndex.empty [] none = _ := hload
  rw [hload']
  simp only [List.getLast?_append, List.getLast?_singleton, Option.or_some, Option.getD_some, hda]
  rfl

end Bitcask
end bitcask

namespace bitcask

theorem le_value_lt (bs : List Byte) : le_value bs < 256 ^ bs.length := by
  induction bs with
  | nil => simp [le_value]
  | cons b bs ih =>
    have hb : b.val < 256 := b.isLt
    simp only [le_value, List.length_cons, Nat.pow_succ]
    omega

theorem le_value_take4_lt (bs : List Byte) : le_value (bs.take 4) < 2 ^ 32 := by
  have h := le_value_lt (bs.take 4)
  have hl : (bs.take 4).length ≤ 4 := by
    rw [List.length_take]; exact Nat.min_le_left _ _
  have hp : 256 ^ (bs.take 4).length ≤ 256 ^ 4 := Nat.pow_le_pow_right (by decide) hl
  have e : (256 : Nat) ^ 4 = 2 ^ 32 := by norm_num
  omega

namespace LogFile

theorem read_length (f : LogFile) (n : Nat) : (f.read n).1.length ≤ n := by
  unfold read
  by_cases hg : f.good = true
  · simp only [hg, if_true]
    split
    · rw [List.length_take]; exact Nat.min_le_left _ _
    · rw [List.length_take]; exact Nat.min_le_left _ _
  · simp [hg]

theorem fill_buffer_length (n : Nat) (got : List Byte) (h : got.length ≤ n) :
    (fill_buffer n got).length = n := by
  simp only [fill_buffer, zeros, List.length_append, List.length_replicate]
  omega

/-- Every entry the scan loop reports has a key and a value size that fit the
`uint32_t` header fields they were read from. -/
theorem scan_loop_sizes (fuel : Nat) :
    ∀ (f : LogFile) (entries : List EntryMetadata) (r : List EntryMetadata × LogFile),
      scan_loop fuel f entries = some r →
      (∀ e ∈ entries, e.key.length < 2 ^ 32 ∧ e.value_size < 2 ^ 32) →
      ∀ e ∈ r.1, e.key.length < 2 ^ 32 ∧ e.value_size < 2 ^ 32 := by
  induction fuel with
  | zero => intro f entries r h; exact Option.noConfusion h
  | succ fuel ih =>
    intro f entries r h hq
    by_cases hg : f.good = true
    · rw [scan_loop] at h
      simp only [tellg_good hg] at h
      split at h
      · split at h
        · injection h with h; subst h; exact hq
        · split at h
          · injection h with h; subst h; exact hq
          · split at h
            · injection h with h; subst h; exact hq
            · refine ih _ _ r h ?_
              intro e he
              rcases List.mem_append.mp he with he | he
              · exact hq e he
              · rw [List.mem_singleton] at he
                subst he
                refine ⟨?_, le_value_take4_lt _⟩
                show (fill_buffer _ _).length < 2 ^ 32
                rw [fill_buffer_length _ _ (read_length _ _)]
                exact le_value_take4_lt _
      · injection h with h; subst h; exact hq
    · have hng : ¬ ({ f with failbit := true } : LogFile).good = true := by simp [good]
      have hlt : (-1 : Int) < (f.current_size_ : Int) := by omega
      have ht1 : f.tellg = (-1, { f with failbit := true }) := by simp [tellg, hg]
      have ht2 : ({ f with failbit := true } : LogFile).tellg =
          (-1, { f with failbit := true }) := by
        simp [tellg, hng]
      have hb : (!({ f with failbit := true } : LogFile).good) = true := by simp [good]
      rw [scan_loop] at h
      simp only [ht1, ht2, hlt, if_true, read_not_good 16 hng, hb] at h
      injection h with h; subst h; exact hq

/-- On an open handle `read_all_entries` returns `Ok`, and every entry has a key
and a value size below `2 ^ 32`. -/
theorem read_all_entries_open (f : LogFile) (ho : f.is_open = true) :
    ∃ entries f1, f.read_all_entries = some (.Ok entries, f1) ∧
      ∀ e ∈ entries, e.key.length < 2 ^ 32 ∧ e.value_size < 2 ^ 32 := by
  have hm : scan_measure (f.seekg 0) < f.content.length + 2 := by
    unfold scan_measure seekg
    by_cases hf : f.failbit = true
    · simp [hf, good]
    · simp only [hf, if_false, Bool.false_eq_true]
      split
      · simp only [Nat.sub_zero]; omega
      · omega
  obtain ⟨es, f1, h⟩ := scan_loop_total (f.content.length + 2) (f.seekg 0) [] hm
  have hs := scan_loop_sizes _ _ _ _ h (fun e he => absurd he (List.not_mem_nil e))
  unfold read_all_entries
  simp only [ho, Bool.not_true, if_false, Bool.false_eq_true, h]
  exact ⟨_, _, rfl, hs⟩

end LogFile
end bitcask

namespace bitcask

theorem replay_entries_sizes (file_id : Nat) (entries : List EntryMetadata) :
    ∀ index : HashIndex, (∀ en ∈ entries, en.value_size < 2 ^ 32) →
      (∀ k e, index.index_.lookup k = some e → e.value_size < 2 ^ 32) →
      ∀ k e, (replay_entries file_id entries index).index_.lookup k = some e →
        e.value_size < 2 ^ 32 := by
  induction entries with
  | nil => intro index _ h; exact h
  | cons en entries ih =>
    intro index hen h
    apply ih _ (fun x hx => hen x (List.mem_cons_of_mem _ hx))
    intro k e hl
    by_cases hk : k = en.key
    · subst hk
      simp only [HashIndex.put, AList.lookup_insert] at hl
      injection hl with hl
      subst hl
      exact hen en (List.mem_cons_self _ _)
    · simp only [HashIndex.put, AList.lookup_insert_ne hk] at hl
      exact h k e hl

namespace Bitcask

/-- On a directory without hint files the loading loop returns, and every index
entry it adds has a value size below `2 ^ 32`. -/
theorem load_loop_sizes (uninit : List Byte) (d : Directory) (hh : ∀ id, d.hint_files id = none)
    (ids : List Nat) :
    ∀ (index : HashIndex) (old_files : List LogFile) (active : Option LogFile),
      (∀ k e, index.index_.lookup k = some e → e.value_size < 2 ^ 32) →
      ∃ r, load_loop uninit d ids index old_files active = some (.Ok r) ∧
        ∀ k e, r.1.index_.lookup k = some e → e.value_size < 2 ^ 32 := by
  induction ids with
  | nil =>
    intro index old_files active h
    exact ⟨_, by rw [load_loop], h⟩
  | cons id rest ih =>
    intro index old_files active h
    obtain ⟨es, f1, hs, hq⟩ := LogFile.read_all_entries_open
      (LogFile.mk_open id (d.data_content id) true) rfl
    have h2 := replay_entries_sizes id es index (fun en hen => (hq en hen).2) h
    rw [load_loop_cons uninit d id rest index old_files active es f1 (hh id) hs]
    split
    · exact ih _ _ _ h2
    · exact ih _ _ _ h2

/-- Opening a directory without hint files succeeds, and every index entry has a
value size below `2 ^ 32`. -/
theorem open_dir_sizes (uninit : List Byte) (max_file_size : Nat) (d : Directory)
    (hh : ∀ id, d.hint_files id = none) :
    ∃ b, open_dir uninit max_file_size d = some (.Ok b) ∧
      ∀ k e, b.index_.index_.lookup k = some e → e.value_size < 2 ^ 32 := by
  obtain ⟨⟨index, old_files, active⟩, hr, hq⟩ := load_loop_sizes uninit d hh
    ((d.data_files.map (fun p => p.1)).insertionSort (fun a b => a ≤ b)) HashIndex.empty [] none
    (fun k e h => by simp [HashIndex.empty] at h)
  unfold open_dir
  simp only [hr]
  cases active with
  | none => exact ⟨_, rfl, hq⟩
  | some a => exact ⟨_, rfl, hq⟩

theorem read_value_length (f : LogFile) (p n : Nat) (x : Bytes)
    (h : (f.read_value p n).1 = .Ok x) : x.length = n := by
  unfold LogFile.read_value at h
  split at h
  · exact Result.noConfusion h
  · simp only [] at h
    split at h
    · exact Result.noConfusion h
    · injection h with h
      subst h
      exact LogFile.fill_buffer_length _ _ (LogFile.read_length _ _)

/-- A value `get` returns has the length the index entry of the key records. -/
theorem get_length (b : Bitcask) (k x : Bytes) (h : (b.get k).1 = .Ok x) :
    ∃ e, b.index_.index_.lookup k = some e ∧ x.length = e.value_size := by
  unfold get at h
  cases hg : b.index_.get k with
  | none =>
    rw [hg] at h
    exact Result.noConfusion h
  | some e =>
    rw [hg] at h
    simp only [] at h
    refine ⟨e, (get_some_not_tombstone hg).1, ?_⟩
    split at h
    · exact read_value_length _ _ _ _ h
    · have hfst := read_old_fst b.old_files_ e.file_id e.value_pos e.value_size
      cases hr : read_old b.old_files_ e.file_id e.value_pos e.value_size with
      | none =>
        rw [hr] at h
        exact Result.noConfusion h
      | some p =>
        rw [hr] at h hfst
        simp only [Option.map_some'] at hfst
        cases hf : b.old_files_.find? (fun f => f.id == e.file_id) with
        | none => rw [hf] at hfst; exact Option.noConfusion hfst
        | some f =>
          rw [hf] at hfst
          simp only [Option.map_some', Option.some.injEq] at hfst
          have h' : p.1 = .Ok x := h
          rw [hfst] at h'
          exact read_value_length _ _ _ _ h'

theorem put_hint_files (b : Bitcask) (k v : Bytes) (now : Nat) :
    (b.put k v now).2.hint_files = b.hint_files := by
  unfold put
  split
  · rfl
  · simp only []
    split
    · rfl
    · split <;> rfl

end Bitcask


end bitcask

namespace bitcask

theorem last_put_fits (ops : List Op) (hfit : ∀ op ∈ ops, op.fits) :
    ∀ m : Bytes → Option Bytes, (∀ k v, m k = some v → v.length < 2 ^ 32) →
      ∀ k v, ops.foldl last_put_step m k = some v → v.length < 2 ^ 32 := by
  induction ops with
  | nil => intro m hm k v h; exact hm k v h
  | cons op ops ih =>
    intro m hm
    apply ih (fun o ho => hfit o (List.mem_cons_of_mem _ ho))
    have hop := hfit op (List.mem_cons_self _ _)
    cases op with
    | put key value now =>
      intro k v h
      simp only [last_put_step] at h
      split at h
      · exact hm k v h
      · by_cases hk : k = key
        · subst hk
          rw [Function.update_same] at h
          injection h with h
          subst h
          exact hop.2
        · rw [Function.update_noteq hk] at h
          exact hm k v h
    | del key now =>
      intro k v h
      simp only [last_put_step] at h
      by_cases hk : k = key
      · subst hk
        rw [Function.update_same] at h
        exact Option.noConfusion h
      · rw [Function.update_noteq hk] at h
        exact hm k v h
    | merge => exact hm

/-- C5, amended. Persistence of puts: for any sequence of put and delete
operations (no merge) applied to a database opened on an empty directory, with
any `max_file_size`, in which the key and the value of every put have fewer than
`2 ^ 32` bytes, and which leaves the id counter at most `2 ^ 32 - 1`: closing and
reopening the database on the same directory succeeds, and for every key `k`
whose last operation in the sequence was a put `put(k, v)` with a non-empty key,
`get(k)` on the reopened database returns exactly `v`. -/
theorem puts_survive_reopen (max_file_size : Nat) (ops : List Op) (uninit : List Byte)
    (hops : ∀ op ∈ ops, op ≠ Op.merge) (hfit : ∀ op ∈ ops, op.fits)
    (hn : ((Bitcask.open_empty max_file_size).run ops).next_file_id_ ≤ 2 ^ 32 - 1) :
    ∃ b, ((Bitcask.open_empty max_file_size).run ops).reopen uninit = some (.Ok b) ∧
      ∀ k v, last_put ops k = some v → (b.get k).1 = .Ok v := by
  obtain ⟨_, hcond⟩ := Bitcask.reach_sound max_file_size ops hops
  obtain ⟨hord, _, hag⟩ := hcond hn
  obtain ⟨hh, hlog⟩ := Bitcask.reach_logged max_file_size ops hops hfit
  obtain ⟨fs, act, hl⟩ := hlog hn
  refine ⟨_, Bitcask.reopen_logged_with uninit _ fs act hh hord hl, ?_⟩
  intro k v hm
  obtain ⟨h1, h2, _, _, h5⟩ := hl
  obtain ⟨e, c, he, hsz, hc, hv⟩ := Bitcask.agrees_some hag hm
  have hvl : v.length < 2 ^ 32 :=
    last_put_fits ops hfit (fun _ => none) (fun _ _ h => Option.noConfusion h) k v hm
  obtain ⟨_, hnt⟩ := get_some_not_tombstone he
  have hget := Bitcask.get_of_entry
    { max_file_size := ((Bitcask.open_empty max_file_size).run ops).max_file_size,
      index_ := replay_files
        (fs.map (fun p => (p.1, entry_metas 0 p.2)) ++
          [(((Bitcask.open_empty max_file_size).run ops).active_file_.file_id_,
            entry_metas 0 act)]) HashIndex.empty,
      old_files_ := fs.map (fun p => scanned p.1 (encode_all p.2)),
      active_file_ := LogFile.mk_open
        ((Bitcask.open_empty max_file_size).run ops).active_file_.file_id_ (encode_all act) false,
      next_file_id_ :=
        (((Bitcask.open_empty max_file_size).run ops).active_file_.file_id_ + 1) % 2 ^ 32,
      hint_files := ((Bitcask.open_empty max_file_size).run ops).hint_files }
    k e c ⟨rfl, rfl, rfl, rfl⟩ ?_ (get_of_lookup (h5 k e he).2 hnt) ?_ (by rw [hv, hsz])
  · rw [hget, hv, readable_of_lt v hvl]
  · intro f hf
    obtain ⟨p, _, rfl⟩ := List.mem_map.mp hf
    exact ⟨rfl, rfl⟩
  · unfold Bitcask.file_content at hc ⊢
    simp only []
    have hold : (fs.map (fun p => scanned p.1 (encode_all p.2))).map
        (fun f => (f.file_id_, f.content)) =
        ((Bitcask.open_empty max_file_size).run ops).old_files_.map
          (fun f => (f.file_id_, f.content)) := by
      rw [h1, List.map_map]
      rfl
    rw [find_content, hold, ← find_content]
    have hid : (LogFile.mk_open
        ((Bitcask.open_empty max_file_size).run ops).active_file_.file_id_ (encode_all act)
        false).id = ((Bitcask.open_empty max_file_size).run ops).active_file_.id := rfl
    have hcont : (LogFile.mk_open
        ((Bitcask.open_empty max_file_size).run ops).active_file_.file_id_ (encode_all act)
        false).content = ((Bitcask.open_empty max_file_size).run ops).active_file_.content := by
      rw [h2]; rfl
    rw [hid, hcont]
    exact hc

/-- Witness of C5, amended (scenario 4, with a rotation): `put("a","1")`,
`delete("a")`, `put("a","3")`, reopen, `get("a")`. -/
theorem puts_survive_reopen_witness :
    ∃ b, ((Bitcask.open_empty 40).run
        [.put [97] [49] 1, .del [97] 2, .put [97] [51] 3]).reopen [] = some (.Ok b) ∧
      (b.get [97]).1 = .Ok [51] := by
  obtain ⟨b, h1, h2⟩ := puts_survive_reopen 40 [.put [97] [49] 1, .del [97] 2, .put [97] [51] 3]
    [] (by decide) (by decide) (by decide)
  exact ⟨b, h1, h2 [97] [51] (by decide)⟩

theorem Bitcask.run_singleton (b : Bitcask) (op : Op) : b.run [op] = b.step op := by
  simp only [Bitcask.run, List.foldl]

theorem Bitcask.directory_hint_files (b : Bitcask) : b.directory.hint_files = b.hint_files := rfl

theorem Bitcask.step_put_hint_files (b : Bitcask) (k v : Bytes) (now : Nat) :
    (b.step (.put k v now)).hint_files = b.hint_files := Bitcask.put_hint_files b k v now

/-- C5 does not hold for a value of `2 ^ 32` bytes. After `put("k", v)` with such
a value on an empty database, closing and reopening succeeds, but `get("k")` on
the reopened database does not return `v`: the value size of every index entry
the replay builds comes from a `uint32_t` header field. -/
theorem long_value_is_lost_by_reopen :
    ∃ b, ((Bitcask.open_empty 64).run [.put [107] (List.replicate (2 ^ 32) 0) 0]).reopen [] =
        some (.Ok b) ∧
      last_put [.put [107] (List.replicate (2 ^ 32) 0) 0] [107] =
        some (List.replicate (2 ^ 32) 0) ∧
      (b.get [107]).1 ≠ .Ok (List.replicate (2 ^ 32) 0) := by
  have hh : ∀ id,
      ((Bitcask.open_empty 64).run [.put [107] (List.replicate (2 ^ 32) 0) 0]).directory.hint_files
        id = none := by
    intro id
    rw [Bitcask.directory_hint_files, Bitcask.run_singleton, Bitcask.step_put_hint_files]
    rfl
  obtain ⟨b, hb, hq⟩ := Bitcask.open_dir_sizes []
    ((Bitcask.open_empty 64).run [.put [107] (List.replicate (2 ^ 32) 0) 0]).max_file_size _ hh
  refine ⟨b, hb, ?_, ?_⟩
  · show Function.update (fun _ => none) [107] (some (List.replicate (2 ^ 32) (0 : Byte)))
      [107] = _
    exact Function.update_same _ _ _
  · intro h
    obtain ⟨e, he, hl⟩ := Bitcask.get_length b _ _ h
    have := hq _ e he
    rw [List.length_replicate] at hl
    omega

end bitcask

namespace bitcask

namespace Bitcask

end Bitcask
end bitcask

namespace bitcask
namespace LogFile

end LogFile

namespace Bitcask

end Bitcask
end bitcask

namespace bitcask

namespace Bitcask

end Bitcask
end bitcask

namespace bitcask
namespace Bitcask

end Bitcask
end bitcask

namespace bitcask

namespace Bitcask

end Bitcask
end bitcask

namespace bitcask
namespace Bitcask

end Bitcask

end bitcask

namespace bitcask
namespace Bitcask

end Bitcask

end bitcask
